import Mathlib

/-!
# Verification of the `rs_bt_bst` binary-search-tree family

Shallow embedding of the repository's five dictionary variants
(AVL, red-black, splay, treap, raw BST) and proofs about the claims of
the specification.  Keys, values and treap weights are embedded as `Nat`
(the source is generic over a totally ordered key type `K: Ord` and an
opaque value type `V`; weights are `usize`).  Raw parent pointers are
dropped: a tree is the inductive structure of its child links, and
upward pointer walks of the source are embedded as recursions carrying
an explicit context.
-/

set_option maxHeartbeats 1000000

namespace RsBtBst

/-! ## Treap (src/src/bst/treap.rs)

`struct TreapNode { left, right, paren, weight: W, key: *mut K, value: *mut V }`
with `paren` dropped.  `Tr.nil` is the null pointer. -/

inductive Tr : Type where
  | nil : Tr
  | node (left : Tr) (right : Tr) (weight : Nat) (key : Nat) (value : Nat) : Tr
  deriving DecidableEq, Repr

namespace Tr

/-- The key stored at the root node (`(*x).key_bst()`); `0` dummy on null. -/
def keyD : Tr → Nat
  | nil => 0
  | node _ _ _ k _ => k

/-- The value stored at the root node; `0` dummy on null. -/
def valD : Tr → Nat
  | nil => 0
  | node _ _ _ _ v => v

/-- The weight stored at the root node; `0` dummy on null. -/
def weightD : Tr → Nat
  | nil => 0
  | node _ _ w _ _ => w

/-- Embeds `Treap::find` (treap.rs:301): recursive descent, returning the
node (here: the subtree rooted at it) holding `key`, or null. -/
def find : Tr → Nat → Option Tr
  | nil, _ => none
  | node l r w k v, key =>
    if key = k then some (node l r w k v)
    else if key < k then find l key
    else find r key

/-- Embeds `Treap::split` (treap.rs:323): split into (keys ≤ `key`, keys > `key`);
`connect_left`/`connect_right` become rebuilding the node with the new child. -/
def split : Tr → Nat → Tr × Tr
  | nil, _ => (nil, nil)
  | node l r w k v, key =>
    if key < k then
      let p := split l key
      (p.1, node p.2 r w k v)
    else
      let p := split r key
      (node l p.1 w k v, p.2)

/-- Embeds `Treap::join` (treap.rs:350): merge by weight; the heavier root
wins, its inner child is joined recursively with the other tree. -/
def join : Tr → Tr → Tr
  | nil, v => v
  | node ul ur uw uk uv, nil => node ul ur uw uk uv
  | node ul ur uw uk uv, node vl vr vw vk vv =>
    if uw > vw then
      node ul (join ur (node vl vr vw vk vv)) uw uk uv
    else
      node (join (node ul ur uw uk uv) vl) vr vw vk vv
  termination_by u v => sizeOf u + sizeOf v

/-- Embeds `Treap::insert_` (treap.rs:249): duplicate check by `find`,
then `join (join lf new) rh` of the split halves.  Returns the flag and
the new tree (`reset_root`). -/
def insert_ (t : Tr) (key value weight : Nat) : Bool × Tr :=
  match t with
  | nil => (true, node nil nil weight key value)
  | node l r w k v =>
    if ((node l r w k v).find key).isSome then (false, node l r w k v)
    else
      let p := (node l r w k v).split key
      let lf := join p.1 (node nil nil weight key value)
      (true, join lf p.2)

/-- The rightmost descendant (`BTNode::maximum`, lib.rs:602). -/
def maximum : Tr → Tr
  | nil => nil
  | node l nil w k v => node l nil w k v
  | node _ (node rl rr rw rk rv) _ _ _ => maximum (node rl rr rw rk rv)

/-- Modelled from the spec: `BSTNode::precessor_bst` (src/src/bst/mod.rs is
absent from the sources).  Spec §4.2: in-order predecessor — if the left
child exists, the maximum of the left subtree; else the nearest ancestor
reached from a right child.  Embedded as a descent to `key` carrying the
last ancestor left behind on the right. -/
def precessor : Tr → Nat → Option Tr → Option Tr
  | nil, _, _ => none
  | node l r w k v, key, cand =>
    if key = k then
      match l with
      | nil => cand
      | node ll lr lw lk lv => some ((node ll lr lw lk lv).maximum)
    else if key < k then precessor l key cand
    else precessor r key (some (node l r w k v))

/-- Embeds `Treap::remove_` (treap.rs:270): find the target, split the
tree around the predecessor's key and around `key`, rejoin the flanks.
Returns the removed node and the new tree. -/
def remove_ (t : Tr) (key : Nat) : Option Tr × Tr :=
  match t with
  | nil => (none, nil)
  | node l r w k v =>
    let t0 := node l r w k v
    match t0.find key with
    | none => (none, t0)
    | some x =>
      match t0.precessor key none with
      | none =>
        (some x, (t0.split key).2)
      | some pred =>
        let p1 := t0.split pred.keyD
        let p2 := p1.2.split key
        (some x, join p1.1 p2.2)

/-- Embeds `BTNode::search_approximately` (lib.rs:694) at order 2:
descend; stop on a key match, on a leaf, or where the next child is null. -/
def searchApprox : Tr → Nat → Option Tr
  | nil, _ => none
  | node l r w k v, key =>
    if key = k then some (node l r w k v)
    else if key < k then
      match l with
      | nil => some (node l r w k v)
      | node ll lr lw lk lv => searchApprox (node ll lr lw lk lv) key
    else
      match r with
      | nil => some (node l r w k v)
      | node rl rr rw rk rv => searchApprox (node rl rr rw rk rv) key

/-- Embeds `BT::basic_lookup` (lib.rs:235): `search_approximately` then
`find_pos_of_key` (exact key check). -/
def get (t : Tr) (key : Nat) : Option Nat :=
  match t.searchApprox key with
  | none => none
  | some n => if n.keyD = key then some n.valD else none

/-- Embeds `BT::basic_modify` (lib.rs:277), the composition of
`search_approximately` and `assign_value` on the found node, rebuilt
functionally: the flag and the updated tree. -/
def basicModify : Tr → Nat → Nat → Bool × Tr
  | nil, _, _ => (false, nil)
  | node l r w k v, key, val =>
    if key = k then (true, node l r w k val)
    else if key < k then
      match l with
      | nil => (false, node l r w k v)
      | node ll lr lw lk lv =>
        let p := basicModify (node ll lr lw lk lv) key val
        (p.1, node p.2 r w k v)
    else
      match r with
      | nil => (false, node l r w k v)
      | node rl rr rw rk rv =>
        let p := basicModify (node rl rr rw rk rv) key val
        (p.1, node l p.2 w k v)

/-- Embeds `Dictionary::remove` for `Treap` (treap.rs:402):
`remove_` then `into_value`. -/
def removeD (t : Tr) (key : Nat) : Option Nat × Tr :=
  let p := t.remove_ key
  (p.1.map valD, p.2)

/-- Embeds `Heap::top` for `Treap` (treap.rs:438): the root's weight. -/
def top : Tr → Option Nat
  | nil => none
  | node _ _ w _ _ => some w

/-- Embeds `Heap::pop` for `Treap` (treap.rs:446): `remove_` at the
root's key, keeping the removed node's weight. -/
def pop (t : Tr) : Option Nat × Tr :=
  match t with
  | nil => (none, nil)
  | node l r w k v =>
    let p := (node l r w k v).remove_ k
    (p.1.map weightD, p.2)

/-- Embeds `Heap::push` for `Treap` (treap.rs:458): `insert_ key () weight`
(the unit value embedded as `0`). -/
def push (t : Tr) (key weight : Nat) : Tr :=
  (t.insert_ key 0 weight).2

/-- Embeds `Coll::len` for `Treap` (treap.rs:431): the body is `todo!()`,
which unconditionally panics; a panic is embedded as `none`. -/
def len (_ : Tr) : Option Nat := none

/-- Embeds `Coll::is_empty` (lib.rs:70): `self.len() == 0`; it calls the
panicking `len`, so it panics as well (`none`). -/
def isEmptyColl (t : Tr) : Option Bool :=
  (t.len).map (fun n => n = 0)

/-! ### Treap model: in-order lists and invariants -/

/-- In-order list of `(weight, key, value)` triples. -/
def toListW : Tr → List (Nat × Nat × Nat)
  | nil => []
  | node l r w k v => toListW l ++ (w, k, v) :: toListW r

/-- In-order list of keys. -/
def keys (t : Tr) : List Nat := t.toListW.map (fun e => e.2.1)

/-- All keys of the tree satisfy `p`. -/
def allKeys (t : Tr) (p : Nat → Bool) : Bool := t.keys.all p

/-- BST order (spec §3): left keys strictly below, right keys strictly
above, recursively. -/
def ordered : Tr → Bool
  | nil => true
  | node l r _ k _ =>
    l.allKeys (fun x => decide (x < k)) && r.allKeys (fun x => decide (k < x))
      && l.ordered && r.ordered

/-- Max-heap order on weights (treap.rs:57, `self_validate`):
each node's weight is ≥ its children's weights. -/
def heapOk : Tr → Bool
  | nil => true
  | node l r w _ _ =>
    (match l with | nil => true | node _ _ lw _ _ => decide (lw ≤ w))
      && (match r with | nil => true | node _ _ rw _ _ => decide (rw ≤ w))
      && l.heapOk && r.heapOk

/-- The weights of the tree, in in-order. -/
def weights (t : Tr) : List Nat := t.toListW.map (fun e => e.1)

/-- All weights of the tree satisfy `p`. -/
def allW (t : Tr) (p : Nat → Bool) : Bool := t.weights.all p

/-- States of the treap heap surface reachable from `Treap::new` by
`push` and `pop` (spec §6: the heap surface). -/
inductive HeapReach : Tr → Prop where
  | empty : HeapReach nil
  | push (t : Tr) (key weight : Nat) : HeapReach t → HeapReach (t.push key weight)
  | pop (t : Tr) : HeapReach t → HeapReach (t.pop).2

end Tr

/-! ## Splay tree (src/src/bst/splay.rs)

`struct SplayNode { paren, left, right, key: *mut K, value: *mut V }` with
`paren` dropped; the parent chain of a focused node is embedded as an
explicit list of ancestor frames (direction from the parent, the parent's
key and value, and the sibling subtree). -/

inductive ST : Type where
  | nil : ST
  | node (left : ST) (right : ST) (key : Nat) (value : Nat) : ST
  deriving DecidableEq, Repr

/-- A child direction (`Either<(),()>` in aux.rs: `Left`/`Right`). -/
inductive Dir : Type where
  | left : Dir
  | right : Dir
  deriving DecidableEq, Repr

/-- One ancestor frame: the focus's direction in its parent, the parent's
key and value, and the sibling subtree. -/
abbrev SFrame := Dir × Nat × Nat × ST

namespace Splay

open ST

/-- Rebuild the tree from a focus and its ancestor frames (the identity
plumbing of the parent pointers; no rotation). -/
def plug : ST → List SFrame → ST
  | x, [] => x
  | x, (Dir.left, pk, pv, sib) :: ctx => plug (node x sib pk pv) ctx
  | x, (Dir.right, pk, pv, sib) :: ctx => plug (node sib x pk pv) ctx

/-- Embeds `BTNode::search_approximately` (lib.rs:694) keeping the ancestor
frames of the stopping node: descend; stop on a key match, on a leaf, or
where the next child is null.  The focus is null only when the tree is. -/
def searchZ : ST → Nat → List SFrame → ST × List SFrame
  | nil, _, ctx => (nil, ctx)
  | node l r k v, key, ctx =>
    if key = k then (node l r k v, ctx)
    else if key < k then
      match l with
      | nil => (node l r k v, ctx)
      | node ll lr lk lv => searchZ (node ll lr lk lv) key ((Dir.left, k, v, r) :: ctx)
    else
      match r with
      | nil => (node l r k v, ctx)
      | node rl rr rk rv => searchZ (node rl rr rk rv) key ((Dir.right, k, v, l) :: ctx)

/-- Embeds `Splay::splay` (splay.rs:148): while the node has a parent,
rotate the parent in the direction opposite the node's own direction
(`self.rotate((*x).paren, x_dir.reverse())`), lifting the node one frame
per step until it is the root.  The null-focus case is unreachable in the
source (the splayed node is never null). -/
def splay : ST → List SFrame → ST
  | x, [] => x
  | node xl xr xk xv, (Dir.left, pk, pv, sib) :: ctx =>
    splay (node xl (node xr sib pk pv) xk xv) ctx
  | node xl xr xk xv, (Dir.right, pk, pv, sib) :: ctx =>
    splay (node (node sib xl pk pv) xr xk xv) ctx
  | nil, _ :: _ => nil

/-- Embeds `Dictionary::insert` for `Splay` (splay.rs:160): search; a key
match returns `false`; otherwise hook the new node under the approximate
node on the ordered side and splay the new node to the root. -/
def insert (t : ST) (key value : Nat) : Bool × ST :=
  match searchZ t key [] with
  | (nil, _) => (true, node nil nil key value)
  | (node l r k v, ctx) =>
    if k = key then (false, t)
    else if key < k then
      (true, splay (node nil nil key value) ((Dir.left, k, v, r) :: ctx))
    else
      (true, splay (node nil nil key value) ((Dir.right, k, v, l) :: ctx))

/-- In-order successor splice used by `Splay::remove`: `minimum` of the
right subtree removed from it (`subtree_shift(y, y.right)`), returning the
extracted (key, value) and the right subtree without it. -/
def removeMin : ST → (Nat × Nat) × ST
  | nil => ((0, 0), nil)
  | node nil r k v => ((k, v), r)
  | node (node ll lr lk lv) r k v =>
    let p := removeMin (node ll lr lk lv)
    (p.1, node p.2 r k v)

/-- Embeds `Dictionary::remove` for `Splay` (splay.rs:189): search, bail on
mismatch, splay the target to the root, then splice: an empty child is
replaced by the other; otherwise the in-order successor (taken out of the
right subtree) replaces the root, reattaching the left subtree. -/
def remove (t : ST) (key : Nat) : Option Nat × ST :=
  match searchZ t key [] with
  | (nil, _) => (none, t)
  | (node l r k v, ctx) =>
    if k ≠ key then (none, t)
    else
      match splay (node l r k v) ctx with
      | nil => (some v, nil)
      | node L R k0 v0 =>
        if L = nil then (some v, R)
        else if R = nil then (some v, L)
        else
          let p := removeMin R
          (some v, node L p.2 p.1.1 p.1.2)

/-- Embeds `Dictionary::get` for `Splay` (splay.rs:244): search; on a key
match splay the node (lookup mutates the tree) and return its value. -/
def get (t : ST) (key : Nat) : Option Nat × ST :=
  match searchZ t key [] with
  | (nil, _) => (none, t)
  | (node l r k v, ctx) =>
    if k ≠ key then (none, t)
    else (some v, splay (node l r k v) ctx)

/-- Embeds `Dictionary::modify` for `Splay` (splay.rs:227): search; when
the approximate node is non-null, overwrite its value and splay it —
without checking that its key equals the argument. -/
def modify (t : ST) (key value : Nat) : Bool × ST :=
  match searchZ t key [] with
  | (nil, _) => (false, t)
  | (node l r k v, ctx) => (true, splay (node l r k value) ctx)

end Splay

namespace ST

/-- In-order (key, value) list. -/
def toList : ST → List (Nat × Nat)
  | nil => []
  | node l r k v => toList l ++ (k, v) :: toList r

/-- In-order key list. -/
def keys (t : ST) : List Nat := t.toList.map (fun e => e.1)

/-- BST order (spec §3). -/
def ordered : ST → Bool
  | nil => true
  | node l r k _ =>
    (l.keys.all fun x => decide (x < k)) && (r.keys.all fun x => decide (k < x))
      && l.ordered && r.ordered

/-- The root key, if any. -/
def rootKey : ST → Option Nat
  | nil => none
  | node _ _ k _ => some k

/-- The root value, if any. -/
def rootVal : ST → Option Nat
  | nil => none
  | node _ _ _ v => some v

end ST

/-- Whether `key` respects every ancestor frame's bound (the interval the
hole of the context lies in). -/
def ctxBounds : List SFrame → Nat → Bool
  | [], _ => true
  | (Dir.left, pk, _, _) :: ctx, key => decide (key < pk) && ctxBounds ctx key
  | (Dir.right, pk, _, _) :: ctx, key => decide (pk < key) && ctxBounds ctx key

/-- Entries strictly to the left of the context hole, in order. -/
def ctxL : List SFrame → List (Nat × Nat)
  | [] => []
  | (Dir.left, _, _, _) :: ctx => ctxL ctx
  | (Dir.right, pk, pv, sib) :: ctx => ctxL ctx ++ sib.toList ++ [(pk, pv)]

/-- Entries strictly to the right of the context hole, in order. -/
def ctxR : List SFrame → List (Nat × Nat)
  | [] => []
  | (Dir.left, pk, pv, sib) :: ctx => (pk, pv) :: sib.toList ++ ctxR ctx
  | (Dir.right, _, _, _) :: ctx => ctxR ctx

/-! ## AVL tree (src/src/bst/avl.rs)

`struct AVLNode { left, right, paren, height: i32, key: *mut K, value: *mut V }`
with `paren` dropped; heights are embedded as `Int` (`-1` for an empty
child, as in `child_height`). -/

inductive AT : Type where
  | nil : AT
  | node (left : AT) (right : AT) (height : Int) (key : Nat) (value : Nat) : AT
  deriving DecidableEq, Repr

namespace AT

/-- The stored height (`BTNode::height` for AVL), `-1` on an empty link
(spec §3: empty = −1). -/
def heightD : AT → Int
  | nil => -1
  | node _ _ h _ _ => h

/-- In-order (key, value) list. -/
def toList : AT → List (Nat × Nat)
  | nil => []
  | node l r _ k v => toList l ++ (k, v) :: toList r

/-- In-order key list. -/
def keys (t : AT) : List Nat := t.toList.map (fun e => e.1)

/-- BST order (spec §3). -/
def ordered : AT → Bool
  | nil => true
  | node l r _ k _ =>
    (l.keys.all fun x => decide (x < k)) && (r.keys.all fun x => decide (k < x))
      && l.ordered && r.ordered

/-- Every stored height field equals 1 + max of the child heights (spec §3). -/
def heightsOk : AT → Bool
  | nil => true
  | node l r h _ _ =>
    decide (h = 1 + max (heightD l) (heightD r)) && l.heightsOk && r.heightsOk

/-- Every node's child heights differ by at most one (spec §3). -/
def balanced : AT → Bool
  | nil => true
  | node l r _ _ _ =>
    decide ((heightD r - heightD l).natAbs ≤ 1) && l.balanced && r.balanced

/-- Embeds `BTNode::calc_height` (lib.rs:562): recomputed height,
ignoring the stored field. -/
def calcHeight : AT → Int
  | nil => -1
  | node l r _ _ _ => max (calcHeight l) (calcHeight r) + 1

/-- Embeds `AVLNode::calc_bf` (avl.rs:60): computed right height minus
computed left height. -/
def calcBf : AT → Int
  | nil => 0
  | node l r _ _ _ => calcHeight r - calcHeight l

/-- Embeds `BTNode::basic_self_validate` (lib.rs:897) at order 2: each
non-null child's key is compared with the node's key, recursively. -/
def basicSelfValidate : AT → Bool
  | nil => true
  | node l r _ k _ =>
    (match l with | nil => true | node _ _ _ lk _ => decide (lk < k))
      && (match r with | nil => true | node _ _ _ rk _ => decide (k < rk))
      && l.basicSelfValidate && r.basicSelfValidate

/-- Embeds `Dictionary::self_validate` for `AVL` (avl.rs:419):
`basic_self_validate` plus `AVLNode::self_validate` (avl.rs:64), which
asserts `|calc_bf| < 2` at the root node only. -/
def selfValidate (t : AT) : Bool :=
  t.basicSelfValidate
    && (match t with
        | nil => true
        | node l r h k v => decide ((node l r h k v).calcBf.natAbs < 2))

end AT

namespace AVL

open AT

/-- Embeds `BST::rotate` toward the left with `AVL::rotate_cleanup`
(avl.rs:445): lift the right child, then recompute the heights of the
demoted and the lifted node, in that order.  An empty lifted child is a
contract violation (spec §4.2) and leaves the tree unchanged. -/
def rotateLeft : AT → AT
  | node l (node rl rr rh rk rv) _ k v =>
    let x := node l rl (1 + max (heightD l) (heightD rl)) k v
    node x rr (1 + max (heightD x) (heightD rr)) rk rv
  | t => t

/-- Embeds `BST::rotate` toward the right with `AVL::rotate_cleanup`:
mirror image of `rotateLeft`. -/
def rotateRight : AT → AT
  | node (node ll lr lh lk lv) r _ k v =>
    let x := node lr r (1 + max (heightD lr) (heightD r)) k v
    node ll x (1 + max (heightD ll) (heightD x)) lk lv
  | t => t

/-- Embeds `BST::double_rotate` toward the left (spec §4.2): rotate the
right child rightward, then the node leftward. -/
def doubleRotateLeft : AT → AT
  | node l r h k v => rotateLeft (node l (rotateRight r) h k v)
  | nil => nil

/-- Embeds `BST::double_rotate` toward the right: mirror image. -/
def doubleRotateRight : AT → AT
  | node l r h k v => rotateRight (node (rotateLeft l) r h k v)
  | nil => nil

/-- One visit of `AVL::remove_retracing` (avl.rs:277) at a node:
recompute the stored height, and when the balance factor leaves
{−1,0,1}, rotate toward the lighter side — a single rotation when the
heavier child's same-side subtree is at least as tall as its other
subtree, a double rotation otherwise. -/
def fixStep : AT → AT
  | nil => nil
  | node l r _ k v =>
    let h' := 1 + max (heightD l) (heightD r)
    if (heightD r - heightD l).natAbs > 1 then
      if heightD r > heightD l then
        match r with
        | nil => node l r h' k v
        | node rl rr rh rk rv =>
          if heightD rr ≥ heightD rl then
            rotateLeft (node l (node rl rr rh rk rv) h' k v)
          else
            doubleRotateLeft (node l (node rl rr rh rk rv) h' k v)
      else
        match l with
        | nil => node l r h' k v
        | node ll lr lh lk lv =>
          if heightD ll ≥ heightD lr then
            rotateRight (node (node ll lr lh lk lv) r h' k v)
          else
            doubleRotateRight (node (node ll lr lh lk lv) r h' k v)
    else node l r h' k v

/-- Embeds `Dictionary::insert` for `AVL` (avl.rs:337): `basic_insert`
(modelled from the spec §4.3, src/src/bst/mod.rs being absent: descend,
reject an existing key, hook the new node at the approximate node), then
`insert_retracing` = `remove_retracing` (avl.rs:273) applied bottom-up
from the new node through every ancestor — the unwind of the recursion. -/
def insert : AT → Nat → Nat → Bool × AT
  | nil, key, value => (true, fixStep (node nil nil 0 key value))
  | node l r h k v, key, value =>
    if key = k then (false, node l r h k v)
    else if key < k then
      let p := insert l key value
      if p.1 then (true, fixStep (node p.2 r h k v)) else (false, node l r h k v)
    else
      let p := insert r key value
      if p.1 then (true, fixStep (node l p.2 h k v)) else (false, node l r h k v)

/-- The in-order successor splice of `AVL::remove` (avl.rs:381-397): the
minimum of the right subtree is unlinked (its right child takes its
place) and returned; the retracing entry is its old parent, so the
retrace step runs at every node of the descent path on unwind, but not
at the transplanted child. -/
def removeMin : AT → (Nat × Nat) × AT
  | nil => ((0, 0), nil)
  | node nil r _ k v => ((k, v), r)
  | node (node ll lr lh lk lv) r h k v =>
    let p := removeMin (node ll lr lh lk lv)
    (p.1, fixStep (node p.2 r h k v))

/-- Embeds `Dictionary::remove` for `AVL` (avl.rs:362): search for the
key; on a miss return `None` untouched; else transplant with the single
child, or with the in-order successor for a two-child node, and run
`remove_retracing` from the retracing entry upward (the unwind). -/
def remove : AT → Nat → Option Nat × AT
  | nil, _ => (none, nil)
  | node l r h k v, key =>
    if key = k then
      match l, r with
      | nil, _ => (some v, r)
      | node ll lr lh lk lv, nil => (some v, node ll lr lh lk lv)
      | node ll lr lh lk lv, node rl rr rh rk rv =>
        let p := removeMin (node rl rr rh rk rv)
        (some v, fixStep (node (node ll lr lh lk lv) p.2 h p.1.1 p.1.2))
    else if key < k then
      let p := remove l key
      if p.1.isSome then (p.1, fixStep (node p.2 r h k v))
      else (p.1, node l r h k v)
    else
      let p := remove r key
      if p.1.isSome then (p.1, fixStep (node l p.2 h k v))
      else (p.1, node l r h k v)

/-- Embeds `BT::basic_lookup` (lib.rs:235) for AVL:
`search_approximately` then the exact key check. -/
def get : AT → Nat → Option Nat
  | nil, _ => none
  | node l r h k v, key =>
    if key = k then some v
    else if key < k then
      match l with
      | nil => none
      | node ll lr lh lk lv => get (node ll lr lh lk lv) key
    else
      match r with
      | nil => none
      | node rl rr rh rk rv => get (node rl rr rh rk rv) key

/-- Embeds `BT::basic_modify` (lib.rs:277) for AVL: search, and on an
exact match overwrite the value. -/
def basicModify : AT → Nat → Nat → Bool × AT
  | nil, _, _ => (false, nil)
  | node l r h k v, key, val =>
    if key = k then (true, node l r h k val)
    else if key < k then
      match l with
      | nil => (false, node l r h k v)
      | node ll lr lh lk lv =>
        let p := basicModify (node ll lr lh lk lv) key val
        (p.1, node p.2 r h k v)
    else
      match r with
      | nil => (false, node l r h k v)
      | node rl rr rh rk rv =>
        let p := basicModify (node rl rr rh rk rv) key val
        (p.1, node l p.2 h k v)

end AVL

/-- AVL trees reachable from `AVL::new` by the public mutating surface
(insert, remove, modify; get/get_mut do not change an AVL tree). -/
inductive AReach : AT → Prop where
  | empty : AReach AT.nil
  | insert (t : AT) (key value : Nat) : AReach t → AReach (AVL.insert t key value).2
  | remove (t : AT) (key : Nat) : AReach t → AReach (AVL.remove t key).2
  | modify (t : AT) (key value : Nat) : AReach t → AReach (AVL.basicModify t key value).2

/-! ## Red-black tree (src/src/bst/rb.rs)

`struct RBNode { left, right, paren, color: Color, key: *mut K, value: *mut V }`
with `paren` dropped; the bottom-up retracing loops become fixup steps
applied on the unwind of the recursive descent. -/

inductive Color : Type where
  | red : Color
  | black : Color
  deriving DecidableEq, Repr

inductive RbT : Type where
  | nil : RbT
  | node (color : Color) (left : RbT) (right : RbT) (key value : Nat) : RbT
  deriving DecidableEq, Repr

namespace RbT

/-- In-order (key, value) list. -/
def toList : RbT → List (Nat × Nat)
  | nil => []
  | node _ l r k v => toList l ++ (k, v) :: toList r

/-- In-order key list. -/
def keys (t : RbT) : List Nat := t.toList.map (fun e => e.1)

/-- BST order (spec §3). -/
def ordered : RbT → Bool
  | nil => true
  | node _ l r k _ =>
    (l.keys.all fun x => decide (x < k)) && (r.keys.all fun x => decide (k < x))
      && l.ordered && r.ordered

/-- Embeds `is_black` (rb.rs:53): a null link or a Black node. -/
def rootBlackB : RbT → Bool
  | nil => true
  | node c _ _ _ _ => decide (c = Color.black)

/-- Embeds `set_black` (rb.rs:61): a no-op on a null link. -/
def setBlack : RbT → RbT
  | nil => nil
  | node _ l r k v => node Color.black l r k v

/-- Embeds `set_red` (rb.rs:69): a no-op on a null link. -/
def setRed : RbT → RbT
  | nil => nil
  | node _ l r k v => node Color.red l r k v

/-- The black count of every root-to-empty path, the empty child counting
as one Black node (spec §3), or `none` when two paths disagree. -/
def bhn : RbT → Option Nat
  | nil => some 1
  | node c l r _ _ =>
    match bhn l, bhn r with
    | some a, some b =>
      if a = b then some (a + (if c = Color.black then 1 else 0)) else none
    | _, _ => none

/-- No Red node has a Red child (spec §3). -/
def nrr : RbT → Bool
  | nil => true
  | node c l r _ _ =>
    (if c = Color.red then l.rootBlackB && r.rootBlackB else true)
      && nrr l && nrr r

end RbT

namespace RB

open RbT

/-- Embeds `RB::insert_retracing` (rb.rs:415) as the fixup step run at
the grandparent `g` on the unwind, when the freshly updated left child
`p` is Red and holds a Red child `x` (the violating node: at `x`,
`p = (*x).paren` is Red, rb.rs:422, and `g` exists). The Red-uncle
branch (rb.rs:435-442) repaints `p` and `u` Black and `g` Red — the
continued retracing at `g` is the fixup applied by `g`'s own ancestors
on the unwind. The Black-uncle branch rotates at `g` by `(pdir, x_dir)`
(rb.rs:451-464: Left/Left single, Left/Right double) and repaints the
new subtree root Black and its other child Red (rb.rs:477-478). With a
Black left child, or a Red left child with Black children, no retracing
step fires (rb.rs:422: `p` Black returns). -/
def insFixL : RbT → RbT
  | node _ (node Color.red (node Color.red a b xk xv) c pk pv) u gk gv =>
    if u.rootBlackB then
      node Color.black (node Color.red a b xk xv) (node Color.red c u gk gv) pk pv
    else
      node Color.red (node Color.black (node Color.red a b xk xv) c pk pv)
        (setBlack u) gk gv
  | node _ (node Color.red a (node Color.red b c xk xv) pk pv) u gk gv =>
    if u.rootBlackB then
      node Color.black (node Color.red a b pk pv) (node Color.red c u gk gv) xk xv
    else
      node Color.red (node Color.black a (node Color.red b c xk xv) pk pv)
        (setBlack u) gk gv
  | t => t

/-- Mirror image of `insFixL`: the updated right child is the Red parent
of the violating node (rb.rs:451-464, Right/Right single rotation,
Right/Left double rotation). -/
def insFixR : RbT → RbT
  | node _ u (node Color.red a (node Color.red b c xk xv) pk pv) gk gv =>
    if u.rootBlackB then
      node Color.black (node Color.red u a gk gv) (node Color.red b c xk xv) pk pv
    else
      node Color.red (setBlack u)
        (node Color.black a (node Color.red b c xk xv) pk pv) gk gv
  | node _ u (node Color.red (node Color.red a b xk xv) c pk pv) gk gv =>
    if u.rootBlackB then
      node Color.black (node Color.red u a gk gv) (node Color.red b c pk pv) xk xv
    else
      node Color.red (setBlack u)
        (node Color.black (node Color.red a b xk xv) c pk pv) gk gv
  | t => t

/-- Embeds `Dictionary::insert` for `RB` (rb.rs:490): `basic_insert`
(modelled from the spec §4.3, src/src/bst/mod.rs being absent: descend,
reject an existing key, attach the new Red node at the leaf, rb.rs:83),
then `insert_retracing` (rb.rs:415) from the new node upward — the
unwind of the recursion, one fixup step per ancestor. -/
def ins : RbT → Nat → Nat → Bool × RbT
  | nil, key, value => (true, node Color.red nil nil key value)
  | node c l r k v, key, value =>
    if key = k then (false, node c l r k v)
    else if key < k then
      let p := ins l key value
      if p.1 then (true, insFixL (node c p.2 r k v)) else (false, node c l r k v)
    else
      let p := ins r key value
      if p.1 then (true, insFixR (node c l p.2 k v)) else (false, node c l r k v)

/-- The root is painted Black at the end of the retracing
(rb.rs:417-419: the fixup reaching a parentless node blackens it; a
Black root stays Black). -/
def insert (t : RbT) (key value : Nat) : Bool × RbT :=
  let p := ins t key value
  (p.1, if p.1 then setBlack p.2 else p.2)

/-- The Black-sibling cases of
`RB::remove_retracing_black_non_root_leaf` (rb.rs:392-412) at the
parent `p` whose left child `n` lost one unit of black height: `c` is
the close nephew (`s`'s child on `n`'s side), `d` the distant nephew.
Both nephews Black: repaint `s` Red, and either propagate the deficit
(`p` Black, rb.rs:397-398) or absorb it by blackening `p` (rb.rs:400).
Close nephew Red: `double_rotate(p, dir)`, `c` takes `p`'s color, `p`
turns Black (rb.rs:402-405). Otherwise `d` is Red: `rotate(p, dir)`,
`s` takes `p`'s color, `d` and `p` turn Black (rb.rs:406-412). The
boolean result flags a deficit that the caller's own fixup step
consumes. -/
def balLb (pc : Color) (n c d : RbT) (sk sv pk pv : Nat) : RbT × Bool :=
  if c.rootBlackB && d.rootBlackB then
    match pc with
    | Color.black => (node Color.black n (node Color.red c d sk sv) pk pv, true)
    | Color.red => (node Color.black n (node Color.red c d sk sv) pk pv, false)
  else if c.rootBlackB = false then
    match c with
    | node _ ca cb ck cv =>
      (node pc (node Color.black n ca pk pv) (node Color.black cb d sk sv) ck cv,
        false)
    | nil => (node pc n (node Color.black c d sk sv) pk pv, false)
  else
    (node pc (node Color.black n c pk pv) (setBlack d) sk sv, false)

/-- Embeds `RB::remove_retracing_black_non_root_leaf` (rb.rs:358) at the
parent `p` of the deficient left child `n`. A null sibling returns the
fixup to `p`'s own parent (rb.rs:373-374: `fixup(p)`), here a
propagated deficit. A Red sibling (rb.rs:383-390: `p`, `c`, `d` are
then Black) rotates `p` down, repaints `p` Red and `s` Black, and
re-runs the fixup at `n`, whose sibling is now the Black old close
nephew `c` — that tail call is unrolled here into `balLb` at the Red
`p`; `c` null or Red cannot arise under the black-height invariant and
is rendered as a further propagated deficit. A Black sibling is
`balLb`. -/
def balL (pc : Color) (n s : RbT) (pk pv : Nat) : RbT × Bool :=
  match s with
  | nil => (node pc n nil pk pv, true)
  | node Color.black c d sk sv => balLb pc n c d sk sv pk pv
  | node Color.red c d sk sv =>
    match c with
    | node Color.black cc cd ck cv =>
      let q := balLb Color.red n cc cd ck cv pk pv
      (node Color.black q.1 d sk sv, q.2)
    | _ => (node Color.black (node Color.red n c pk pv) d sk sv, true)

/-- Mirror image of `balLb`: the deficient child is on the right, the
sibling `s` holds the distant nephew `d` as its left child and the
close nephew `c` as its right child. -/
def balRb (pc : Color) (d c n : RbT) (sk sv pk pv : Nat) : RbT × Bool :=
  if c.rootBlackB && d.rootBlackB then
    match pc with
    | Color.black => (node Color.black (node Color.red d c sk sv) n pk pv, true)
    | Color.red => (node Color.black (node Color.red d c sk sv) n pk pv, false)
  else if c.rootBlackB = false then
    match c with
    | node _ ca cb ck cv =>
      (node pc (node Color.black d ca sk sv) (node Color.black cb n pk pv) ck cv,
        false)
    | nil => (node pc (node Color.black d c sk sv) n pk pv, false)
  else
    (node pc (setBlack d) (node Color.black c n pk pv) sk sv, false)

/-- Mirror image of `balL` for a deficient right child. -/
def balR (pc : Color) (s n : RbT) (pk pv : Nat) : RbT × Bool :=
  match s with
  | nil => (node pc nil n pk pv, true)
  | node Color.black d c sk sv => balRb pc d c n sk sv pk pv
  | node Color.red d c sk sv =>
    match c with
    | node Color.black cc cd ck cv =>
      let q := balRb Color.red cc cd n ck cv pk pv
      (node Color.black d q.1 sk sv, q.2)
    | _ => (node Color.black d (node Color.red c n pk pv) sk sv, true)

/-- The unlink step of `RB::remove_retracing` (rb.rs:301) at the node
`u` actually removed — the in-order successor's position after the
key/value swap, or the found node itself when its right child is null.
`u`'s left child is null; `v` is its right child (rb.rs:311). Null `v`
(rb.rs:318-332): a Black `u` runs the fixup before the unlink, embedded
as a propagated deficit, and a Red `u` paints its sibling Red
(rb.rs:325) — the fourth component tells `u`'s parent to do so. Non-null
`v` (rb.rs:337-355): `v` replaces `u`; either Red blackens `v` with no
height change, both Black propagates the fixup from `v`. Deletion of
the minimum of a non-empty subtree, returning its (key, value), the
remaining subtree, the deficit flag and the red-leaf flag. -/
def delMin : RbT → (Nat × Nat) × RbT × Bool × Bool
  | nil => ((0, 0), nil, false, false)
  | node c nil r k v =>
    match r, c with
    | nil, Color.black => ((k, v), nil, true, false)
    | nil, Color.red => ((k, v), nil, false, true)
    | r, c =>
      if c = Color.red ∨ r.rootBlackB = false then ((k, v), setBlack r, false, false)
      else ((k, v), r, true, false)
  | node c (node lc ll lr lk lv) r k v =>
    let q := delMin (node lc ll lr lk lv)
    if q.2.2.2 then (q.1, node c q.2.1 (setRed r) k v, false, false)
    else if q.2.2.1 then
      let b := balL c q.2.1 r k v
      (q.1, b.1, b.2, false)
    else (q.1, node c q.2.1 r k v, false, false)

/-- Embeds `Dictionary::remove` for `RB` (rb.rs:504):
`search_approximately` plus the key check (a miss returns `None`
untouched), then `remove_retracing` (rb.rs:301). A found node with a
non-null right child swaps its key/value with the in-order successor —
the minimum of the right subtree — and unlinks that node instead
(rb.rs:303-308), its fixups running bottom-up through the right spine
and the ancestors; a found node with a null right child is unlinked as
`u` with `v` its left child. The deficit and red-leaf flags are
consumed by each parent (`balL`/`balR`, `set_red(sibling)`) and dropped
at the root (rb.rs:319, 348: a parentless `u` needs no retracing). -/
def del : RbT → Nat → Option Nat × RbT × Bool × Bool
  | nil, _ => (none, nil, false, false)
  | node c l r k v, key =>
    if key = k then
      match r with
      | nil =>
        match l, c with
        | nil, Color.black => (some v, nil, true, false)
        | nil, Color.red => (some v, nil, false, true)
        | l, c =>
          if c = Color.red ∨ l.rootBlackB = false then
            (some v, setBlack l, false, false)
          else (some v, l, true, false)
      | node rc rl rr rk rv =>
        let q := delMin (node rc rl rr rk rv)
        if q.2.2.2 then (some v, node c (setRed l) q.2.1 q.1.1 q.1.2, false, false)
        else if q.2.2.1 then
          let b := balR c l q.2.1 q.1.1 q.1.2
          (some v, b.1, b.2, false)
        else (some v, node c l q.2.1 q.1.1 q.1.2, false, false)
    else if key < k then
      let q := del l key
      if q.2.2.2 then (q.1, node c q.2.1 (setRed r) k v, false, false)
      else if q.2.2.1 then
        let b := balL c q.2.1 r k v
        (q.1, b.1, b.2, false)
      else (q.1, node c q.2.1 r k v, false, false)
    else
      let q := del r key
      if q.2.2.2 then (q.1, node c (setRed l) q.2.1 k v, false, false)
      else if q.2.2.1 then
        let b := balR c l q.2.1 k v
        (q.1, b.1, b.2, false)
      else (q.1, node c l q.2.1 k v, false, false)

/-- The public remove: the returned value and the new tree. -/
def remove (t : RbT) (key : Nat) : Option Nat × RbT :=
  ((del t key).1, (del t key).2.1)

/-- Embeds `BT::basic_lookup` (lib.rs:235) for RB:
`search_approximately` then the exact key check. -/
def get : RbT → Nat → Option Nat
  | nil, _ => none
  | node _ l r k v, key =>
    if key = k then some v
    else if key < k then
      match l with
      | nil => none
      | node lc ll lr lk lv => get (node lc ll lr lk lv) key
    else
      match r with
      | nil => none
      | node rc rl rr rk rv => get (node rc rl rr rk rv) key

/-- Embeds `BT::basic_modify` (lib.rs:277) for RB: search, and on an
exact match overwrite the value. -/
def basicModify : RbT → Nat → Nat → Bool × RbT
  | nil, _, _ => (false, nil)
  | node c l r k v, key, val =>
    if key = k then (true, node c l r k val)
    else if key < k then
      match l with
      | nil => (false, node c l r k v)
      | node lc ll lr lk lv =>
        let p := basicModify (node lc ll lr lk lv) key val
        (p.1, node c p.2 r k v)
    else
      match r with
      | nil => (false, node c l r k v)
      | node rc rl rr rk rv =>
        let p := basicModify (node rc rl rr rk rv) key val
        (p.1, node c l p.2 k v)

end RB

/-- Red-black trees reachable from `RB::new` by the public mutating
surface (insert, remove, modify; get and get_mut do not change the
tree). -/
inductive RBReach : RbT → Prop where
  | empty : RBReach RbT.nil
  | insert (t : RbT) (key value : Nat) : RBReach t → RBReach (RB.insert t key value).2
  | remove (t : RbT) (key : Nat) : RBReach t → RBReach (RB.remove t key).2
  | modify (t : RbT) (key value : Nat) : RBReach t → RBReach (RB.basicModify t key value).2

/-! ## Unbalanced search tree (src/src/bst/rawst.rs)

`struct RawSTNode { paren, left, right, key: *mut K, value: *mut V }`
with `paren` dropped. `RawST` wires every `Dictionary` method straight
to the shared skeleton with no fix-up (`rotate_cleanup` is empty,
rawst.rs:199). -/

inductive RT : Type where
  | nil : RT
  | node (left : RT) (right : RT) (key value : Nat) : RT
  deriving DecidableEq, Repr

namespace RT

/-- In-order (key, value) list. -/
def toList : RT → List (Nat × Nat)
  | nil => []
  | node l r k v => toList l ++ (k, v) :: toList r

/-- In-order key list. -/
def keys (t : RT) : List Nat := t.toList.map (fun e => e.1)

/-- BST order (spec §3). -/
def ordered : RT → Bool
  | nil => true
  | node l r k _ =>
    (l.keys.all fun x => decide (x < k)) && (r.keys.all fun x => decide (k < x))
      && l.ordered && r.ordered

end RT

namespace RawST

open RT

/-- Embeds `Dictionary::insert` for `RawST` (rawst.rs:148): `basic_insert`
alone. Modelled from the spec §4.3, src/src/bst/mod.rs being absent:
descend with `search_approximately`, reject an existing key, hook the
new node under the approximate node per key order. -/
def insert : RT → Nat → Nat → Bool × RT
  | nil, key, value => (true, node nil nil key value)
  | node l r k v, key, value =>
    if key = k then (false, node l r k v)
    else if key < k then
      let p := insert l key value
      (p.1, node p.2 r k v)
    else
      let p := insert r key value
      (p.1, node l p.2 k v)

/-- The in-order successor unlink used by the skeleton remove
(spec §4.3): the minimum of a non-empty subtree is removed, its right
child taking its place. -/
def removeMin : RT → (Nat × Nat) × RT
  | nil => ((0, 0), nil)
  | node nil r k v => ((k, v), r)
  | node (node ll lr lk lv) r k v =>
    let p := removeMin (node ll lr lk lv)
    (p.1, node p.2 r k v)

/-- Embeds `Dictionary::remove` for `RawST` (rawst.rs:154):
`basic_remove` alone. Modelled from the spec §4.3, src/src/bst/mod.rs
being absent: on a miss return `None`; else transplant with the only
child, or with the in-order successor (the minimum of the right
subtree) for a two-child node. -/
def remove : RT → Nat → Option Nat × RT
  | nil, _ => (none, nil)
  | node l r k v, key =>
    if key = k then
      match l, r with
      | nil, _ => (some v, r)
      | node ll lr lk lv, nil => (some v, node ll lr lk lv)
      | node ll lr lk lv, node rl rr rk rv =>
        let p := removeMin (node rl rr rk rv)
        (some v, node (node ll lr lk lv) p.2 p.1.1 p.1.2)
    else if key < k then
      let p := remove l key
      (p.1, node p.2 r k v)
    else
      let p := remove r key
      (p.1, node l p.2 k v)

/-- Embeds `BT::basic_lookup` (lib.rs:235) for RawST:
`search_approximately` then the exact key check. -/
def get : RT → Nat → Option Nat
  | nil, _ => none
  | node l r k v, key =>
    if key = k then some v
    else if key < k then
      match l with
      | nil => none
      | node ll lr lk lv => get (node ll lr lk lv) key
    else
      match r with
      | nil => none
      | node rl rr rk rv => get (node rl rr rk rv) key

end RawST

-- DEFS-INSERT-POINT

namespace Tr

/-! ### Basic list lemmas for the treap model -/

@[simp] theorem toListW_nil : (nil).toListW = [] := rfl

@[simp] theorem toListW_node (l r : Tr) (w k v : Nat) :
    (node l r w k v).toListW = l.toListW ++ (w, k, v) :: r.toListW := rfl

@[simp] theorem keys_nil : (nil).keys = [] := rfl

@[simp] theorem keys_node (l r : Tr) (w k v : Nat) :
    (node l r w k v).keys = l.keys ++ k :: r.keys := by
  simp [keys, toListW]

@[simp] theorem weights_nil : (nil).weights = [] := rfl

@[simp] theorem weights_node (l r : Tr) (w k v : Nat) :
    (node l r w k v).weights = l.weights ++ w :: r.weights := by
  simp [weights, toListW]

theorem allKeys_iff {t : Tr} {p : Nat → Bool} :
    t.allKeys p = true ↔ ∀ x ∈ t.keys, p x = true := by
  simp [allKeys]

theorem allW_iff {t : Tr} {p : Nat → Bool} :
    t.allW p = true ↔ ∀ x ∈ t.weights, p x = true := by
  simp [allW]

theorem ordered_node_iff {l r : Tr} {w k v : Nat} :
    (node l r w k v).ordered = true ↔
      (∀ x ∈ l.keys, x < k) ∧ (∀ x ∈ r.keys, k < x)
        ∧ l.ordered = true ∧ r.ordered = true := by
  simp [ordered, allKeys_iff, and_assoc]

theorem heapOk_weightD_le {t : Tr} (h : t.heapOk = true) :
    ∀ x ∈ t.weights, x ≤ t.weightD := by
  induction t with
  | nil => simp
  | node l r w k v ihl ihr =>
    simp only [heapOk, Bool.and_eq_true] at h
    obtain ⟨⟨⟨hl, hr⟩, hlh⟩, hrh⟩ := h
    intro x hx
    simp only [weights_node, List.mem_append, List.mem_cons] at hx
    rcases hx with hx | hx | hx
    · have := ihl hlh x hx
      rcases l with _ | ⟨ll, lr, lw, lk, lv⟩
      · simp at hx
      · simp only [weightD] at this
        simp only [decide_eq_true_eq] at hl
        exact le_trans this hl
    · simp [hx, weightD]
    · have := ihr hrh x hx
      rcases r with _ | ⟨rl, rr, rw, rk, rv⟩
      · simp at hx
      · simp only [weightD] at this
        simp only [decide_eq_true_eq] at hr
        exact le_trans this hr

theorem heapOk_node_iff {l r : Tr} {w k v : Nat} :
    (node l r w k v).heapOk = true ↔
      (∀ x ∈ l.weights, x ≤ w) ∧ (∀ x ∈ r.weights, x ≤ w)
        ∧ l.heapOk = true ∧ r.heapOk = true := by
  constructor
  · intro h
    have h' := h
    simp only [heapOk, Bool.and_eq_true] at h'
    obtain ⟨⟨⟨hl, hr⟩, hlh⟩, hrh⟩ := h'
    refine ⟨?_, ?_, hlh, hrh⟩
    · intro x hx
      have := heapOk_weightD_le hlh x hx
      rcases l with _ | ⟨ll, lr, lw, lk, lv⟩
      · simp at hx
      · simp only [weightD] at this
        simp only [decide_eq_true_eq] at hl
        exact le_trans this hl
    · intro x hx
      have := heapOk_weightD_le hrh x hx
      rcases r with _ | ⟨rl, rr, rw, rk, rv⟩
      · simp at hx
      · simp only [weightD] at this
        simp only [decide_eq_true_eq] at hr
        exact le_trans this hr
  · rintro ⟨hl, hr, hlh, hrh⟩
    simp only [heapOk, Bool.and_eq_true]
    refine ⟨⟨⟨?_, ?_⟩, hlh⟩, hrh⟩
    · rcases l with _ | ⟨ll, lr, lw, lk, lv⟩
      · rfl
      · simp only [decide_eq_true_eq]
        exact hl lw (by simp)
    · rcases r with _ | ⟨rl, rr, rw, rk, rv⟩
      · rfl
      · simp only [decide_eq_true_eq]
        exact hr rw (by simp)

/-! ### Join lemmas -/

theorem toListW_join (u v : Tr) :
    (join u v).toListW = u.toListW ++ v.toListW := by
  induction u, v using join.induct with
  | case1 v => simp [join]
  | case2 ul ur uw uk uv => simp [join]
  | case3 ul ur uw uk uv vl vr vw vk vv hlt ih =>
    rw [join, if_pos hlt]
    simp [ih]
  | case4 ul ur uw uk uv vl vr vw vk vv hlt ih =>
    rw [join, if_neg hlt]
    simp [ih]

theorem keys_join (u v : Tr) : (join u v).keys = u.keys ++ v.keys := by
  simp [keys, toListW_join]

theorem weights_join (u v : Tr) : (join u v).weights = u.weights ++ v.weights := by
  simp [weights, toListW_join]

theorem join_heapOk {u v : Tr} (hu : u.heapOk = true) (hv : v.heapOk = true) :
    (join u v).heapOk = true := by
  induction u, v using join.induct with
  | case1 v => simpa [join] using hv
  | case2 ul ur uw uk uv => simpa [join] using hu
  | case3 ul ur uw uk uv vl vr vw vk vv hlt ih =>
    rw [join, if_pos hlt]
    rw [heapOk_node_iff] at hu ⊢
    obtain ⟨hul, hur, hulh, hurh⟩ := hu
    refine ⟨hul, ?_, hulh, ih hurh hv⟩
    intro x hx
    rw [weights_join] at hx
    rcases List.mem_append.1 hx with hx | hx
    · exact hur x hx
    · have := heapOk_weightD_le hv x hx
      simp only [weightD] at this
      exact le_trans this (Nat.le_of_lt hlt)
  | case4 ul ur uw uk uv vl vr vw vk vv hlt ih =>
    rw [join, if_neg hlt]
    rw [heapOk_node_iff] at hv ⊢
    obtain ⟨hvl, hvr, hvlh, hvrh⟩ := hv
    refine ⟨?_, hvr, ih hu hvlh, hvrh⟩
    intro x hx
    rw [weights_join] at hx
    rcases List.mem_append.1 hx with hx | hx
    · have := heapOk_weightD_le hu x hx
      simp only [weightD] at this
      exact le_trans this (Nat.le_of_not_lt hlt)
    · exact hvl x hx

theorem join_ordered {u v : Tr} (hu : u.ordered = true) (hv : v.ordered = true)
    (hsep : ∀ x ∈ u.keys, ∀ y ∈ v.keys, x < y) :
    (join u v).ordered = true := by
  induction u, v using join.induct with
  | case1 v => simpa [join] using hv
  | case2 ul ur uw uk uv => simpa [join] using hu
  | case3 ul ur uw uk uv vl vr vw vk vv hlt ih =>
    rw [join, if_pos hlt]
    rw [ordered_node_iff] at hu ⊢
    obtain ⟨hul, hur, hulo, huro⟩ := hu
    refine ⟨hul, ?_, hulo, ?_⟩
    · intro x hx
      rw [keys_join] at hx
      rcases List.mem_append.1 hx with hx | hx
      · exact hur x hx
      · exact hsep uk (by simp) x hx
    · refine ih huro hv ?_
      intro x hx y hy
      exact hsep x (by simp [hx]) y hy
  | case4 ul ur uw uk uv vl vr vw vk vv hlt ih =>
    rw [join, if_neg hlt]
    rw [ordered_node_iff] at hv ⊢
    obtain ⟨hvl, hvr, hvlo, hvro⟩ := hv
    refine ⟨?_, hvr, ?_, hvro⟩
    · intro x hx
      rw [keys_join] at hx
      rcases List.mem_append.1 hx with hx | hx
      · exact hsep x hx vk (by simp)
      · exact hvl x hx
    · refine ih hu hvlo ?_
      intro x hx y hy
      exact hsep x hx y (by simp [hy])

/-! ### Split lemmas -/

theorem key_mem_keys {t : Tr} {e : Nat × Nat × Nat} (he : e ∈ t.toListW) :
    e.2.1 ∈ t.keys :=
  List.mem_map_of_mem _ he

theorem weight_mem_weights {t : Tr} {e : Nat × Nat × Nat} (he : e ∈ t.toListW) :
    e.1 ∈ t.weights :=
  List.mem_map_of_mem _ he

theorem toListW_split (t : Tr) (key : Nat) :
    (t.split key).1.toListW ++ (t.split key).2.toListW = t.toListW := by
  induction t with
  | nil => simp [split]
  | node l r w k v ihl ihr =>
    by_cases h : key < k
    · simp only [split, if_pos h, toListW_node]
      rw [← List.append_assoc, ihl]
    · simp only [split, if_neg h, toListW_node]
      rw [List.append_assoc, List.cons_append, ihr]

theorem split_toListW_filter {t : Tr} (key : Nat) (h : t.ordered = true) :
    (t.split key).1.toListW = t.toListW.filter (fun e => decide (e.2.1 ≤ key))
      ∧ (t.split key).2.toListW = t.toListW.filter (fun e => decide (key < e.2.1)) := by
  induction t with
  | nil => simp [split]
  | node l r w k v ihl ihr =>
    rw [ordered_node_iff] at h
    obtain ⟨hlk, hrk, hlo, hro⟩ := h
    have hlfilt_le : ∀ bound : Nat, k ≤ bound →
        l.toListW.filter (fun e => decide (e.2.1 ≤ bound)) = l.toListW := by
      intro bound hb
      apply List.filter_eq_self.2
      intro e he
      have : e.2.1 ∈ l.keys := key_mem_keys he
      simp only [decide_eq_true_eq]
      exact le_trans (Nat.le_of_lt (hlk _ this)) hb
    have hlfilt_gt : ∀ bound : Nat, k ≤ bound →
        l.toListW.filter (fun e => decide (bound < e.2.1)) = [] := by
      intro bound hb
      apply List.filter_eq_nil_iff.2
      intro e he
      have : e.2.1 ∈ l.keys := key_mem_keys he
      simp only [decide_eq_true_eq, not_lt]
      exact le_trans (Nat.le_of_lt (hlk _ this)) hb
    have hrfilt_le : ∀ bound : Nat, bound < k →
        r.toListW.filter (fun e => decide (e.2.1 ≤ bound)) = [] := by
      intro bound hb
      apply List.filter_eq_nil_iff.2
      intro e he
      have : e.2.1 ∈ r.keys := key_mem_keys he
      simp only [decide_eq_true_eq, not_le]
      exact lt_trans hb (hrk _ this)
    have hrfilt_gt : ∀ bound : Nat, bound < k →
        r.toListW.filter (fun e => decide (bound < e.2.1)) = r.toListW := by
      intro bound hb
      apply List.filter_eq_self.2
      intro e he
      have : e.2.1 ∈ r.keys := key_mem_keys he
      simp only [decide_eq_true_eq]
      exact lt_trans hb (hrk _ this)
    by_cases h : key < k
    · simp only [split, if_pos h]
      obtain ⟨ih1, ih2⟩ := ihl hlo
      constructor
      · simp only [toListW_node, List.filter_append, List.filter_cons]
        simp only [decide_eq_true_eq, Nat.not_le.2 h, if_false]
        rw [ih1, hrfilt_le key h]
        simp
      · simp only [toListW_node, List.filter_append, List.filter_cons]
        simp only [decide_eq_true_eq, h, if_true]
        rw [ih2, hrfilt_gt key h]
    · simp only [split, if_neg h]
      have hk : k ≤ key := Nat.le_of_not_lt h
      obtain ⟨ih1, ih2⟩ := ihr hro
      constructor
      · simp only [toListW_node, List.filter_append, List.filter_cons]
        simp only [decide_eq_true_eq, hk, if_true]
        rw [ih1, hlfilt_le key hk]
      · simp only [toListW_node, List.filter_append, List.filter_cons]
        simp only [decide_eq_true_eq, Nat.not_lt.2 hk, if_false]
        rw [ih2, hlfilt_gt key hk]
        simp

theorem split_allW {t : Tr} {p : Nat → Bool} (key : Nat) (h : t.allW p = true) :
    (t.split key).1.allW p = true ∧ (t.split key).2.allW p = true := by
  rw [allW_iff] at h
  constructor <;> rw [allW_iff] <;> intro x hx <;> apply h <;>
    · simp only [weights, List.mem_map] at hx ⊢
      obtain ⟨e, he, rfl⟩ := hx
      refine ⟨e, ?_, rfl⟩
      rw [← toListW_split t key]
      simp only [List.mem_append]
      first
        | exact Or.inl he
        | exact Or.inr he

theorem split_heapOk {t : Tr} (key : Nat) (h : t.heapOk = true) :
    (t.split key).1.heapOk = true ∧ (t.split key).2.heapOk = true := by
  induction t with
  | nil => simp [split, heapOk]
  | node l r w k v ihl ihr =>
    rw [heapOk_node_iff] at h
    obtain ⟨hlw, hrw, hlh, hrh⟩ := h
    by_cases hc : key < k
    · simp only [split, if_pos hc]
      obtain ⟨ih1, ih2⟩ := ihl hlh
      refine ⟨ih1, ?_⟩
      rw [heapOk_node_iff]
      refine ⟨?_, hrw, ih2, hrh⟩
      intro x hx
      apply hlw
      simp only [weights, List.mem_map] at hx ⊢
      obtain ⟨e, he, rfl⟩ := hx
      refine ⟨e, ?_, rfl⟩
      rw [← toListW_split l key]
      simp only [List.mem_append]
      exact Or.inr he
    · simp only [split, if_neg hc]
      obtain ⟨ih1, ih2⟩ := ihr hrh
      refine ⟨?_, ih2⟩
      rw [heapOk_node_iff]
      refine ⟨hlw, ?_, hlh, ih1⟩
      intro x hx
      apply hrw
      simp only [weights, List.mem_map] at hx ⊢
      obtain ⟨e, he, rfl⟩ := hx
      refine ⟨e, ?_, rfl⟩
      rw [← toListW_split r key]
      simp only [List.mem_append]
      exact Or.inl he

theorem split_ordered {t : Tr} (key : Nat) (h : t.ordered = true) :
    (t.split key).1.ordered = true ∧ (t.split key).2.ordered = true := by
  induction t with
  | nil => simp [split, ordered]
  | node l r w k v ihl ihr =>
    rw [ordered_node_iff] at h
    obtain ⟨hlk, hrk, hlo, hro⟩ := h
    have keysub : ∀ s : Tr, ∀ x ∈ s.keys, s.toListW ⊆ s.toListW → True := by
      intro _ _ _ _; trivial
    by_cases hc : key < k
    · simp only [split, if_pos hc]
      obtain ⟨ih1, ih2⟩ := ihl hlo
      refine ⟨ih1, ?_⟩
      rw [ordered_node_iff]
      refine ⟨?_, hrk, ih2, hro⟩
      intro x hx
      apply hlk
      simp only [keys, List.mem_map] at hx ⊢
      obtain ⟨e, he, rfl⟩ := hx
      refine ⟨e, ?_, rfl⟩
      rw [← toListW_split l key]
      simp only [List.mem_append]
      exact Or.inr he
    · simp only [split, if_neg hc]
      obtain ⟨ih1, ih2⟩ := ihr hro
      refine ⟨?_, ih2⟩
      rw [ordered_node_iff]
      refine ⟨hlk, ?_, hlo, ih1⟩
      intro x hx
      apply hrk
      simp only [keys, List.mem_map] at hx ⊢
      obtain ⟨e, he, rfl⟩ := hx
      refine ⟨e, ?_, rfl⟩
      rw [← toListW_split r key]
      simp only [List.mem_append]
      exact Or.inl he

/-- Keys of both split halves, as filters (needs BST order). -/
theorem split_keys_filter {t : Tr} (key : Nat) (h : t.ordered = true) :
    (t.split key).1.keys = t.keys.filter (fun x => decide (x ≤ key))
      ∧ (t.split key).2.keys = t.keys.filter (fun x => decide (key < x)) := by
  obtain ⟨h1, h2⟩ := split_toListW_filter key h
  constructor
  · rw [keys, h1, keys, List.filter_map]
    rfl
  · rw [keys, h2, keys, List.filter_map]
    rfl

/-! ### Sortedness, find, maximum, predecessor -/

/-- In-order entries of a BST-ordered tree have strictly increasing keys. -/
theorem ordered_pairwise {t : Tr} (h : t.ordered = true) :
    t.toListW.Pairwise (fun a b => a.2.1 < b.2.1) := by
  induction t with
  | nil => simp
  | node l r w k v ihl ihr =>
    rw [ordered_node_iff] at h
    obtain ⟨hlk, hrk, hlo, hro⟩ := h
    rw [toListW_node, List.pairwise_append]
    refine ⟨ihl hlo, ?_, ?_⟩
    · rw [List.pairwise_cons]
      refine ⟨fun b hb => hrk _ (key_mem_keys hb), ihr hro⟩
    · intro a ha b hb
      have ha' : a.2.1 < k := hlk _ (key_mem_keys ha)
      rcases List.mem_cons.1 hb with rfl | hb
      · exact ha'
      · exact lt_trans ha' (hrk _ (key_mem_keys hb))

theorem ordered_keys_nodup {t : Tr} (h : t.ordered = true) : t.keys.Nodup := by
  have hp := ordered_pairwise h
  have : t.keys.Pairwise (· < ·) := by
    rw [keys]
    exact List.Pairwise.map _ (fun a b hab => hab) hp
  exact this.nodup

/-- Decomposition of a strictly-key-sorted entry list around a key. -/
theorem sorted_key_decomp (l : List (Nat × Nat × Nat)) (k : Nat)
    (hs : l.Pairwise (fun a b => a.2.1 < b.2.1)) :
    l = l.filter (fun e => decide (e.2.1 < k))
        ++ l.filter (fun e => decide (e.2.1 = k))
        ++ l.filter (fun e => decide (k < e.2.1)) := by
  induction l with
  | nil => simp
  | cons e l ih =>
    rw [List.pairwise_cons] at hs
    obtain ⟨he, hl⟩ := hs
    rcases Nat.lt_trichotomy e.2.1 k with h | h | h
    · simp only [List.filter_cons, decide_eq_true_eq, h, if_true,
        Nat.ne_of_lt h, if_false, Nat.not_lt.2 (Nat.le_of_lt h)]
      simp only [List.cons_append]
      rw [← ih hl]
    · have hgt : ∀ b ∈ l, k < b.2.1 := by
        intro b hb
        rw [← h]
        exact he b hb
      have h1 : l.filter (fun e => decide (e.2.1 < k)) = [] :=
        List.filter_eq_nil_iff.2 (fun b hb => by
          simp only [decide_eq_true_eq, Nat.not_lt]
          exact Nat.le_of_lt (hgt b hb))
      have h2 : l.filter (fun e => decide (e.2.1 = k)) = [] :=
        List.filter_eq_nil_iff.2 (fun b hb => by
          simp only [decide_eq_true_eq]
          exact Nat.ne_of_gt (hgt b hb))
      have h3 : l.filter (fun e => decide (k < e.2.1)) = l :=
        List.filter_eq_self.2 (fun b hb => by
          simp only [decide_eq_true_eq]
          exact hgt b hb)
      simp only [List.filter_cons, decide_eq_true_eq, h, if_true,
        lt_irrefl, if_false]
      rw [h1, h2, h3]
      simp
    · have hgt : ∀ b ∈ l, k < b.2.1 := by
        intro b hb
        exact lt_trans h (he b hb)
      have h1 : l.filter (fun e => decide (e.2.1 < k)) = [] :=
        List.filter_eq_nil_iff.2 (fun b hb => by
          simp only [decide_eq_true_eq, Nat.not_lt]
          exact Nat.le_of_lt (hgt b hb))
      have h2 : l.filter (fun e => decide (e.2.1 = k)) = [] :=
        List.filter_eq_nil_iff.2 (fun b hb => by
          simp only [decide_eq_true_eq]
          exact Nat.ne_of_gt (hgt b hb))
      have h3 : l.filter (fun e => decide (k < e.2.1)) = l :=
        List.filter_eq_self.2 (fun b hb => by
          simp only [decide_eq_true_eq]
          exact hgt b hb)
      simp only [List.filter_cons, decide_eq_true_eq, h, if_true,
        Nat.not_lt.2 (Nat.le_of_lt h), if_false, Nat.ne_of_gt h]
      rw [h1, h2, h3]
      simp

theorem find_none_iff {t : Tr} {key : Nat} (h : t.ordered = true) :
    t.find key = none ↔ key ∉ t.keys := by
  induction t with
  | nil => simp [find]
  | node l r w k v ihl ihr =>
    rw [ordered_node_iff] at h
    obtain ⟨hlk, hrk, hlo, hro⟩ := h
    by_cases he : key = k
    · subst he
      simp only [find, if_pos rfl]
      simp
    · by_cases hlt : key < k
      · simp only [find, if_neg he, if_pos hlt, keys_node]
        rw [ihl hlo]
        constructor
        · intro hn hm
          rcases List.mem_append.1 hm with hm | hm
          · exact hn hm
          · rcases List.mem_cons.1 hm with rfl | hm
            · exact he rfl
            · exact absurd (hrk _ hm) (Nat.not_lt.2 (Nat.le_of_lt hlt))
        · intro hn hm
          exact hn (List.mem_append.2 (Or.inl hm))
      · simp only [find, if_neg he, if_neg hlt, keys_node]
        rw [ihr hro]
        have hgt : k < key := by omega
        constructor
        · intro hn hm
          rcases List.mem_append.1 hm with hm | hm
          · exact absurd (hlk _ hm) (Nat.not_lt.2 (Nat.le_of_lt hgt))
          · rcases List.mem_cons.1 hm with rfl | hm
            · exact he rfl
            · exact hn hm
        · intro hn hm
          exact hn (List.mem_append.2 (Or.inr (List.mem_cons_of_mem _ hm)))

theorem find_some_spec {t x : Tr} {key : Nat} (hf : t.find key = some x) :
    x.keyD = key ∧ (x.weightD, key, x.valD) ∈ t.toListW := by
  induction t with
  | nil => simp [find] at hf
  | node l r w k v ihl ihr =>
    by_cases he : key = k
    · simp only [find, if_pos he, Option.some.injEq] at hf
      subst hf
      refine ⟨by simp [keyD, he], ?_⟩
      rw [he]
      simp [keyD, weightD, valD]
    · by_cases hlt : key < k
      · simp only [find, if_neg he, if_pos hlt] at hf
        obtain ⟨h1, h2⟩ := ihl hf
        exact ⟨h1, by simp [h2]⟩
      · simp only [find, if_neg he, if_neg hlt] at hf
        obtain ⟨h1, h2⟩ := ihr hf
        exact ⟨h1, by simp [h2]⟩

theorem maximum_spec {t : Tr} (h : t.ordered = true) (hne : t ≠ nil) :
    (t.maximum).keyD ∈ t.keys ∧ ∀ y ∈ t.keys, y ≤ (t.maximum).keyD := by
  induction t with
  | nil => exact absurd rfl hne
  | node l r w k v ihl ihr =>
    rw [ordered_node_iff] at h
    obtain ⟨hlk, hrk, hlo, hro⟩ := h
    rcases r with _ | ⟨rl, rr, rw', rk, rv⟩
    · rw [maximum]
      simp only [keyD, keys_node, keys_nil]
      constructor
      · simp
      · intro y hy
        rcases List.mem_append.1 hy with hy | hy
        · exact Nat.le_of_lt (hlk _ hy)
        · rcases List.mem_cons.1 hy with rfl | hy
          · exact Nat.le_refl _
          · simp at hy
    · rw [maximum]
      obtain ⟨ih1, ih2⟩ := ihr hro (by intro hcon; cases hcon)
      constructor
      · simp only [keys_node, List.mem_append, List.mem_cons]
        right; right
        simpa using ih1
      · intro y hy
        have hkmax : k < (node rl rr rw' rk rv).maximum.keyD := by
          apply hrk
          simpa using ih1
        simp only [keys_node, List.mem_append, List.mem_cons] at hy
        rcases hy with hy | rfl | hy
        · exact Nat.le_of_lt (lt_trans (hlk _ hy) hkmax)
        · exact Nat.le_of_lt hkmax
        · exact ih2 _ (by simpa using hy)

theorem precessor_spec {t : Tr} {key : Nat} (cand : Option Tr)
    (h : t.ordered = true) (hk : key ∈ t.keys) :
    (t.precessor key cand = cand ∧ ∀ y ∈ t.keys, ¬ y < key)
    ∨ (∃ p, t.precessor key cand = some p ∧ p.keyD ∈ t.keys ∧ p.keyD < key
        ∧ ∀ y ∈ t.keys, y < key → y ≤ p.keyD) := by
  induction t generalizing cand with
  | nil => simp at hk
  | node l r w k v ihl ihr =>
    rw [ordered_node_iff] at h
    obtain ⟨hlk, hrk, hlo, hro⟩ := h
    by_cases he : key = k
    · subst he
      rcases l with _ | ⟨ll, lr, lw, lk, lv⟩
      · left
        refine ⟨by simp [precessor], ?_⟩
        intro y hy hlt
        rw [keys_node] at hy
        rcases List.mem_append.1 hy with hy | hy
        · simp at hy
        · rcases List.mem_cons.1 hy with rfl | hy
          · exact lt_irrefl _ hlt
          · exact absurd hlt (Nat.not_lt.2 (Nat.le_of_lt (hrk _ hy)))
      · right
        obtain ⟨hm1, hm2⟩ := maximum_spec hlo
          (by intro hcon; cases hcon)
        refine ⟨(node ll lr lw lk lv).maximum, ?_, ?_, ?_, ?_⟩
        · simp [precessor]
        · rw [keys_node]
          exact List.mem_append.2 (Or.inl hm1)
        · exact hlk _ hm1
        · intro y hy hylt
          rw [keys_node] at hy
          rcases List.mem_append.1 hy with hy | hy
          · exact hm2 _ hy
          · rcases List.mem_cons.1 hy with rfl | hy
            · exact absurd hylt (lt_irrefl _)
            · exact absurd hylt (Nat.not_lt.2 (Nat.le_of_lt (hrk _ hy)))
    · by_cases hlt : key < k
      · have hkl : key ∈ l.keys := by
          rw [keys_node] at hk
          rcases List.mem_append.1 hk with hk | hk
          · exact hk
          · rcases List.mem_cons.1 hk with rfl | hk
            · exact absurd hlt (lt_irrefl _)
            · exact absurd (hrk _ hk) (Nat.not_lt.2 (Nat.le_of_lt hlt))
        have step : (node l r w k v).precessor key cand = l.precessor key cand := by
          simp [precessor, he, hlt]
        rcases ihl cand hlo hkl with ⟨h1, h2⟩ | ⟨p, h1, h2, h3, h4⟩
        · left
          refine ⟨by rw [step, h1], ?_⟩
          intro y hy hylt
          rw [keys_node] at hy
          rcases List.mem_append.1 hy with hy | hy
          · exact h2 y hy hylt
          · rcases List.mem_cons.1 hy with rfl | hy
            · exact absurd (lt_trans hylt hlt) (lt_irrefl _)
            · exact absurd (lt_trans hylt hlt)
                (Nat.not_lt.2 (Nat.le_of_lt (hrk _ hy)))
        · right
          refine ⟨p, by rw [step, h1], ?_, h3, ?_⟩
          · rw [keys_node]
            exact List.mem_append.2 (Or.inl h2)
          · intro y hy hylt
            rw [keys_node] at hy
            rcases List.mem_append.1 hy with hy | hy
            · exact h4 y hy hylt
            · rcases List.mem_cons.1 hy with rfl | hy
              · exact absurd (lt_trans hylt hlt) (lt_irrefl _)
              · exact absurd (lt_trans hylt hlt)
                  (Nat.not_lt.2 (Nat.le_of_lt (hrk _ hy)))
      · have hgt : k < key := by omega
        have hkr : key ∈ r.keys := by
          rw [keys_node] at hk
          rcases List.mem_append.1 hk with hk | hk
          · exact absurd (hlk _ hk) (Nat.not_lt.2 (Nat.le_of_lt hgt))
          · rcases List.mem_cons.1 hk with rfl | hk
            · exact absurd rfl he
            · exact hk
        have step : (node l r w k v).precessor key cand
            = r.precessor key (some (node l r w k v)) := by
          simp [precessor, he, hlt]
        rcases ihr (some (node l r w k v)) hro hkr with ⟨h1, h2⟩ | ⟨p, h1, h2, h3, h4⟩
        · right
          refine ⟨node l r w k v, by rw [step, h1], ?_, hgt, ?_⟩
          · rw [keys_node]
            simp [keyD]
          · intro y hy hylt
            rw [keys_node] at hy
            simp only [keyD]
            rcases List.mem_append.1 hy with hy | hy
            · exact Nat.le_of_lt (hlk _ hy)
            · rcases List.mem_cons.1 hy with rfl | hy
              · exact Nat.le_refl _
              · exact absurd hylt (h2 y hy)
        · right
          refine ⟨p, by rw [step, h1], ?_, h3, ?_⟩
          · rw [keys_node]
            exact List.mem_append.2 (Or.inr (List.mem_cons_of_mem _ h2))
          · intro y hy hylt
            have hkp : k < p.keyD := hrk _ h2
            rw [keys_node] at hy
            rcases List.mem_append.1 hy with hy | hy
            · exact Nat.le_of_lt (lt_trans (hlk _ hy) hkp)
            · rcases List.mem_cons.1 hy with rfl | hy
              · exact Nat.le_of_lt hkp
              · exact h4 y hy hylt

/-! ### Lookup and modify lemmas -/

theorem searchApprox_of_find_some {t x : Tr} {key : Nat}
    (h : t.find key = some x) : t.searchApprox key = some x := by
  induction t with
  | nil => simp [find] at h
  | node l r w k v ihl ihr =>
    by_cases he : key = k
    · simp only [find, if_pos he] at h
      rw [searchApprox.eq_def]
      simp only [if_pos he]
      exact h
    · by_cases hlt : key < k
      · simp only [find, if_neg he, if_pos hlt] at h
        rcases l with _ | ⟨ll, lr, lw, lk, lv⟩
        · simp [find] at h
        · rw [searchApprox.eq_def]
          simp only [if_neg he, if_pos hlt]
          exact ihl h
      · simp only [find, if_neg he, if_neg hlt] at h
        rcases r with _ | ⟨rl, rr, rw', rk, rv⟩
        · simp [find] at h
        · rw [searchApprox.eq_def]
          simp only [if_neg he, if_neg hlt]
          exact ihr h

theorem searchApprox_of_find_none {t : Tr} {key : Nat} (h : t.find key = none) :
    t.searchApprox key = none
      ∨ ∃ n, t.searchApprox key = some n ∧ n.keyD ≠ key := by
  induction t with
  | nil => left; rfl
  | node l r w k v ihl ihr =>
    by_cases he : key = k
    · simp [find, he] at h
    · by_cases hlt : key < k
      · simp only [find, if_neg he, if_pos hlt] at h
        rcases l with _ | ⟨ll, lr, lw, lk, lv⟩
        · right
          refine ⟨node nil r w k v, ?_, ?_⟩
          · rw [searchApprox.eq_def]
            simp [he, hlt]
          · simp only [keyD]
            exact fun hcon => he hcon.symm
        · rw [searchApprox.eq_def]
          simp only [if_neg he, if_pos hlt]
          exact ihl h
      · simp only [find, if_neg he, if_neg hlt] at h
        rcases r with _ | ⟨rl, rr, rw', rk, rv⟩
        · right
          refine ⟨node l nil w k v, ?_, ?_⟩
          · rw [searchApprox.eq_def]
            simp [he, hlt]
          · simp only [keyD]
            exact fun hcon => he hcon.symm
        · rw [searchApprox.eq_def]
          simp only [if_neg he, if_neg hlt]
          exact ihr h

theorem get_eq_find_map (t : Tr) (key : Nat) :
    t.get key = (t.find key).map valD := by
  cases hf : t.find key with
  | some x =>
    have hs := searchApprox_of_find_some hf
    have hxk := (find_some_spec hf).1
    simp [get, hs, hxk]
  | none =>
    rcases searchApprox_of_find_none hf with hs | ⟨n, hs, hn⟩
    · simp [get, hs]
    · simp [get, hs, hn]

theorem find_mem {t : Tr} {w k v : Nat} (ho : t.ordered = true)
    (hm : (w, k, v) ∈ t.toListW) :
    ∃ x, t.find k = some x ∧ x.valD = v ∧ x.weightD = w ∧ x.keyD = k := by
  induction t with
  | nil => simp at hm
  | node l r w0 k0 v0 ihl ihr =>
    rw [ordered_node_iff] at ho
    obtain ⟨hlk, hrk, hlo, hro⟩ := ho
    rw [toListW_node] at hm
    rcases List.mem_append.1 hm with hm | hm
    · have hkl : k < k0 := hlk _ (key_mem_keys hm)
      obtain ⟨x, h1, h2⟩ := ihl hlo hm
      exact ⟨x, by simp [find, Nat.ne_of_lt hkl, hkl, h1], h2⟩
    · rcases List.mem_cons.1 hm with hm | hm
      · simp only [Prod.mk.injEq] at hm
        obtain ⟨rfl, rfl, rfl⟩ := hm
        exact ⟨node l r w k v, by simp [find], rfl, rfl, rfl⟩
      · have hkr : k0 < k := hrk _ (key_mem_keys hm)
        obtain ⟨x, h1, h2⟩ := ihr hro hm
        exact ⟨x, by simp [find, Nat.ne_of_gt hkr, Nat.not_lt.2 (Nat.le_of_lt hkr), h1], h2⟩

theorem get_mem {t : Tr} {w k v : Nat} (ho : t.ordered = true)
    (hm : (w, k, v) ∈ t.toListW) : t.get k = some v := by
  obtain ⟨x, h1, h2, _⟩ := find_mem ho hm
  rw [get_eq_find_map, h1]
  simp [h2]

theorem get_none {t : Tr} {k : Nat} (ho : t.ordered = true)
    (hk : k ∉ t.keys) : t.get k = none := by
  rw [get_eq_find_map, (find_none_iff ho).2 hk]
  rfl

/-! ### Remove lemmas -/

theorem remove_spec {t : Tr} {key : Nat} (ho : t.ordered = true) (hk : key ∈ t.keys) :
    ∃ x, (t.remove_ key).1 = some x
      ∧ x.keyD = key ∧ (x.weightD, key, x.valD) ∈ t.toListW
      ∧ (t.remove_ key).2.toListW
          = t.toListW.filter (fun e => decide (e.2.1 < key))
            ++ t.toListW.filter (fun e => decide (key < e.2.1)) := by
  rcases t with _ | ⟨l, r, w, k, v⟩
  · simp at hk
  · set t0 := node l r w k v with ht0
    obtain ⟨x, hfind⟩ : ∃ x, t0.find key = some x := by
      cases hf : t0.find key with
      | none => exact absurd hk ((find_none_iff ho).1 hf)
      | some x => exact ⟨x, rfl⟩
    obtain ⟨hxk, hxm⟩ := find_some_spec hfind
    rcases precessor_spec none ho hk with ⟨hp, hnolt⟩ | ⟨p, hp, hpmem, hplt, hpmax⟩
    · refine ⟨x, ?_, hxk, hxm, ?_⟩
      · simp only [remove_, hfind, hp]
      · simp only [remove_, hfind, hp]
        have h2 := (split_toListW_filter key ho).2
        rw [h2]
        have h1 : t0.toListW.filter (fun e => decide (e.2.1 < key)) = [] := by
          apply List.filter_eq_nil_iff.2
          intro e he
          simp only [decide_eq_true_eq]
          exact hnolt _ (key_mem_keys he)
        rw [h1, List.nil_append]
    · refine ⟨x, ?_, hxk, hxm, ?_⟩
      · simp only [remove_, hfind, hp]
      · simp only [remove_, hfind, hp]
        rw [toListW_join]
        have hL := (split_toListW_filter p.keyD ho).1
        have hRo := (split_ordered p.keyD ho).2
        have hR := (split_toListW_filter p.keyD ho).2
        have hRR := (split_toListW_filter key hRo).2
        congr 1
        · rw [hL]
          apply List.filter_congr
          intro e he
          have hek : e.2.1 ∈ t0.keys := key_mem_keys he
          simp only [decide_eq_decide]
          constructor
          · intro hle
            exact Nat.lt_of_le_of_lt hle hplt
          · intro hlt
            exact hpmax _ hek hlt
        · rw [hRR, hR, List.filter_filter]
          apply List.filter_congr
          intro e he
          by_cases hc : key < e.2.1
          · simp [hc, lt_trans hplt hc]
          · simp [hc]

theorem remove_ordered {t : Tr} {key : Nat} (ho : t.ordered = true) :
    (t.remove_ key).2.ordered = true := by
  rcases t with _ | ⟨l, r, w, k, v⟩
  · simpa [remove_] using ho
  · set t0 := node l r w k v with ht0
    cases hfind : t0.find key with
    | none => simpa only [remove_, hfind] using ho
    | some x =>
      cases hp : t0.precessor key none with
      | none =>
        simp only [remove_, hfind, hp]
        exact (split_ordered key ho).2
      | some p =>
        simp only [remove_, hfind, hp]
        have hL := (split_ordered p.keyD ho).1
        have hRo := (split_ordered p.keyD ho).2
        have hRR := (split_ordered key hRo).2
        apply join_ordered hL hRR
        intro a ha b hb
        have haf := (split_keys_filter p.keyD ho).1 ▸ ha
        have hbf := (split_keys_filter key hRo).2 ▸ hb
        have ha' : a ≤ p.keyD := by
          have := List.of_mem_filter haf
          simpa using this
        have hb' : key < b := by
          have := List.of_mem_filter hbf
          simpa using this
        have hk : key ∈ t0.keys := by
          cases hfk : t0.find key with
          | none =>
            exact absurd hfind (by rw [hfk]; simp)
          | some y =>
            by_contra hcon
            rw [(find_none_iff ho).2 hcon] at hfk
            cases hfk
        rcases precessor_spec none ho hk with ⟨hp2, _⟩ | ⟨p2, hp2, _, hplt, _⟩
        · rw [hp] at hp2; cases hp2
        · rw [hp] at hp2
          cases hp2
          omega

theorem remove_heapOk {t : Tr} {key : Nat} (hh : t.heapOk = true) :
    (t.remove_ key).2.heapOk = true := by
  rcases t with _ | ⟨l, r, w, k, v⟩
  · simpa [remove_] using hh
  · set t0 := node l r w k v with ht0
    cases hfind : t0.find key with
    | none => simpa only [remove_, hfind] using hh
    | some x =>
      cases hp : t0.precessor key none with
      | none =>
        simp only [remove_, hfind, hp]
        exact (split_heapOk key hh).2
      | some p =>
        simp only [remove_, hfind, hp]
        exact join_heapOk (split_heapOk p.keyD hh).1
          (split_heapOk key (split_heapOk p.keyD hh).2).2

theorem remove_keys {t : Tr} {key : Nat} (ho : t.ordered = true) (hk : key ∈ t.keys) :
    key ∉ (t.remove_ key).2.keys := by
  obtain ⟨x, _, _, _, h4⟩ := remove_spec ho hk
  intro hcon
  rw [keys, h4] at hcon
  simp only [List.map_append, List.mem_append, List.mem_map] at hcon
  rcases hcon with ⟨e, he, rfl⟩ | ⟨e, he, rfl⟩ <;>
    · have := List.of_mem_filter he
      simp at this

/-! ### Insert lemmas -/

theorem insert_dup {t : Tr} {key v w : Nat} (ho : t.ordered = true)
    (hk : key ∈ t.keys) : t.insert_ key v w = (false, t) := by
  rcases t with _ | ⟨l, r, w0, k0, v0⟩
  · simp at hk
  · obtain ⟨x, hf⟩ : ∃ x, (node l r w0 k0 v0).find key = some x := by
      cases hf : (node l r w0 k0 v0).find key with
      | none => exact absurd hk ((find_none_iff ho).1 hf)
      | some x => exact ⟨x, rfl⟩
    simp [insert_, hf]

theorem insert_spec {t : Tr} {key v w : Nat} (ho : t.ordered = true)
    (hk : key ∉ t.keys) :
    (t.insert_ key v w).1 = true
      ∧ (t.insert_ key v w).2.toListW
          = t.toListW.filter (fun e => decide (e.2.1 < key))
            ++ (w, key, v) :: t.toListW.filter (fun e => decide (key < e.2.1)) := by
  rcases t with _ | ⟨l, r, w0, k0, v0⟩
  · simp [insert_]
  · set t0 := node l r w0 k0 v0 with ht0
    have hfind : t0.find key = none := (find_none_iff ho).2 hk
    have hstep : t0.insert_ key v w
        = (true, join (join (t0.split key).1 (node nil nil w key v)) (t0.split key).2) := by
      simp [insert_, hfind]
    rw [hstep]
    refine ⟨rfl, ?_⟩
    rw [toListW_join, toListW_join]
    have h1 := (split_toListW_filter key ho).1
    have h2 := (split_toListW_filter key ho).2
    rw [h1, h2]
    have : t0.toListW.filter (fun e => decide (e.2.1 ≤ key))
        = t0.toListW.filter (fun e => decide (e.2.1 < key)) := by
      apply List.filter_congr
      intro e he
      simp only [decide_eq_decide]
      have : e.2.1 ∈ t0.keys := key_mem_keys he
      constructor
      · intro hle
        rcases Nat.lt_or_ge e.2.1 key with hc | hc
        · exact hc
        · exact absurd (Nat.le_antisymm hle hc ▸ this) hk
      · exact Nat.le_of_lt
    rw [this]
    simp [toListW]

theorem insert_ordered {t : Tr} {key v w : Nat} (ho : t.ordered = true)
    (hk : key ∉ t.keys) : (t.insert_ key v w).2.ordered = true := by
  rcases t with _ | ⟨l, r, w0, k0, v0⟩
  · simp [insert_, ordered, allKeys]
  · set t0 := node l r w0 k0 v0 with ht0
    have hfind : t0.find key = none := (find_none_iff ho).2 hk
    have hstep : (t0.insert_ key v w).2
        = join (join (t0.split key).1 (node nil nil w key v)) (t0.split key).2 := by
      simp [insert_, hfind]
    rw [hstep]
    have hL := (split_ordered key ho).1
    have hR := (split_ordered key ho).2
    have hsingle : (node nil nil w key v : Tr).ordered = true := by
      simp [ordered, allKeys]
    have hmemL : ∀ a ∈ (t0.split key).1.keys, a < key := by
      intro a ha
      have haf := (split_keys_filter key ho).1 ▸ ha
      have h1 := List.of_mem_filter haf
      have h2 := List.mem_of_mem_filter haf
      simp only [decide_eq_true_eq] at h1
      rcases Nat.lt_or_ge a key with hc | hc
      · exact hc
      · exact absurd (Nat.le_antisymm h1 hc ▸ h2) hk
    have hmemR : ∀ b ∈ (t0.split key).2.keys, key < b := by
      intro b hb
      have hbf := (split_keys_filter key ho).2 ▸ hb
      have h1 := List.of_mem_filter hbf
      simpa using h1
    apply join_ordered
    · apply join_ordered hL hsingle
      intro a ha b hb
      simp only [keys_node, keys_nil, List.nil_append, List.mem_cons] at hb
      rcases hb with rfl | hb
      · exact hmemL a ha
      · simp at hb
    · exact hR
    · intro a ha b hb
      rw [keys_join] at ha
      rcases List.mem_append.1 ha with ha | ha
      · exact lt_trans (hmemL a ha) (hmemR b hb)
      · simp only [keys_node, keys_nil, List.nil_append, List.mem_cons] at ha
        rcases ha with rfl | ha
        · exact hmemR b hb
        · simp at ha

theorem insert_heapOk {t : Tr} {key v w : Nat} (ho : t.ordered = true)
    (hh : t.heapOk = true) : (t.insert_ key v w).2.heapOk = true := by
  rcases t with _ | ⟨l, r, w0, k0, v0⟩
  · simp [insert_, heapOk]
  · set t0 := node l r w0 k0 v0 with ht0
    cases hfind : t0.find key with
    | some x =>
      have : t0.insert_ key v w = (false, t0) := by
        simp only [insert_, hfind, Option.isSome, if_pos]
      rw [this]
      exact hh
    | none =>
      have hstep : (t0.insert_ key v w).2
          = join (join (t0.split key).1 (node nil nil w key v)) (t0.split key).2 := by
        simp [insert_, hfind]
      rw [hstep]
      exact join_heapOk
        (join_heapOk (split_heapOk key hh).1 (by simp [heapOk]))
        (split_heapOk key hh).2

/-! ### Join-split round trip -/

theorem join_nil_right (u : Tr) : join u nil = u := by
  cases u <;> simp [join]

theorem weights_split (t : Tr) (key : Nat) :
    (t.split key).1.weights ++ (t.split key).2.weights = t.weights := by
  have h := toListW_split t key
  calc (t.split key).1.weights ++ (t.split key).2.weights
      = ((t.split key).1.toListW ++ (t.split key).2.toListW).map (fun e => e.1) := by
        simp [weights]
    _ = t.weights := by rw [h]; rfl

theorem join_split_eq {t : Tr} (key : Nat) (hh : t.heapOk = true)
    (hd : t.weights.Nodup) :
    join (t.split key).1 (t.split key).2 = t := by
  induction t with
  | nil => simp [split, join]
  | node l r w k v ihl ihr =>
    rw [heapOk_node_iff] at hh
    obtain ⟨hlw, hrw, hlh, hrh⟩ := hh
    rw [weights_node] at hd
    have hdl : l.weights.Nodup := (List.nodup_append.1 hd).1
    have hdr : r.weights.Nodup := ((List.nodup_append.1 hd).2.1).of_cons
    have hwl : w ∉ l.weights := by
      intro hcon
      exact (List.nodup_append.1 hd).2.2 hcon (by simp)
    have hwr : w ∉ r.weights := by
      have := (List.nodup_append.1 hd).2.1
      rw [List.nodup_cons] at this
      exact this.1
    by_cases hc : key < k
    · simp only [split, if_pos hc]
      have ih := ihl hlh hdl
      rcases hp : (l.split key).1 with _ | ⟨a, b, pw, pk, pv⟩
      · rw [join]
        rw [hp] at ih
        rw [join] at ih
        rw [ih]
      · have hmem : pw ∈ l.weights := by
          rw [← weights_split l key, hp]
          simp
        have hle : pw ≤ w := hlw _ hmem
        rw [join, if_neg (by omega)]
        rw [hp] at ih
        rw [ih]
    · simp only [split, if_neg hc]
      have ih := ihr hrh hdr
      rcases hp : (r.split key).2 with _ | ⟨a, b, pw, pk, pv⟩
      · rw [join_nil_right]
        rw [hp] at ih
        rw [join_nil_right] at ih
        rw [ih]
      · have hmem : pw ∈ r.weights := by
          rw [← weights_split r key, hp]
          simp
        have hlt : pw < w := by
          have hle : pw ≤ w := hrw _ hmem
          have hne : pw ≠ w := by
            intro hcon
            exact hwr (hcon ▸ hmem)
          omega
        rw [join, if_pos (by omega)]
        rw [hp] at ih
        rw [ih]

/-! ### Heap surface lemmas -/

theorem find_root (l r : Tr) (w k v : Nat) :
    (node l r w k v).find k = some (node l r w k v) := by
  simp [find]

theorem remove_fst {t x : Tr} {key : Nat} (hf : t.find key = some x) :
    (t.remove_ key).1 = some x := by
  rcases t with _ | ⟨l, r, w, k, v⟩
  · simp [find] at hf
  · simp only [remove_, hf]
    cases (node l r w k v).precessor key none <;> simp

theorem push_ordered {t : Tr} {key w : Nat} (ho : t.ordered = true) :
    (t.push key w).ordered = true := by
  by_cases hk : key ∈ t.keys
  · rw [push, insert_dup ho hk]
    exact ho
  · exact insert_ordered ho hk

theorem push_heapOk {t : Tr} {key w : Nat} (ho : t.ordered = true)
    (hh : t.heapOk = true) : (t.push key w).heapOk = true :=
  insert_heapOk ho hh

theorem pop_ordered {t : Tr} (ho : t.ordered = true) : (t.pop).2.ordered = true := by
  rcases t with _ | ⟨l, r, w, k, v⟩
  · exact ho
  · simp only [pop]
    exact remove_ordered ho

theorem pop_heapOk {t : Tr} (hh : t.heapOk = true) : (t.pop).2.heapOk = true := by
  rcases t with _ | ⟨l, r, w, k, v⟩
  · exact hh
  · simp only [pop]
    exact remove_heapOk hh

theorem heapReach_inv {t : Tr} (h : HeapReach t) :
    t.ordered = true ∧ t.heapOk = true := by
  induction h with
  | empty => exact ⟨rfl, rfl⟩
  | push t key weight _ ih => exact ⟨push_ordered ih.1, push_heapOk ih.1 ih.2⟩
  | pop t _ ih => exact ⟨pop_ordered ih.1, pop_heapOk ih.2⟩

theorem filter_key_singleton {L : List (Nat × Nat × Nat)} {e : Nat × Nat × Nat}
    (hnd : (L.map (fun x => x.2.1)).Nodup) (he : e ∈ L) :
    L.filter (fun x => decide (x.2.1 = e.2.1)) = [e] := by
  induction L with
  | nil => simp at he
  | cons a L ih =>
    rw [List.map_cons, List.nodup_cons] at hnd
    obtain ⟨hna, hnd⟩ := hnd
    by_cases hkey : a.2.1 = e.2.1
    · have hae : a = e := by
        rcases List.mem_cons.1 he with h | h
        · exact h.symm
        · exact absurd (hkey ▸ List.mem_map_of_mem (fun x => x.2.1) h) hna
      subst hae
      rw [List.filter_cons_of_pos (by simp)]
      have : L.filter (fun x => decide (x.2.1 = a.2.1)) = [] := by
        apply List.filter_eq_nil_iff.2
        intro b hb
        simp only [decide_eq_true_eq]
        intro hcon
        exact hna (hcon ▸ List.mem_map_of_mem (fun x => x.2.1) hb)
      rw [this]
    · have hel : e ∈ L := by
        rcases List.mem_cons.1 he with h | h
        · rw [h] at hkey
          exact absurd rfl hkey
        · exact h
      rw [List.filter_cons_of_neg (by simpa using hkey)]
      exact ih hnd hel

theorem toListW_decomp_at {t : Tr} {w k v : Nat} (ho : t.ordered = true)
    (hm : (w, k, v) ∈ t.toListW) :
    t.toListW = t.toListW.filter (fun e => decide (e.2.1 < k))
      ++ (w, k, v) :: t.toListW.filter (fun e => decide (k < e.2.1)) := by
  have hdecomp := sorted_key_decomp t.toListW k (ordered_pairwise ho)
  have hsing : t.toListW.filter (fun e => decide (e.2.1 = k)) = [(w, k, v)] :=
    filter_key_singleton (by exact ordered_keys_nodup ho) hm
  rw [hsing] at hdecomp
  simpa using hdecomp

end Tr

/-! ## Splay tree theorems -/

namespace ST

@[simp] theorem toList_nil : (nil).toList = [] := rfl

@[simp] theorem toList_node (l r : ST) (k v : Nat) :
    (node l r k v).toList = l.toList ++ (k, v) :: r.toList := rfl

@[simp] theorem keys_nil_splay : (nil).keys = [] := rfl

@[simp] theorem keys_node_splay (l r : ST) (k v : Nat) :
    (node l r k v).keys = l.keys ++ k :: r.keys := by
  simp [keys, toList]

theorem key_mem_keys_splay {t : ST} {e : Nat × Nat} (he : e ∈ t.toList) :
    e.1 ∈ t.keys :=
  List.mem_map_of_mem _ he

theorem ordered_node_iff_splay {l r : ST} {k v : Nat} :
    (node l r k v).ordered = true ↔
      (∀ x ∈ l.keys, x < k) ∧ (∀ x ∈ r.keys, k < x)
        ∧ l.ordered = true ∧ r.ordered = true := by
  simp [ordered, and_assoc]

/-- A Nat list stays strictly sorted when an element is inserted between a
lower and an upper part. -/
theorem pairwise_lt_insert_middle {A B : List Nat} {k : Nat}
    (h : (A ++ B).Pairwise (· < ·))
    (hA : ∀ a ∈ A, a < k) (hB : ∀ b ∈ B, k < b) :
    (A ++ k :: B).Pairwise (· < ·) := by
  rw [List.pairwise_append] at h ⊢
  obtain ⟨h1, h2, h3⟩ := h
  refine ⟨h1, ?_, ?_⟩
  · rw [List.pairwise_cons]
    exact ⟨hB, h2⟩
  · intro a ha b hb
    rcases List.mem_cons.1 hb with rfl | hb
    · exact hA a ha
    · exact h3 a ha b hb

/-- A Nat list stays strictly sorted when a middle element is removed. -/
theorem pairwise_lt_remove_middle {A B : List Nat} {k : Nat}
    (h : (A ++ k :: B).Pairwise (· < ·)) :
    (A ++ B).Pairwise (· < ·) :=
  List.Pairwise.sublist
    (List.Sublist.append_left (List.sublist_cons_self k B) A) h

/-- BST order is equivalent to the in-order key sequence being strictly
increasing (spec §8, universal invariant 1). -/
theorem ordered_iff_pairwise {t : ST} :
    t.ordered = true ↔ t.keys.Pairwise (· < ·) := by
  induction t with
  | nil => simp [ordered]
  | node l r k v ihl ihr =>
    rw [ordered_node_iff_splay, keys_node_splay]
    constructor
    · rintro ⟨hlk, hrk, hlo, hro⟩
      rw [List.pairwise_append]
      refine ⟨ihl.1 hlo, ?_, ?_⟩
      · rw [List.pairwise_cons]
        exact ⟨hrk, ihr.1 hro⟩
      · intro a ha b hb
        rcases List.mem_cons.1 hb with rfl | hb
        · exact hlk a ha
        · exact lt_trans (hlk a ha) (hrk b hb)
    · intro h
      rw [List.pairwise_append] at h
      obtain ⟨h1, h2, h3⟩ := h
      rw [List.pairwise_cons] at h2
      refine ⟨?_, h2.1, ihl.2 h1, ihr.2 h2.2⟩
      intro a ha
      exact h3 a ha k (by simp)

theorem ordered_keys_nodup_splay {t : ST} (h : t.ordered = true) : t.keys.Nodup :=
  (ordered_iff_pairwise.1 h).nodup

end ST

namespace Splay

open ST

/-- Unfolding equation of `searchZ` at a node. -/
theorem searchZ_node (l r : ST) (k v key : Nat) (ctx : List SFrame) :
    searchZ (node l r k v) key ctx =
      if key = k then (node l r k v, ctx)
      else if key < k then
        match l with
        | ST.nil => (node l r k v, ctx)
        | node ll lr lk lv => searchZ (node ll lr lk lv) key ((Dir.left, k, v, r) :: ctx)
      else
        match r with
        | ST.nil => (node l r k v, ctx)
        | node rl rr rk rv => searchZ (node rl rr rk rv) key ((Dir.right, k, v, l) :: ctx) := by
  rw [searchZ.eq_def]

@[simp] theorem plug_nil_ctx (x : ST) : plug x [] = x := rfl

theorem plug_toList (ctx : List SFrame) : ∀ x : ST,
    (plug x ctx).toList = ctxL ctx ++ x.toList ++ ctxR ctx := by
  induction ctx with
  | nil => intro x; simp [ctxL, ctxR]
  | cons f ctx ih =>
    rcases f with ⟨d, pk, pv, sib⟩
    cases d with
    | left =>
      intro x
      rw [plug, ih, ctxL, ctxR]
      simp
    | right =>
      intro x
      rw [plug, ih, ctxL, ctxR]
      simp

theorem splay_toList (ctx : List SFrame) : ∀ l r : ST, ∀ k v : Nat,
    (splay (node l r k v) ctx).toList = (plug (node l r k v) ctx).toList := by
  induction ctx with
  | nil => intro l r k v; rfl
  | cons f ctx ih =>
    rcases f with ⟨d, pk, pv, sib⟩
    cases d with
    | left =>
      intro l r k v
      rw [splay, plug, ih, plug_toList, plug_toList]
      simp
    | right =>
      intro l r k v
      rw [splay, plug, ih, plug_toList, plug_toList]
      simp

theorem splay_root (ctx : List SFrame) : ∀ l r : ST, ∀ k v : Nat,
    ∃ L R, splay (node l r k v) ctx = node L R k v := by
  induction ctx with
  | nil => intro l r k v; exact ⟨l, r, rfl⟩
  | cons f ctx ih =>
    rcases f with ⟨d, pk, pv, sib⟩
    cases d with
    | left =>
      intro l r k v
      rw [splay]
      exact ih _ _ _ _
    | right =>
      intro l r k v
      rw [splay]
      exact ih _ _ _ _

theorem searchZ_plug (t : ST) (key : Nat) : ∀ ctx : List SFrame,
    plug (searchZ t key ctx).1 (searchZ t key ctx).2 = plug t ctx := by
  induction t with
  | nil => intro ctx; rfl
  | node l r k v ihl ihr =>
    intro ctx
    rw [searchZ_node]
    by_cases he : key = k
    · simp [he]
    · by_cases hlt : key < k
      · simp only [if_neg he, if_pos hlt]
        rcases l with _ | ⟨ll, lr, lk, lv⟩
        · rfl
        · rw [ihl ((Dir.left, k, v, r) :: ctx)]
          rfl
      · simp only [if_neg he, if_neg hlt]
        rcases r with _ | ⟨rl, rr, rk, rv⟩
        · rfl
        · rw [ihr ((Dir.right, k, v, l) :: ctx)]
          rfl

theorem searchZ_nil_focus {t : ST} {key : Nat} {ctx : List SFrame}
    (h : (searchZ t key ctx).1 = ST.nil) : t = ST.nil := by
  induction t generalizing ctx with
  | nil => rfl
  | node l r k v ihl ihr =>
    rw [searchZ_node] at h
    by_cases he : key = k
    · simp [he] at h
    · by_cases hlt : key < k
      · simp only [if_neg he, if_pos hlt] at h
        rcases l with _ | ⟨ll, lr, lk, lv⟩
        · simp at h
        · exact absurd (ihl h) (by intro hcon; cases hcon)
      · simp only [if_neg he, if_neg hlt] at h
        rcases r with _ | ⟨rl, rr, rk, rv⟩
        · simp at h
        · exact absurd (ihr h) (by intro hcon; cases hcon)

theorem searchZ_stop {t : ST} {key : Nat} {ctx : List SFrame}
    {l r : ST} {k v : Nat}
    (h : (searchZ t key ctx).1 = node l r k v) :
    k = key ∨ (key < k ∧ l = ST.nil) ∨ (k < key ∧ r = ST.nil) := by
  induction t generalizing ctx with
  | nil => simp [searchZ] at h
  | node tl tr tk tv ihl ihr =>
    rw [searchZ_node] at h
    by_cases he : key = tk
    · simp only [if_pos he] at h
      obtain ⟨h1, h2, h3, h4⟩ : tl = l ∧ tr = r ∧ tk = k ∧ tv = v := by
        have := h
        simp only [ST.node.injEq] at this
        exact this
      left
      omega
    · by_cases hlt : key < tk
      · simp only [if_neg he, if_pos hlt] at h
        rcases tl with _ | ⟨ll, lr, lk, lv⟩
        · obtain ⟨h1, h2, h3, h4⟩ : ST.nil = l ∧ tr = r ∧ tk = k ∧ tv = v := by
            have := h
            simp only [ST.node.injEq] at this
            exact this
          right; left
          exact ⟨by omega, h1.symm⟩
        · exact ihl h
      · simp only [if_neg he, if_neg hlt] at h
        rcases tr with _ | ⟨rl, rr, rk, rv⟩
        · obtain ⟨h1, h2, h3, h4⟩ : tl = l ∧ ST.nil = r ∧ tk = k ∧ tv = v := by
            have := h
            simp only [ST.node.injEq] at this
            exact this
          right; right
          exact ⟨by omega, h2.symm⟩
        · exact ihr h

theorem searchZ_bounds {t : ST} (key : Nat) : ∀ ctx : List SFrame,
    ctxBounds ctx key = true → ctxBounds (searchZ t key ctx).2 key = true := by
  induction t with
  | nil => intro ctx h; exact h
  | node l r k v ihl ihr =>
    intro ctx h
    rw [searchZ_node]
    by_cases he : key = k
    · simpa [he] using h
    · by_cases hlt : key < k
      · simp only [if_neg he, if_pos hlt]
        rcases l with _ | ⟨ll, lr, lk, lv⟩
        · exact h
        · apply ihl
          simp [ctxBounds, hlt, h]
      · simp only [if_neg he, if_neg hlt]
        rcases r with _ | ⟨rl, rr, rk, rv⟩
        · exact h
        · apply ihr
          have : k < key := by omega
          simp [ctxBounds, this, h]

theorem searchZ_found {t : ST} {key v : Nat} (ho : t.ordered = true)
    (hm : (key, v) ∈ t.toList) : ∀ ctx : List SFrame,
    ∃ l r ctx', searchZ t key ctx = (node l r key v, ctx') := by
  induction t with
  | nil => simp at hm
  | node tl tr tk tv ihl ihr =>
    rw [ordered_node_iff_splay] at ho
    obtain ⟨hlk, hrk, hlo, hro⟩ := ho
    intro ctx
    rw [toList_node] at hm
    rcases List.mem_append.1 hm with hm | hm
    · have hklt : key < tk := hlk _ (key_mem_keys_splay hm)
      have hne : ¬ key = tk := by omega
      rcases tl with _ | ⟨ll, lr, lk, lv⟩
      · simp at hm
      · rw [searchZ_node]
        simp only [if_neg hne, if_pos hklt]
        exact ihl hlo hm _
    · rcases List.mem_cons.1 hm with hm | hm
      · simp only [Prod.mk.injEq] at hm
        obtain ⟨rfl, rfl⟩ := hm
        exact ⟨tl, tr, ctx, by rw [searchZ_node]; simp⟩
      · have hkgt : tk < key := hrk _ (key_mem_keys_splay hm)
        have hne : ¬ key = tk := by omega
        have hnlt : ¬ key < tk := by omega
        rcases tr with _ | ⟨rl, rr, rk, rv⟩
        · simp at hm
        · rw [searchZ_node]
          simp only [if_neg hne, if_neg hnlt]
          exact ihr hro hm _

theorem plug_ordered_sub (ctx : List SFrame) : ∀ y : ST,
    (plug y ctx).ordered = true → y.ordered = true := by
  induction ctx with
  | nil => intro y h; exact h
  | cons f ctx ih =>
    rcases f with ⟨d, pk, pv, sib⟩
    cases d with
    | left =>
      intro y h
      rw [plug] at h
      have := ih _ h
      exact (ordered_node_iff_splay.1 this).2.2.1
    | right =>
      intro y h
      rw [plug] at h
      have := ih _ h
      exact (ordered_node_iff_splay.1 this).2.2.2

theorem bounds_lists {key : Nat} (ctx : List SFrame) : ∀ x : ST,
    (plug x ctx).ordered = true → ctxBounds ctx key = true →
    (∀ a ∈ (ctxL ctx).map (fun e => e.1), a < key)
      ∧ ∀ b ∈ (ctxR ctx).map (fun e => e.1), key < b := by
  induction ctx with
  | nil => intro x _ _; simp [ctxL, ctxR]
  | cons f ctx ih =>
    rcases f with ⟨d, pk, pv, sib⟩
    cases d with
    | left =>
      intro x hord hb
      rw [plug] at hord
      rw [ctxBounds, Bool.and_eq_true, decide_eq_true_eq] at hb
      obtain ⟨hkpk, hb⟩ := hb
      have hsub := plug_ordered_sub ctx _ hord
      rw [ordered_node_iff_splay] at hsub
      obtain ⟨ih1, ih2⟩ := ih _ hord hb
      constructor
      · intro a ha
        rw [ctxL] at ha
        exact ih1 a ha
      · intro b hb'
        rw [ctxR] at hb'
        simp only [List.map_cons, List.map_append, List.mem_cons,
          List.mem_append] at hb'
        rcases hb' with (rfl | hb') | hb'
        · exact hkpk
        · obtain ⟨e, he, rfl⟩ := List.mem_map.1 hb'
          exact lt_trans hkpk (hsub.2.1 _ (key_mem_keys_splay he))
        · exact ih2 _ hb'
    | right =>
      intro x hord hb
      rw [plug] at hord
      rw [ctxBounds, Bool.and_eq_true, decide_eq_true_eq] at hb
      obtain ⟨hpkk, hb⟩ := hb
      have hsub := plug_ordered_sub ctx _ hord
      rw [ordered_node_iff_splay] at hsub
      obtain ⟨ih1, ih2⟩ := ih _ hord hb
      constructor
      · intro a ha
        rw [ctxL] at ha
        simp only [List.map_append, List.mem_append, List.map_singleton,
          List.mem_singleton] at ha
        rcases ha with (ha | ha) | ha
        · exact ih1 a ha
        · obtain ⟨e, he, rfl⟩ := List.mem_map.1 ha
          exact lt_trans (hsub.1 _ (key_mem_keys_splay he)) hpkk
        · subst ha
          exact hpkk
      · intro b hb'
        rw [ctxR] at hb'
        exact ih2 b hb'

end Splay

namespace Splay

open ST

theorem focus_key_mem {t l r : ST} {key k0 v0 : Nat} {ctx' : List SFrame}
    (hz : searchZ t key [] = (node l r k0 v0, ctx')) : k0 ∈ t.keys := by
  have hp := searchZ_plug t key []
  rw [hz] at hp
  simp only [plug_nil_ctx] at hp
  have : k0 ∈ (plug (node l r k0 v0) ctx').keys := by
    rw [ST.keys, plug_toList]
    refine List.mem_map.2 ⟨(k0, v0), ?_, rfl⟩
    simp
  rw [hp] at this
  exact this

theorem removeMin_toList (u : ST) :
    u ≠ ST.nil → u.toList = (removeMin u).1 :: (removeMin u).2.toList := by
  induction u with
  | nil => intro h; exact absurd rfl h
  | node ul ur uk uv ihl ihr =>
    intro _
    rcases ul with _ | ⟨ua, ub, uka, uva⟩
    · simp [removeMin]
    · have hne' : (node ua ub uka uva) ≠ ST.nil := by intro hcon; cases hcon
      have hl := ihl hne'
      rw [removeMin]
      conv_lhs => rw [toList_node, hl]
      simp

theorem insert_dup_splay {t : ST} {key v0 value : Nat} (ho : t.ordered = true)
    (hm : (key, v0) ∈ t.toList) : insert t key value = (false, t) := by
  obtain ⟨l, r, ctx', hz⟩ := searchZ_found ho hm []
  simp [insert, hz]

theorem insert_absent {t : ST} {key value : Nat} (ho : t.ordered = true)
    (hk : key ∉ t.keys) :
    (insert t key value).1 = true
    ∧ ∃ A B, t.toList = A ++ B
        ∧ (insert t key value).2.toList = A ++ (key, value) :: B
        ∧ (insert t key value).2.ordered = true := by
  rcases hz : searchZ t key [] with ⟨focus, ctx'⟩
  rcases focus with _ | ⟨l, r, k0, v0⟩
  · have ht : t = ST.nil := searchZ_nil_focus (by rw [hz])
    subst ht
    cases hz
    refine ⟨rfl, [], [], by simp, by simp [insert, searchZ], ?_⟩
    simp [insert, searchZ, ordered, ST.keys]
  · have hne : k0 ≠ key := by
      intro hcon
      exact hk (hcon ▸ focus_key_mem hz)
    have hstop := @searchZ_stop t key [] l r k0 v0 (by rw [hz])
    have hp := searchZ_plug t key []
    rw [hz] at hp
    simp only [plug_nil_ctx] at hp
    have hbound' : ctxBounds ctx' key = true := by
      have := @searchZ_bounds t key [] rfl
      rw [hz] at this
      exact this
    by_cases hlt : key < k0
    · have hl : l = ST.nil := by
        rcases hstop with h | ⟨_, h⟩ | ⟨h, _⟩
        · exact absurd h hne
        · exact h
        · omega
      subst hl
      set ctx2 : List SFrame := (Dir.left, k0, v0, r) :: ctx' with hctx2
      have hins : insert t key value
          = (true, splay (node ST.nil ST.nil key value) ctx2) := by
        simp [insert, hz, hne, hlt, hctx2]
      have hplugnil : plug ST.nil ctx2 = t := by
        rw [hctx2, plug]
        exact hp
      have htl : t.toList = ctxL ctx2 ++ ctxR ctx2 := by
        rw [← hplugnil, plug_toList]
        simp
      have hbound : ctxBounds ctx2 key = true := by
        rw [hctx2]
        simp [ctxBounds, hlt, hbound']
      have hord' : (plug ST.nil ctx2).ordered = true := by
        rw [hplugnil]; exact ho
      obtain ⟨hA, hB⟩ := @bounds_lists key ctx2 ST.nil hord' hbound
      rw [hins]
      refine ⟨rfl, ctxL ctx2, ctxR ctx2, htl, ?_, ?_⟩
      · rw [splay_toList, plug_toList]
        simp
      · rw [ordered_iff_pairwise, ST.keys, splay_toList, plug_toList]
        have hgoal : ((ctxL ctx2 ++ (node ST.nil ST.nil key value).toList
              ++ ctxR ctx2).map (fun e => e.1))
            = (ctxL ctx2).map (fun e => e.1)
              ++ key :: (ctxR ctx2).map (fun e => e.1) := by
          simp
        rw [hgoal]
        apply pairwise_lt_insert_middle _ hA hB
        have hsorted := ordered_iff_pairwise.1 ho
        rw [ST.keys, htl, List.map_append] at hsorted
        exact hsorted
    · have hgt : k0 < key := by omega
      have hr : r = ST.nil := by
        rcases hstop with h | ⟨h, _⟩ | ⟨_, h⟩
        · exact absurd h hne
        · omega
        · exact h
      subst hr
      set ctx2 : List SFrame := (Dir.right, k0, v0, l) :: ctx' with hctx2
      have hins : insert t key value
          = (true, splay (node ST.nil ST.nil key value) ctx2) := by
        simp [insert, hz, hne, hlt, hctx2]
      have hplugnil : plug ST.nil ctx2 = t := by
        rw [hctx2, plug]
        exact hp
      have htl : t.toList = ctxL ctx2 ++ ctxR ctx2 := by
        rw [← hplugnil, plug_toList]
        simp
      have hbound : ctxBounds ctx2 key = true := by
        rw [hctx2]
        simp [ctxBounds, hgt, hbound']
      have hord' : (plug ST.nil ctx2).ordered = true := by
        rw [hplugnil]; exact ho
      obtain ⟨hA, hB⟩ := @bounds_lists key ctx2 ST.nil hord' hbound
      rw [hins]
      refine ⟨rfl, ctxL ctx2, ctxR ctx2, htl, ?_, ?_⟩
      · rw [splay_toList, plug_toList]
        simp
      · rw [ordered_iff_pairwise, ST.keys, splay_toList, plug_toList]
        have hgoal : ((ctxL ctx2 ++ (node ST.nil ST.nil key value).toList
              ++ ctxR ctx2).map (fun e => e.1))
            = (ctxL ctx2).map (fun e => e.1)
              ++ key :: (ctxR ctx2).map (fun e => e.1) := by
          simp
        rw [hgoal]
        apply pairwise_lt_insert_middle _ hA hB
        have hsorted := ordered_iff_pairwise.1 ho
        rw [ST.keys, htl, List.map_append] at hsorted
        exact hsorted

theorem get_found {t : ST} {key v : Nat} (ho : t.ordered = true)
    (hm : (key, v) ∈ t.toList) :
    (get t key).1 = some v
    ∧ (get t key).2.toList = t.toList
    ∧ (get t key).2.ordered = true := by
  obtain ⟨l, r, ctx', hz⟩ := searchZ_found ho hm []
  have hp := searchZ_plug t key []
  rw [hz] at hp
  simp only [plug_nil_ctx] at hp
  have hget : get t key = (some v, splay (node l r key v) ctx') := by
    simp [get, hz]
  rw [hget]
  have htl : (splay (node l r key v) ctx').toList = t.toList := by
    rw [splay_toList, hp]
  refine ⟨rfl, htl, ?_⟩
  rw [ordered_iff_pairwise, ST.keys, htl]
  exact ordered_iff_pairwise.1 ho

theorem get_miss {t : ST} {key : Nat} (hk : key ∉ t.keys) :
    get t key = (none, t) := by
  rcases hz : searchZ t key [] with ⟨focus, ctx'⟩
  rcases focus with _ | ⟨l, r, k0, v0⟩
  · simp [get, hz]
  · have hne : k0 ≠ key := by
      intro hcon
      exact hk (hcon ▸ focus_key_mem hz)
    simp [get, hz, hne]

theorem remove_found {t : ST} {key v : Nat} (ho : t.ordered = true)
    (hm : (key, v) ∈ t.toList) :
    (remove t key).1 = some v
    ∧ ∃ A B, t.toList = A ++ (key, v) :: B
        ∧ (remove t key).2.toList = A ++ B
        ∧ (remove t key).2.ordered = true := by
  obtain ⟨l, r, ctx', hz⟩ := searchZ_found ho hm []
  obtain ⟨L, R, hsp⟩ := splay_root ctx' l r key v
  have hp := searchZ_plug t key []
  rw [hz] at hp
  simp only [plug_nil_ctx] at hp
  have htl : L.toList ++ (key, v) :: R.toList = t.toList := by
    have : (node L R key v).toList = t.toList := by
      rw [← hsp, splay_toList, hp]
    simpa using this
  have hrem : remove t key
      = (some v,
          if L = ST.nil then R
          else if R = ST.nil then L
          else node L (removeMin R).2 (removeMin R).1.1 (removeMin R).1.2) := by
    simp only [remove, hz, hsp]
    rw [if_neg (by simp)]
    by_cases hL : L = ST.nil
    · simp [hL]
    · by_cases hR : R = ST.nil
      · simp [hL, hR]
      · simp [hL, hR]
  have hres : (remove t key).2.toList = L.toList ++ R.toList := by
    rw [hrem]
    by_cases hL : L = ST.nil
    · subst hL
      simp
    · by_cases hR : R = ST.nil
      · subst hR
        simp [hL]
      · rw [if_neg hL, if_neg hR]
        simp only [toList_node]
        rw [show (removeMin R).1.1 = (removeMin R).1.1 from rfl]
        have hmin := removeMin_toList R hR
        calc L.toList ++ ((removeMin R).1.1, (removeMin R).1.2)
              :: (removeMin R).2.toList
            = L.toList ++ (removeMin R).1 :: (removeMin R).2.toList := by simp
          _ = L.toList ++ R.toList := by rw [← hmin]
  refine ⟨by rw [hrem], L.toList, R.toList, htl.symm, hres, ?_⟩
  rw [ordered_iff_pairwise, ST.keys, hres, List.map_append]
  apply pairwise_lt_remove_middle (k := key)
  have hsorted := ordered_iff_pairwise.1 ho
  rw [ST.keys, ← htl] at hsorted
  simpa using hsorted

theorem remove_miss {t : ST} {key : Nat} (hk : key ∉ t.keys) :
    remove t key = (none, t) := by
  rcases hz : searchZ t key [] with ⟨focus, ctx'⟩
  rcases focus with _ | ⟨l, r, k0, v0⟩
  · simp [remove, hz]
  · have hne : k0 ≠ key := by
      intro hcon
      exact hk (hcon ▸ focus_key_mem hz)
    simp [remove, hz, hne]

theorem modify_nonempty {t : ST} {key value : Nat} (hne : t ≠ ST.nil) :
    (modify t key value).1 = true := by
  rcases hz : searchZ t key [] with ⟨focus, ctx'⟩
  rcases focus with _ | ⟨l, r, k0, v0⟩
  · exact absurd (searchZ_nil_focus (by rw [hz])) hne
  · simp [modify, hz]

end Splay

/-! ## AVL theorems -/

namespace AT

@[simp] theorem toList_nil_avl : (nil).toList = [] := rfl

@[simp] theorem toList_node_avl (l r : AT) (h : Int) (k v : Nat) :
    (node l r h k v).toList = l.toList ++ (k, v) :: r.toList := rfl

@[simp] theorem keys_nil_avl : (nil).keys = [] := rfl

@[simp] theorem keys_node_avl (l r : AT) (h : Int) (k v : Nat) :
    (node l r h k v).keys = l.keys ++ k :: r.keys := by
  simp [keys, toList]

theorem key_mem_keys_avl {t : AT} {e : Nat × Nat} (he : e ∈ t.toList) :
    e.1 ∈ t.keys :=
  List.mem_map_of_mem _ he

theorem ordered_node_iff_avl {l r : AT} {h : Int} {k v : Nat} :
    (node l r h k v).ordered = true ↔
      (∀ x ∈ l.keys, x < k) ∧ (∀ x ∈ r.keys, k < x)
        ∧ l.ordered = true ∧ r.ordered = true := by
  simp [ordered, and_assoc]

theorem heightsOk_node_iff {l r : AT} {h : Int} {k v : Nat} :
    (node l r h k v).heightsOk = true ↔
      h = 1 + max l.heightD r.heightD
        ∧ l.heightsOk = true ∧ r.heightsOk = true := by
  simp [heightsOk, and_assoc]

theorem balanced_node_iff {l r : AT} {h : Int} {k v : Nat} :
    (node l r h k v).balanced = true ↔
      (r.heightD - l.heightD).natAbs ≤ 1
        ∧ l.balanced = true ∧ r.balanced = true := by
  simp [balanced, and_assoc]

/-- BST order is equivalent to the in-order key sequence being strictly
increasing. -/
theorem ordered_iff_pairwise_avl {t : AT} :
    t.ordered = true ↔ t.keys.Pairwise (· < ·) := by
  induction t with
  | nil => simp [ordered]
  | node l r h k v ihl ihr =>
    rw [ordered_node_iff_avl, keys_node_avl]
    constructor
    · rintro ⟨hlk, hrk, hlo, hro⟩
      rw [List.pairwise_append]
      refine ⟨ihl.1 hlo, ?_, ?_⟩
      · rw [List.pairwise_cons]
        exact ⟨hrk, ihr.1 hro⟩
      · intro a ha b hb
        rcases List.mem_cons.1 hb with rfl | hb
        · exact hlk a ha
        · exact lt_trans (hlk a ha) (hrk b hb)
    · intro hp
      rw [List.pairwise_append] at hp
      obtain ⟨h1, h2, h3⟩ := hp
      rw [List.pairwise_cons] at h2
      refine ⟨?_, h2.1, ihl.2 h1, ihr.2 h2.2⟩
      intro a ha
      exact h3 a ha k (by simp)

theorem heightD_nil : (nil).heightD = -1 := rfl

theorem heightD_node (l r : AT) (h : Int) (k v : Nat) :
    (node l r h k v).heightD = h := rfl

/-- A tree with correct stored heights has stored height ≥ -1. -/
theorem heightD_ge_neg_one {t : AT} (hh : t.heightsOk = true) : -1 ≤ t.heightD := by
  induction t with
  | nil => simp [heightD]
  | node l r h k v ihl ihr =>
    rw [heightsOk_node_iff] at hh
    obtain ⟨h1, h2, h3⟩ := hh
    have hl := ihl h2
    have hr := ihr h3
    rw [heightD_node, h1]
    omega

end AT

namespace AVL

open AT

/-- The retrace visit `fixStep`: on children with correct stored heights
and AVL balance, and a local imbalance of at most 2, it restores the
invariants, preserves the in-order entries, and yields a subtree whose
height is the recomputed `1 + max` or one less (exactly `1 + max` when
no rotation fires). -/
theorem fixStep_spec {l r : AT} {h : Int} {k v : Nat}
    (hlH : l.heightsOk = true) (hrH : r.heightsOk = true)
    (hlB : l.balanced = true) (hrB : r.balanced = true)
    (hd : (r.heightD - l.heightD).natAbs ≤ 2) :
    (fixStep (node l r h k v)).heightsOk = true
    ∧ (fixStep (node l r h k v)).balanced = true
    ∧ (fixStep (node l r h k v)).toList = l.toList ++ (k, v) :: r.toList
    ∧ max l.heightD r.heightD ≤ (fixStep (node l r h k v)).heightD
    ∧ (fixStep (node l r h k v)).heightD ≤ 1 + max l.heightD r.heightD
    ∧ ((r.heightD - l.heightD).natAbs ≤ 1 →
        (fixStep (node l r h k v)).heightD = 1 + max l.heightD r.heightD) := by
  by_cases hble : (r.heightD - l.heightD).natAbs ≤ 1
  · have hfix : fixStep (node l r h k v)
        = node l r (1 + max l.heightD r.heightD) k v := by
      simp only [fixStep.eq_def]
      rw [if_neg (by omega)]
    rw [hfix]
    refine ⟨?_, ?_, by simp, by rw [heightD_node]; omega,
      by rw [heightD_node], fun _ => by rw [heightD_node]⟩
    · rw [heightsOk_node_iff]
      exact ⟨rfl, hlH, hrH⟩
    · rw [balanced_node_iff]
      exact ⟨hble, hlB, hrB⟩
  · have habs : (r.heightD - l.heightD).natAbs = 2 := by omega
    have hlge : -1 ≤ l.heightD := heightD_ge_neg_one hlH
    have hrge : -1 ≤ r.heightD := heightD_ge_neg_one hrH
    by_cases hgt : r.heightD > l.heightD
    · -- right-heavy: r.heightD = l.heightD + 2 ≥ 1, so r is a node
      have hreq : r.heightD = l.heightD + 2 := by omega
      rcases r with _ | ⟨rl, rr, rh, rk, rv⟩
      · rw [heightD_nil] at hreq
        omega
      · rw [heightsOk_node_iff] at hrH
        obtain ⟨hrh, hrlH, hrrH⟩ := hrH
        rw [balanced_node_iff] at hrB
        obtain ⟨hrbf, hrlB, hrrB⟩ := hrB
        rw [heightD_node] at hreq hgt
        by_cases hcase : rr.heightD ≥ rl.heightD
        · -- single left rotation
          have hfix : fixStep (node l (node rl rr rh rk rv) h k v)
              = node (node l rl (1 + max l.heightD rl.heightD) k v) rr
                  (1 + max (1 + max l.heightD rl.heightD) rr.heightD) rk rv := by
            simp only [fixStep.eq_def]
            rw [if_pos (by rw [heightD_node]; omega)]
            rw [if_pos (by rw [heightD_node]; omega)]
            rw [if_pos hcase]
            simp [rotateLeft, heightD_node]
          rw [hfix]
          have hrr : rr.heightD = l.heightD + 1 := by omega
          have hrl : rl.heightD = l.heightD ∨ rl.heightD = l.heightD + 1 := by
            omega
          refine ⟨?_, ?_, by simp, ?_, ?_, ?_⟩
          · rw [heightsOk_node_iff, heightsOk_node_iff]
            exact ⟨rfl, ⟨rfl, hlH, hrlH⟩, hrrH⟩
          · rw [balanced_node_iff, balanced_node_iff]
            refine ⟨?_, ⟨?_, hlB, hrlB⟩, hrrB⟩
            · rw [heightD_node]
              omega
            · omega
          · rw [heightD_node, heightD_node]
            omega
          · rw [heightD_node, heightD_node]
            omega
          · intro hcon
            rw [heightD_node] at hcon
            omega
        · -- double rotation: rl is strictly taller, hence a node
          have hrlh : rl.heightD = l.heightD + 1 := by omega
          have hrrh : rr.heightD = l.heightD := by omega
          rcases rl with _ | ⟨a, b, hab, rlk, rlv⟩
          · rw [heightD_nil] at hrlh
            omega
          · rw [heightsOk_node_iff] at hrlH
            obtain ⟨habh, haH, hbH⟩ := hrlH
            rw [balanced_node_iff] at hrlB
            obtain ⟨habbf, haB, hbB⟩ := hrlB
            rw [heightD_node] at hrlh
            have hfix : fixStep (node l (node (node a b hab rlk rlv) rr rh rk rv) h k v)
                = node (node l a (1 + max l.heightD a.heightD) k v)
                    (node b rr (1 + max b.heightD rr.heightD) rk rv)
                    (1 + max (1 + max l.heightD a.heightD)
                      (1 + max b.heightD rr.heightD)) rlk rlv := by
              simp only [fixStep.eq_def]
              rw [if_pos (by rw [heightD_node]; omega)]
              rw [if_pos (by rw [heightD_node]; omega)]
              rw [if_neg hcase]
              simp [doubleRotateLeft, rotateRight, rotateLeft, heightD_node]
            rw [hfix]
            have hage : -1 ≤ a.heightD := heightD_ge_neg_one haH
            have hbge : -1 ≤ b.heightD := heightD_ge_neg_one hbH
            refine ⟨?_, ?_, by simp, ?_, ?_, ?_⟩
            · rw [heightsOk_node_iff, heightsOk_node_iff, heightsOk_node_iff]
              exact ⟨rfl, ⟨rfl, hlH, haH⟩, ⟨rfl, hbH, hrrH⟩⟩
            · rw [balanced_node_iff, balanced_node_iff, balanced_node_iff]
              refine ⟨?_, ⟨?_, hlB, haB⟩, ⟨?_, hbB, hrrB⟩⟩
              · rw [heightD_node, heightD_node]
                omega
              · omega
              · omega
            · rw [heightD_node, heightD_node]
              omega
            · rw [heightD_node, heightD_node]
              omega
            · intro hcon
              rw [heightD_node] at hcon
              omega
    · -- left-heavy: l.heightD = r.heightD + 2 ≥ 1, so l is a node
      have hleq : l.heightD = r.heightD + 2 := by omega
      rcases l with _ | ⟨ll, lr, lh, lk, lv⟩
      · rw [heightD_nil] at hleq
        omega
      · rw [heightsOk_node_iff] at hlH
        obtain ⟨hlh, hllH, hlrH⟩ := hlH
        rw [balanced_node_iff] at hlB
        obtain ⟨hlbf, hllB, hlrB⟩ := hlB
        rw [heightD_node] at hleq hgt
        by_cases hcase : ll.heightD ≥ lr.heightD
        · -- single right rotation
          have hfix : fixStep (node (node ll lr lh lk lv) r h k v)
              = node ll (node lr r (1 + max lr.heightD r.heightD) k v)
                  (1 + max ll.heightD (1 + max lr.heightD r.heightD)) lk lv := by
            simp only [fixStep.eq_def]
            rw [if_pos (by rw [heightD_node]; omega)]
            rw [if_neg (by rw [heightD_node]; omega)]
            rw [if_pos hcase]
            simp [rotateRight, heightD_node]
          rw [hfix]
          have hll : ll.heightD = r.heightD + 1 := by omega
          have hlr : lr.heightD = r.heightD ∨ lr.heightD = r.heightD + 1 := by
            omega
          refine ⟨?_, ?_, by simp, ?_, ?_, ?_⟩
          · rw [heightsOk_node_iff, heightsOk_node_iff]
            exact ⟨rfl, hllH, ⟨rfl, hlrH, hrH⟩⟩
          · rw [balanced_node_iff, balanced_node_iff]
            refine ⟨?_, hllB, ⟨?_, hlrB, hrB⟩⟩
            · rw [heightD_node]
              omega
            · omega
          · rw [heightD_node, heightD_node]
            omega
          · rw [heightD_node, heightD_node]
            omega
          · intro hcon
            rw [heightD_node] at hcon
            omega
        · -- double rotation: lr is strictly taller, hence a node
          have hlrh : lr.heightD = r.heightD + 1 := by omega
          have hllh : ll.heightD = r.heightD := by omega
          rcases lr with _ | ⟨a, b, hab, lrk, lrv⟩
          · rw [heightD_nil] at hlrh
            omega
          · rw [heightsOk_node_iff] at hlrH
            obtain ⟨habh, haH, hbH⟩ := hlrH
            rw [balanced_node_iff] at hlrB
            obtain ⟨habbf, haB, hbB⟩ := hlrB
            rw [heightD_node] at hlrh
            have hfix : fixStep (node (node ll (node a b hab lrk lrv) lh lk lv) r h k v)
                = node (node ll a (1 + max ll.heightD a.heightD) lk lv)
                    (node b r (1 + max b.heightD r.heightD) k v)
                    (1 + max (1 + max ll.heightD a.heightD)
                      (1 + max b.heightD r.heightD)) lrk lrv := by
              simp only [fixStep.eq_def]
              rw [if_pos (by rw [heightD_node]; omega)]
              rw [if_neg (by rw [heightD_node]; omega)]
              rw [if_neg hcase]
              simp [doubleRotateRight, rotateLeft, rotateRight, heightD_node]
            rw [hfix]
            have hage : -1 ≤ a.heightD := heightD_ge_neg_one haH
            have hbge : -1 ≤ b.heightD := heightD_ge_neg_one hbH
            refine ⟨?_, ?_, by simp, ?_, ?_, ?_⟩
            · rw [heightsOk_node_iff, heightsOk_node_iff, heightsOk_node_iff]
              exact ⟨rfl, ⟨rfl, hllH, haH⟩, ⟨rfl, hbH, hrH⟩⟩
            · rw [balanced_node_iff, balanced_node_iff, balanced_node_iff]
              refine ⟨?_, ⟨?_, hllB, haB⟩, ⟨?_, hbB, hrB⟩⟩
              · rw [heightD_node, heightD_node]
                omega
              · omega
              · omega
            · rw [heightD_node, heightD_node]
              omega
            · rw [heightD_node, heightD_node]
              omega
            · intro hcon
              rw [heightD_node] at hcon
              omega

theorem ordered_of_toList_eq {t t' : AT} (h : t.toList = t'.toList)
    (ho : t.ordered = true) : t'.ordered = true := by
  rw [ordered_iff_pairwise_avl] at ho ⊢
  rw [AT.keys, ← h]
  exact ho

theorem insert_spec_avl {t : AT} {key value : Nat}
    (ho : t.ordered = true) (hH : t.heightsOk = true) (hB : t.balanced = true)
    (hk : key ∉ t.keys) :
    (insert t key value).1 = true
    ∧ (insert t key value).2.toList
        = t.toList.filter (fun e => decide (e.1 < key))
          ++ (key, value) :: t.toList.filter (fun e => decide (key < e.1))
    ∧ (insert t key value).2.ordered = true
    ∧ (insert t key value).2.heightsOk = true
    ∧ (insert t key value).2.balanced = true
    ∧ t.heightD ≤ (insert t key value).2.heightD
    ∧ (insert t key value).2.heightD ≤ t.heightD + 1 := by
  induction t with
  | nil =>
    refine ⟨rfl, ?_, ?_, ?_, ?_, ?_, ?_⟩ <;>
      simp [insert, fixStep, heightD, ordered, heightsOk, balanced, AT.keys]
  | node l r h k v ihl ihr =>
    rw [ordered_node_iff_avl] at ho
    obtain ⟨hlk, hrk, hlo, hro⟩ := ho
    rw [heightsOk_node_iff] at hH
    obtain ⟨hh, hlH, hrH⟩ := hH
    rw [balanced_node_iff] at hB
    obtain ⟨hbf, hlB, hrB⟩ := hB
    have hlge := heightD_ge_neg_one hlH
    have hrge := heightD_ge_neg_one hrH
    have hne : key ≠ k := by
      intro hcon
      exact hk (by simp [hcon])
    have hknl : key ∉ l.keys := fun hc => hk (by simp [hc])
    have hknr : key ∉ r.keys := fun hc => hk (by simp [hc])
    by_cases hlt : key < k
    · obtain ⟨ih1, ih2, ih3, ih4, ih5, ih6, ih7⟩ := ihl hlo hlH hlB hknl
      have hstep : insert (node l r h k v) key value
          = (true, fixStep (node (insert l key value).2 r h k v)) := by
        rw [insert.eq_def]
        simp only [if_neg hne, if_pos hlt]
        rw [ih1]
        simp
      have hfs := fixStep_spec (l := (insert l key value).2) (r := r)
        (h := h) (k := k) (v := v) ih4 hrH ih5 hrB (by omega)
      obtain ⟨hf1, hf2, hf3, hf4, hf5, hf6⟩ := hfs
      have hl'keys : ∀ x ∈ (insert l key value).2.keys, x < k := by
        intro x hx
        rw [AT.keys, ih2] at hx
        simp only [List.map_append, List.map_cons, List.mem_append,
          List.mem_cons] at hx
        rcases hx with hx | rfl | hx
        · obtain ⟨e, he, rfl⟩ := List.mem_map.1 hx
          exact hlk _ (key_mem_keys_avl (List.mem_of_mem_filter he))
        · exact hlt
        · obtain ⟨e, he, rfl⟩ := List.mem_map.1 hx
          exact hlk _ (key_mem_keys_avl (List.mem_of_mem_filter he))
      have hordl' : (node (insert l key value).2 r h k v).ordered = true := by
        rw [ordered_node_iff_avl]
        exact ⟨hl'keys, hrk, ih3, hro⟩
      have hres_ord : (fixStep (node (insert l key value).2 r h k v)).ordered = true :=
        ordered_of_toList_eq (by rw [hf3]; simp) hordl'
      rw [hstep]
      dsimp only
      refine ⟨rfl, ?_, hres_ord, hf1, hf2, ?_, ?_⟩
      · simp only [hf3, ih2, toList_node_avl]
        rw [List.filter_append, List.filter_append, List.filter_cons,
          List.filter_cons]
        simp only [decide_eq_true_eq, hlt, Nat.not_lt.2 (Nat.le_of_lt hlt),
          if_true, if_false]
        have h1 : r.toList.filter (fun e => decide (e.1 < key)) = [] := by
          apply List.filter_eq_nil_iff.2
          intro e he
          simp only [decide_eq_true_eq]
          have := hrk _ (key_mem_keys_avl he)
          omega
        have h2 : r.toList.filter (fun e => decide (key < e.1)) = r.toList := by
          apply List.filter_eq_self.2
          intro e he
          simp only [decide_eq_true_eq]
          have := hrk _ (key_mem_keys_avl he)
          omega
        rw [h1, h2]
        simp
      · rw [heightD_node]
        by_cases habs2 : (r.heightD - (insert l key value).2.heightD).natAbs ≤ 1
        · have h8 := hf6 habs2
          omega
        · omega
      · rw [heightD_node]
        by_cases habs2 : (r.heightD - (insert l key value).2.heightD).natAbs ≤ 1
        · have h8 := hf6 habs2
          omega
        · omega
    · have hgt : k < key := by omega
      obtain ⟨ih1, ih2, ih3, ih4, ih5, ih6, ih7⟩ := ihr hro hrH hrB hknr
      have hstep : insert (node l r h k v) key value
          = (true, fixStep (node l (insert r key value).2 h k v)) := by
        rw [insert.eq_def]
        simp only [if_neg hne, if_neg hlt]
        rw [ih1]
        simp
      have hfs := fixStep_spec (l := l) (r := (insert r key value).2)
        (h := h) (k := k) (v := v) hlH ih4 hlB ih5 (by omega)
      obtain ⟨hf1, hf2, hf3, hf4, hf5, hf6⟩ := hfs
      have hr'keys : ∀ x ∈ (insert r key value).2.keys, k < x := by
        intro x hx
        rw [AT.keys, ih2] at hx
        simp only [List.map_append, List.map_cons, List.mem_append,
          List.mem_cons] at hx
        rcases hx with hx | rfl | hx
        · obtain ⟨e, he, rfl⟩ := List.mem_map.1 hx
          exact hrk _ (key_mem_keys_avl (List.mem_of_mem_filter he))
        · exact hgt
        · obtain ⟨e, he, rfl⟩ := List.mem_map.1 hx
          exact hrk _ (key_mem_keys_avl (List.mem_of_mem_filter he))
      have hordr' : (node l (insert r key value).2 h k v).ordered = true := by
        rw [ordered_node_iff_avl]
        exact ⟨hlk, hr'keys, hlo, ih3⟩
      have hres_ord : (fixStep (node l (insert r key value).2 h k v)).ordered = true :=
        ordered_of_toList_eq (by rw [hf3]; simp) hordr'
      rw [hstep]
      dsimp only
      refine ⟨rfl, ?_, hres_ord, hf1, hf2, ?_, ?_⟩
      · simp only [hf3, ih2, toList_node_avl]
        rw [List.filter_append, List.filter_append, List.filter_cons,
          List.filter_cons]
        simp only [decide_eq_true_eq, hgt, Nat.not_lt.2 (Nat.le_of_lt hgt),
          if_true, if_false]
        have h1 : l.toList.filter (fun e => decide (e.1 < key)) = l.toList := by
          apply List.filter_eq_self.2
          intro e he
          simp only [decide_eq_true_eq]
          have := hlk _ (key_mem_keys_avl he)
          omega
        have h2 : l.toList.filter (fun e => decide (key < e.1)) = [] := by
          apply List.filter_eq_nil_iff.2
          intro e he
          simp only [decide_eq_true_eq]
          have := hlk _ (key_mem_keys_avl he)
          omega
        rw [h1, h2]
        simp
      · rw [heightD_node]
        by_cases habs2 : ((insert r key value).2.heightD - l.heightD).natAbs ≤ 1
        · have h8 := hf6 habs2
          omega
        · omega
      · rw [heightD_node]
        by_cases habs2 : ((insert r key value).2.heightD - l.heightD).natAbs ≤ 1
        · have h8 := hf6 habs2
          omega
        · omega

theorem removeMin_spec {t : AT}
    (ho : t.ordered = true) (hH : t.heightsOk = true) (hB : t.balanced = true)
    (hne : t ≠ AT.nil) :
    t.toList = (removeMin t).1 :: (removeMin t).2.toList
    ∧ (removeMin t).2.ordered = true
    ∧ (removeMin t).2.heightsOk = true
    ∧ (removeMin t).2.balanced = true
    ∧ t.heightD - 1 ≤ (removeMin t).2.heightD
    ∧ (removeMin t).2.heightD ≤ t.heightD := by
  induction t with
  | nil => exact absurd rfl hne
  | node l r h k v ihl ihr =>
    rw [ordered_node_iff_avl] at ho
    obtain ⟨hlk, hrk, hlo, hro⟩ := ho
    rw [heightsOk_node_iff] at hH
    obtain ⟨hh, hlH, hrH⟩ := hH
    rw [balanced_node_iff] at hB
    obtain ⟨hbf, hlB, hrB⟩ := hB
    have hlge := heightD_ge_neg_one hlH
    have hrge := heightD_ge_neg_one hrH
    rcases l with _ | ⟨la, lb, lh, lk, lv⟩
    · rw [removeMin]
      refine ⟨by simp, hro, hrH, hrB, ?_, ?_⟩ <;>
        · dsimp only
          rw [heightD_node]
          rw [heightD_nil] at hh
          omega
    · obtain ⟨ih1, ih2, ih3, ih4, ih5, ih6⟩ :=
        ihl hlo hlH hlB (by intro hcon; cases hcon)
      rw [heightD_node] at hbf hh hlge ih5 ih6
      have hstep : removeMin (node (node la lb lh lk lv) r h k v)
          = ((removeMin (node la lb lh lk lv)).1,
             fixStep (node (removeMin (node la lb lh lk lv)).2 r h k v)) := by
        rw [removeMin]
      set p := removeMin (node la lb lh lk lv) with hp
      have hfs := fixStep_spec (l := p.2) (r := r) (h := h) (k := k) (v := v)
        ih3 hrH ih4 hrB (by omega)
      obtain ⟨hf1, hf2, hf3, hf4, hf5, hf6⟩ := hfs
      have hp2keys : ∀ x ∈ p.2.keys, x < k := by
        intro x hx
        apply hlk
        rw [AT.keys, ih1]
        simp only [List.map_cons, List.mem_cons]
        right
        exact hx
      have hord' : (node p.2 r h k v).ordered = true := by
        rw [ordered_node_iff_avl]
        exact ⟨hp2keys, hrk, ih2, hro⟩
      rw [hstep]
      dsimp only
      refine ⟨?_, ordered_of_toList_eq (by rw [hf3]; simp) hord', hf1, hf2, ?_, ?_⟩
      · rw [hf3, toList_node_avl, ih1]
        simp
      · rw [heightD_node]
        by_cases habs2 : (r.heightD - p.2.heightD).natAbs ≤ 1
        · have h8 := hf6 habs2
          omega
        · omega
      · rw [heightD_node]
        by_cases habs2 : (r.heightD - p.2.heightD).natAbs ≤ 1
        · have h8 := hf6 habs2
          omega
        · omega

theorem remove_miss_avl {t : AT} {key : Nat} (hk : key ∉ t.keys) :
    remove t key = (none, t) := by
  induction t with
  | nil => rfl
  | node l r h k v ihl ihr =>
    have hne : ¬ key = k := by
      intro hcon
      exact hk (by simp [hcon])
    have hknl : key ∉ l.keys := fun hc => hk (by simp [hc])
    have hknr : key ∉ r.keys := fun hc => hk (by simp [hc])
    by_cases hlt : key < k
    · rw [remove.eq_def]
      simp only [if_neg hne, if_pos hlt]
      rw [ihl hknl]
      simp
    · rw [remove.eq_def]
      simp only [if_neg hne, if_neg hlt]
      rw [ihr hknr]
      simp

theorem remove_found_avl {t : AT} {key : Nat}
    (ho : t.ordered = true) (hH : t.heightsOk = true) (hB : t.balanced = true)
    (hk : key ∈ t.keys) :
    ∃ v, (remove t key).1 = some v
      ∧ (key, v) ∈ t.toList
      ∧ (remove t key).2.toList = t.toList.filter (fun e => decide (e.1 ≠ key))
      ∧ (remove t key).2.ordered = true
      ∧ (remove t key).2.heightsOk = true
      ∧ (remove t key).2.balanced = true
      ∧ t.heightD - 1 ≤ (remove t key).2.heightD
      ∧ (remove t key).2.heightD ≤ t.heightD := by
  induction t with
  | nil => simp at hk
  | node l r h k v ihl ihr =>
    rw [ordered_node_iff_avl] at ho
    obtain ⟨hlk, hrk, hlo, hro⟩ := ho
    rw [heightsOk_node_iff] at hH
    obtain ⟨hh, hlH, hrH⟩ := hH
    rw [balanced_node_iff] at hB
    obtain ⟨hbf, hlB, hrB⟩ := hB
    have hlge := heightD_ge_neg_one hlH
    have hrge := heightD_ge_neg_one hrH
    have hfl : l.toList.filter (fun e => decide (e.1 ≠ k)) = l.toList :=
      List.filter_eq_self.2 (fun e he => by
        simp only [decide_eq_true_eq]
        have := hlk _ (key_mem_keys_avl he)
        omega)
    have hfr : r.toList.filter (fun e => decide (e.1 ≠ k)) = r.toList :=
      List.filter_eq_self.2 (fun e he => by
        simp only [decide_eq_true_eq]
        have := hrk _ (key_mem_keys_avl he)
        omega)
    by_cases he : key = k
    · subst he
      rcases l with _ | ⟨la, lb, lh, lk, lv⟩
      · have hstep : remove (node AT.nil r h key v) key = (some v, r) := by
          rw [remove.eq_def]
          simp
        rw [hstep]
        simp only [heightD_nil] at hh
        refine ⟨v, rfl, by simp, ?_, hro, hrH, hrB, ?_, ?_⟩
        · dsimp only
          rw [toList_node_avl, toList_nil_avl, List.nil_append, List.filter_cons]
          rw [if_neg (by simp)]
          exact hfr.symm
        · dsimp only
          simp only [heightD_node]
          omega
        · dsimp only
          simp only [heightD_node]
          omega
      · rcases r with _ | ⟨ra, rb, rh', rk, rv⟩
        · have hstep : remove (node (node la lb lh lk lv) AT.nil h key v)
              key = (some v, node la lb lh lk lv) := by
            rw [remove.eq_def]
            simp
          rw [hstep]
          simp only [heightD_nil] at hh
          refine ⟨v, rfl, by simp, ?_, hlo, hlH, hlB, ?_, ?_⟩
          · dsimp only
            conv_rhs => rw [toList_node_avl, toList_nil_avl]
            rw [List.filter_append, List.filter_cons]
            rw [if_neg (by simp)]
            rw [hfl]
            simp
          · dsimp only
            simp only [heightD_node, heightD_nil] at hh hbf hlge ⊢
            omega
          · dsimp only
            simp only [heightD_node, heightD_nil] at hh hbf hlge ⊢
            omega
        · set R := node ra rb rh' rk rv with hR
          have hRne : R ≠ AT.nil := by rw [hR]; intro hcon; cases hcon
          obtain ⟨hm1, hm2, hm3, hm4, hm5, hm6⟩ :=
            removeMin_spec hro hrH hrB hRne
          have hstep : remove (node (node la lb lh lk lv) R h key v) key
              = (some v, fixStep (node (node la lb lh lk lv) (removeMin R).2 h
                  (removeMin R).1.1 (removeMin R).1.2)) := by
            rw [remove.eq_def]
            rw [hR]
            simp
          set L := node la lb lh lk lv with hL
          set p := removeMin R with hp
          have hfs := fixStep_spec (l := L) (r := p.2) (h := h)
            (k := p.1.1) (v := p.1.2) hlH hm3 hlB hm4 (by omega)
          obtain ⟨hf1, hf2, hf3, hf4, hf5, hf6⟩ := hfs
          have hminmem : p.1 ∈ R.toList := by
            rw [hm1]
            simp
          have hminkey : key < p.1.1 := hrk _ (key_mem_keys_avl hminmem)
          have hp2keys : ∀ x ∈ p.2.keys, p.1.1 < x := by
            have hpr := ordered_iff_pairwise_avl.1 hro
            rw [AT.keys, hm1] at hpr
            rw [List.map_cons, List.pairwise_cons] at hpr
            intro x hx
            exact hpr.1 x hx
          have hLkeys : ∀ x ∈ L.keys, x < p.1.1 := by
            intro x hx
            exact lt_trans (hlk _ hx) hminkey
          have hord' : (node L p.2 h p.1.1 p.1.2).ordered = true := by
            rw [ordered_node_iff_avl]
            exact ⟨hLkeys, hp2keys, hlo, hm2⟩
          rw [hstep]
          dsimp only
          refine ⟨v, rfl, by simp,
            ?_, ordered_of_toList_eq (by rw [hf3]; simp) hord',
            hf1, hf2, ?_, ?_⟩
          · rw [hf3]
            have hRL : p.1 :: p.2.toList = R.toList := hm1.symm
            calc L.toList ++ (p.1.1, p.1.2) :: p.2.toList
                = L.toList ++ p.1 :: p.2.toList := by simp
              _ = L.toList ++ R.toList := by rw [hRL]
              _ = (L.toList ++ (key, v) :: R.toList).filter
                    (fun e => decide (e.1 ≠ key)) := by
                  rw [List.filter_append, List.filter_cons]
                  rw [if_neg (by simp)]
                  rw [hfl, hfr]
          · simp only [heightD_node]
            by_cases habs2 : (p.2.heightD - L.heightD).natAbs ≤ 1
            · have h8 := hf6 habs2
              omega
            · omega
          · simp only [heightD_node]
            by_cases habs2 : (p.2.heightD - L.heightD).natAbs ≤ 1
            · have h8 := hf6 habs2
              omega
            · omega
    · have hkl : key ∈ l.keys ∨ key ∈ r.keys := by
        rw [keys_node_avl] at hk
        rcases List.mem_append.1 hk with hx | hx
        · exact Or.inl hx
        · rcases List.mem_cons.1 hx with rfl | hx
          · exact absurd rfl he
          · exact Or.inr hx
      by_cases hlt : key < k
      · have hkl' : key ∈ l.keys := by
          rcases hkl with hx | hx
          · exact hx
          · exact absurd (hrk _ hx) (by omega)
        obtain ⟨v0, ih1, ih2, ih3, ih4, ih5, ih6, ih7, ih8⟩ :=
          ihl hlo hlH hlB hkl'
        have hstep : remove (node l r h k v) key
            = (some v0, fixStep (node (remove l key).2 r h k v)) := by
          rw [remove.eq_def]
          simp only [if_neg he, if_pos hlt]
          rw [ih1]
          simp
        have hfs := fixStep_spec (l := (remove l key).2) (r := r) (h := h)
          (k := k) (v := v) ih5 hrH ih6 hrB (by omega)
        obtain ⟨hf1, hf2, hf3, hf4, hf5, hf6⟩ := hfs
        have hl'keys : ∀ x ∈ (remove l key).2.keys, x < k := by
          intro x hx
          rw [AT.keys, ih3] at hx
          obtain ⟨e, hef, rfl⟩ := List.mem_map.1 hx
          exact hlk _ (key_mem_keys_avl (List.mem_of_mem_filter hef))
        have hord' : (node (remove l key).2 r h k v).ordered = true := by
          rw [ordered_node_iff_avl]
          exact ⟨hl'keys, hrk, ih4, hro⟩
        rw [hstep]
        dsimp only
        refine ⟨v0, rfl, by simp [ih2],
          ?_, ordered_of_toList_eq (by rw [hf3]; simp) hord',
          hf1, hf2, ?_, ?_⟩
        · rw [hf3, ih3]
          rw [toList_node_avl, List.filter_append, List.filter_cons]
          rw [if_pos (by simp; omega)]
          have hfr2 : r.toList.filter (fun e => decide (e.1 ≠ key)) = r.toList :=
            List.filter_eq_self.2 (fun e hemem => by
              simp only [decide_eq_true_eq]
              have := hrk _ (key_mem_keys_avl hemem)
              omega)
          rw [hfr2]
        · simp only [heightD_node]
          by_cases habs2 : (r.heightD - (remove l key).2.heightD).natAbs ≤ 1
          · have h8 := hf6 habs2
            omega
          · omega
        · simp only [heightD_node]
          by_cases habs2 : (r.heightD - (remove l key).2.heightD).natAbs ≤ 1
          · have h8 := hf6 habs2
            omega
          · omega
      · have hkr' : key ∈ r.keys := by
          rcases hkl with hx | hx
          · exact absurd (hlk _ hx) (by omega)
          · exact hx
        obtain ⟨v0, ih1, ih2, ih3, ih4, ih5, ih6, ih7, ih8⟩ :=
          ihr hro hrH hrB hkr'
        have hstep : remove (node l r h k v) key
            = (some v0, fixStep (node l (remove r key).2 h k v)) := by
          rw [remove.eq_def]
          simp only [if_neg he, if_neg hlt]
          rw [ih1]
          simp
        have hfs := fixStep_spec (l := l) (r := (remove r key).2) (h := h)
          (k := k) (v := v) hlH ih5 hlB ih6 (by omega)
        obtain ⟨hf1, hf2, hf3, hf4, hf5, hf6⟩ := hfs
        have hr'keys : ∀ x ∈ (remove r key).2.keys, k < x := by
          intro x hx
          rw [AT.keys, ih3] at hx
          obtain ⟨e, hef, rfl⟩ := List.mem_map.1 hx
          exact hrk _ (key_mem_keys_avl (List.mem_of_mem_filter hef))
        have hord' : (node l (remove r key).2 h k v).ordered = true := by
          rw [ordered_node_iff_avl]
          exact ⟨hlk, hr'keys, hlo, ih4⟩
        rw [hstep]
        dsimp only
        refine ⟨v0, rfl, by simp [ih2],
          ?_, ordered_of_toList_eq (by rw [hf3]; simp) hord',
          hf1, hf2, ?_, ?_⟩
        · rw [hf3, ih3]
          rw [toList_node_avl, List.filter_append, List.filter_cons]
          rw [if_pos (by simp; omega)]
          have hfl2 : l.toList.filter (fun e => decide (e.1 ≠ key)) = l.toList :=
            List.filter_eq_self.2 (fun e hemem => by
              simp only [decide_eq_true_eq]
              have := hlk _ (key_mem_keys_avl hemem)
              omega)
          rw [hfl2]
        · simp only [heightD_node]
          by_cases habs2 : ((remove r key).2.heightD - l.heightD).natAbs ≤ 1
          · have h8 := hf6 habs2
            omega
          · omega
        · simp only [heightD_node]
          by_cases habs2 : ((remove r key).2.heightD - l.heightD).natAbs ≤ 1
          · have h8 := hf6 habs2
            omega
          · omega

theorem insert_dup_avl {t : AT} {key value : Nat} (ho : t.ordered = true)
    (hk : key ∈ t.keys) : insert t key value = (false, t) := by
  induction t with
  | nil => simp at hk
  | node l r h k v ihl ihr =>
    rw [ordered_node_iff_avl] at ho
    obtain ⟨hlk, hrk, hlo, hro⟩ := ho
    by_cases he : key = k
    · rw [insert.eq_def]
      simp [he]
    · rw [keys_node_avl, List.mem_append, List.mem_cons] at hk
      by_cases hlt : key < k
      · have hkl : key ∈ l.keys := by
          rcases hk with hx | hx | hx
          · exact hx
          · exact absurd hx he
          · exact absurd (hrk _ hx) (by omega)
        rw [insert.eq_def]
        simp [he, hlt, ihl hlo hkl]
      · have hkr : key ∈ r.keys := by
          rcases hk with hx | hx | hx
          · exact absurd (hlk _ hx) (by omega)
          · exact absurd hx he
          · exact hx
        rw [insert.eq_def]
        simp [he, hlt, ihr hro hkr]

theorem get_found_avl {t : AT} {key v : Nat} (ho : t.ordered = true)
    (hm : (key, v) ∈ t.toList) : get t key = some v := by
  induction t with
  | nil => simp at hm
  | node l r h k v0 ihl ihr =>
    rw [ordered_node_iff_avl] at ho
    obtain ⟨hlk, hrk, hlo, hro⟩ := ho
    rw [toList_node_avl, List.mem_append, List.mem_cons] at hm
    by_cases he : key = k
    · subst he
      rcases hm with hx | hx | hx
      · exact absurd (hlk _ (key_mem_keys_avl hx)) (by omega)
      · injection hx with h1 h2
        subst h2
        rw [get.eq_def]
        simp
      · exact absurd (hrk _ (key_mem_keys_avl hx)) (by omega)
    · by_cases hlt : key < k
      · have hml : (key, v) ∈ l.toList := by
          rcases hm with hx | hx | hx
          · exact hx
          · injection hx with h1 h2
            exact absurd h1 he
          · exact absurd (hrk _ (key_mem_keys_avl hx)) (by omega)
        rcases l with _ | ⟨ll, lr, lh, lk, lv⟩
        · simp at hml
        · rw [get.eq_def]
          simp only [if_neg he, if_pos hlt]
          exact ihl hlo hml
      · have hmr : (key, v) ∈ r.toList := by
          rcases hm with hx | hx | hx
          · exact absurd (hlk _ (key_mem_keys_avl hx)) (by omega)
          · injection hx with h1 h2
            exact absurd h1 he
          · exact hx
        rcases r with _ | ⟨rl, rr, rh, rk, rv⟩
        · simp at hmr
        · rw [get.eq_def]
          simp only [if_neg he, if_neg hlt]
          exact ihr hro hmr

theorem get_miss_avl {t : AT} {key : Nat} (hk : key ∉ t.keys) :
    get t key = none := by
  induction t with
  | nil => rfl
  | node l r h k v ihl ihr =>
    have he : ¬ key = k := fun hcon => hk (by simp [hcon])
    have hknl : key ∉ l.keys := fun hc => hk (by simp [hc])
    have hknr : key ∉ r.keys := fun hc => hk (by simp [hc])
    by_cases hlt : key < k
    · rcases l with _ | ⟨ll, lr, lh, lk, lv⟩
      · rw [get.eq_def]
        simp [he, hlt]
      · rw [get.eq_def]
        simp only [if_neg he, if_pos hlt]
        exact ihl hknl
    · rcases r with _ | ⟨rl, rr, rh, rk, rv⟩
      · rw [get.eq_def]
        simp [he, hlt]
      · rw [get.eq_def]
        simp only [if_neg he, if_neg hlt]
        exact ihr hknr

theorem basicModify_pres (key val : Nat) : ∀ t : AT,
    (basicModify t key val).2.keys = t.keys
    ∧ (basicModify t key val).2.ordered = t.ordered
    ∧ (basicModify t key val).2.heightsOk = t.heightsOk
    ∧ (basicModify t key val).2.balanced = t.balanced
    ∧ (basicModify t key val).2.heightD = t.heightD := by
  intro t
  induction t with
  | nil => exact ⟨rfl, rfl, rfl, rfl, rfl⟩
  | node l r h k v ihl ihr =>
    by_cases he : key = k
    · rw [basicModify.eq_def]
      simp only [if_pos he]
      exact ⟨by simp, rfl, rfl, rfl, rfl⟩
    · by_cases hlt : key < k
      · rcases l with _ | ⟨ll, lr, lh, lk, lv⟩
        · rw [basicModify.eq_def]
          simp [he, hlt]
        · obtain ⟨ih1, ih2, ih3, ih4, ih5⟩ := ihl
          rw [basicModify.eq_def]
          simp only [if_neg he, if_pos hlt]
          refine ⟨?_, ?_, ?_, ?_, rfl⟩
          · rw [keys_node_avl, keys_node_avl, ih1]
          · simp only [ordered]
            rw [ih1, ih2]
            simp only [ordered]
          · simp only [heightsOk]
            rw [ih5, ih3]
            simp only [heightsOk]
          · simp only [balanced]
            rw [ih5, ih4]
            simp only [balanced]
      · rcases r with _ | ⟨rl, rr, rh, rk, rv⟩
        · rw [basicModify.eq_def]
          simp [he, hlt]
        · obtain ⟨ih1, ih2, ih3, ih4, ih5⟩ := ihr
          rw [basicModify.eq_def]
          simp only [if_neg he, if_neg hlt]
          refine ⟨?_, ?_, ?_, ?_, rfl⟩
          · rw [keys_node_avl, keys_node_avl, ih1]
          · simp only [ordered]
            rw [ih1, ih2]
            simp only [ordered]
          · simp only [heightsOk]
            rw [ih5, ih3]
            simp only [heightsOk]
          · simp only [balanced]
            rw [ih5, ih4]
            simp only [balanced]

/-- Every AVL tree reachable by the public mutating operations satisfies
BST order, correct stored heights, and the balance condition at every
node. -/
theorem areach_inv {t : AT} (h : AReach t) :
    t.ordered = true ∧ t.heightsOk = true ∧ t.balanced = true := by
  induction h with
  | empty => exact ⟨rfl, rfl, rfl⟩
  | insert t key value _ ih =>
    obtain ⟨ho, hH, hB⟩ := ih
    by_cases hk : key ∈ t.keys
    · rw [insert_dup_avl ho hk]
      exact ⟨ho, hH, hB⟩
    · obtain ⟨_, _, h3, h4, h5, _, _⟩ := insert_spec_avl ho hH hB hk
      exact ⟨h3, h4, h5⟩
  | remove t key _ ih =>
    obtain ⟨ho, hH, hB⟩ := ih
    by_cases hk : key ∈ t.keys
    · obtain ⟨v, _, _, _, h4, h5, h6, _, _⟩ := remove_found_avl ho hH hB hk
      exact ⟨h4, h5, h6⟩
    · rw [remove_miss_avl hk]
      exact ⟨ho, hH, hB⟩
  | modify t key value _ ih =>
    obtain ⟨ho, hH, hB⟩ := ih
    obtain ⟨_, h2, h3, h4, _⟩ := basicModify_pres key value t
    exact ⟨h2.trans ho, h3.trans hH, h4.trans hB⟩

end AVL

/-! ## Red-black tree lemmas -/

namespace RbT

@[simp] theorem toList_nil_rb : (nil).toList = [] := rfl

@[simp] theorem toList_node_rb (c : Color) (l r : RbT) (k v : Nat) :
    (node c l r k v).toList = l.toList ++ (k, v) :: r.toList := rfl

@[simp] theorem keys_nil_rb : (nil).keys = [] := rfl

@[simp] theorem keys_node_rb (c : Color) (l r : RbT) (k v : Nat) :
    (node c l r k v).keys = l.keys ++ k :: r.keys := by
  simp [keys, toList]

theorem key_mem_keys_rb {t : RbT} {e : Nat × Nat} (he : e ∈ t.toList) :
    e.1 ∈ t.keys :=
  List.mem_map_of_mem _ he

theorem ordered_node_iff_rb {c : Color} {l r : RbT} {k v : Nat} :
    (node c l r k v).ordered = true ↔
      (∀ x ∈ l.keys, x < k) ∧ (∀ x ∈ r.keys, k < x)
        ∧ l.ordered = true ∧ r.ordered = true := by
  simp [ordered, and_assoc]

theorem ordered_iff_pairwise_rb {t : RbT} :
    t.ordered = true ↔ t.keys.Pairwise (· < ·) := by
  induction t with
  | nil => simp [ordered]
  | node c l r k v ihl ihr =>
    rw [ordered_node_iff_rb, keys_node_rb]
    constructor
    · rintro ⟨hlk, hrk, hlo, hro⟩
      rw [List.pairwise_append]
      refine ⟨ihl.1 hlo, ?_, ?_⟩
      · rw [List.pairwise_cons]
        exact ⟨hrk, ihr.1 hro⟩
      · intro a ha b hb
        rcases List.mem_cons.1 hb with rfl | hb
        · exact hlk a ha
        · exact lt_trans (hlk a ha) (hrk b hb)
    · intro hp
      rw [List.pairwise_append] at hp
      obtain ⟨h1, h2, h3⟩ := hp
      rw [List.pairwise_cons] at h2
      refine ⟨?_, h2.1, ihl.2 h1, ihr.2 h2.2⟩
      intro a ha
      exact h3 a ha k (by simp)

theorem ordered_keys_nodup_rb {t : RbT} (h : t.ordered = true) : t.keys.Nodup :=
  (ordered_iff_pairwise_rb.1 h).imp (fun hab => Nat.ne_of_lt hab)

theorem ordered_of_toList_eq_rb {t t' : RbT} (h : t.toList = t'.toList)
    (ho : t.ordered = true) : t'.ordered = true := by
  rw [ordered_iff_pairwise_rb] at ho ⊢
  rw [RbT.keys, ← h]
  exact ho

theorem bhn_nil : (nil).bhn = some 1 := rfl

theorem bhn_node (c : Color) (l r : RbT) (k v : Nat) :
    (node c l r k v).bhn
      = match l.bhn, r.bhn with
        | some a, some b =>
          if a = b then some (a + (if c = Color.black then 1 else 0)) else none
        | _, _ => none := rfl

theorem nrr_node (c : Color) (l r : RbT) (k v : Nat) :
    (node c l r k v).nrr
      = ((if c = Color.red then l.rootBlackB && r.rootBlackB else true)
          && l.nrr && r.nrr) := rfl

theorem nrr_node_iff {c : Color} {l r : RbT} {k v : Nat} :
    (node c l r k v).nrr = true ↔
      (c = Color.red → l.rootBlackB = true ∧ r.rootBlackB = true)
        ∧ l.nrr = true ∧ r.nrr = true := by
  rw [nrr_node]
  by_cases hc : c = Color.red <;> simp [hc, and_assoc]

theorem bhn_node_black_iff {l r : RbT} {k v : Nat} {m : Nat} :
    (node Color.black l r k v).bhn = some (m + 1) ↔
      l.bhn = some m ∧ r.bhn = some m := by
  rw [bhn_node]
  rcases hl : l.bhn with _ | a
  · simp
  · rcases hr : r.bhn with _ | b
    · simp
    · dsimp only
      by_cases hab : a = b
      · subst hab
        simp
      · simp [if_neg hab]
        omega

theorem bhn_node_red_iff {l r : RbT} {k v : Nat} {m : Nat} :
    (node Color.red l r k v).bhn = some m ↔
      l.bhn = some m ∧ r.bhn = some m := by
  rw [bhn_node]
  rcases hl : l.bhn with _ | a
  · simp
  · rcases hr : r.bhn with _ | b
    · simp
    · dsimp only
      by_cases hab : a = b
      · subst hab
        simp
      · simp [if_neg hab]
        omega

theorem bhn_node_split {c : Color} {l r : RbT} {k v : Nat} {m : Nat} :
    (node c l r k v).bhn = some m ↔
      ∃ a, l.bhn = some a ∧ r.bhn = some a
        ∧ m = a + (if c = Color.black then 1 else 0) := by
  rw [bhn_node]
  constructor
  · intro h
    rcases hx : l.bhn with _ | a
    · rw [hx] at h
      dsimp only at h
      cases h
    · rcases hy : r.bhn with _ | b
      · rw [hx, hy] at h
        dsimp only at h
        cases h
      · rw [hx, hy] at h
        dsimp only at h
        by_cases hab : a = b
        · rw [if_pos hab] at h
          cases h
          exact ⟨a, rfl, congrArg some hab.symm, rfl⟩
        · rw [if_neg hab] at h
          cases h
  · rintro ⟨a, h1, h2, rfl⟩
    rw [h1, h2]
    dsimp only
    rw [if_pos rfl]

theorem bhn_pos {t : RbT} {m : Nat} (h : t.bhn = some m) : 1 ≤ m := by
  induction t generalizing m with
  | nil => cases h; omega
  | node c l r k v ihl ihr =>
    rw [bhn_node] at h
    rcases hl : l.bhn with _ | a
    · rw [hl] at h
      simp at h
    · rcases hr : r.bhn with _ | b
      · rw [hl, hr] at h
        simp at h
      · rw [hl, hr] at h
        dsimp only at h
        by_cases hab : a = b
        · rw [if_pos hab] at h
          have := ihl hl
          cases h
          omega
        · rw [if_neg hab] at h
          cases h

theorem red_of_not_rootBlack {t : RbT} (h : t.rootBlackB = false) :
    ∃ l r k v, t = node Color.red l r k v := by
  rcases t with _ | ⟨c, l, r, k, v⟩
  · cases h
  · cases c
    · exact ⟨l, r, k, v, rfl⟩
    · simp [rootBlackB] at h

theorem rootBlack_cases {t : RbT} (h : t.rootBlackB = true) :
    t = nil ∨ ∃ l r k v, t = node Color.black l r k v := by
  rcases t with _ | ⟨c, l, r, k, v⟩
  · exact Or.inl rfl
  · cases c
    · simp [rootBlackB] at h
    · exact Or.inr ⟨l, r, k, v, rfl⟩

@[simp] theorem toList_setBlack (t : RbT) : (setBlack t).toList = t.toList := by
  cases t <;> rfl

@[simp] theorem rootBlackB_setBlack (t : RbT) : (setBlack t).rootBlackB = true := by
  cases t <;> rfl

theorem nrr_setBlack {t : RbT} (h : t.nrr = true) : (setBlack t).nrr = true := by
  rcases t with _ | ⟨c, l, r, k, v⟩
  · rfl
  · rw [nrr_node_iff] at h
    rw [setBlack, nrr_node_iff]
    exact ⟨fun hc => Color.noConfusion hc, h.2⟩

theorem bhn_setBlack_of_red {t : RbT} {m : Nat} (hr : t.rootBlackB = false)
    (hb : t.bhn = some m) : (setBlack t).bhn = some (m + 1) := by
  obtain ⟨l, r, k, v, rfl⟩ := red_of_not_rootBlack hr
  obtain ⟨h1, h2⟩ := bhn_node_red_iff.1 hb
  rw [setBlack]
  exact bhn_node_black_iff.2 ⟨h1, h2⟩

theorem setRed_eq_self_of_bhn_one {t : RbT} (hb : t.bhn = some 1) :
    setRed t = t := by
  rcases t with _ | ⟨c, l, r, k, v⟩
  · rfl
  · cases c
    · rfl
    · obtain ⟨h1, _⟩ := (bhn_node_black_iff (m := 0)).1 hb
      exact absurd (bhn_pos h1) (by omega)

end RbT

/-! ## Red-black delete fixup lemmas -/

namespace RB

open RbT

theorem balLb_spec {pc : Color} {n c d : RbT} {sk sv pk pv : Nat} {m : Nat}
    (hn : n.nrr = true) (hc : c.nrr = true) (hd : d.nrr = true)
    (hbn : n.bhn = some m) (hbc : c.bhn = some m) (hbd : d.bhn = some m) :
    (balLb pc n c d sk sv pk pv).1.toList
        = n.toList ++ (pk, pv) :: c.toList ++ (sk, sv) :: d.toList
    ∧ (balLb pc n c d sk sv pk pv).1.nrr = true
    ∧ (pc = Color.black → (balLb pc n c d sk sv pk pv).1.rootBlackB = true)
    ∧ ((balLb pc n c d sk sv pk pv).2 = true →
        pc = Color.black ∧ (balLb pc n c d sk sv pk pv).1.bhn = some (m + 1))
    ∧ ((balLb pc n c d sk sv pk pv).2 = false →
        (balLb pc n c d sk sv pk pv).1.bhn
          = some (m + 1 + (if pc = Color.black then 1 else 0))) := by
  by_cases hcd : (c.rootBlackB && d.rootBlackB) = true
  · have hcd2 : c.rootBlackB = true ∧ d.rootBlackB = true := by
      rw [Bool.and_eq_true] at hcd
      exact hcd
    have hs' : (node Color.red c d sk sv).nrr = true :=
      nrr_node_iff.2 ⟨fun _ => hcd2, hc, hd⟩
    have hsb : (node Color.red c d sk sv).bhn = some m :=
      bhn_node_red_iff.2 ⟨hbc, hbd⟩
    cases pc
    · rw [balLb.eq_def, if_pos hcd]
      dsimp only
      refine ⟨by simp, ?_, ?_, ?_, ?_⟩
      · exact nrr_node_iff.2 ⟨fun hcon => Color.noConfusion hcon, hn, hs'⟩
      · intro hcon; cases hcon
      · intro hcon; cases hcon
      · intro _
        exact bhn_node_black_iff.2 ⟨hbn, hsb⟩
    · rw [balLb.eq_def, if_pos hcd]
      dsimp only
      refine ⟨by simp, ?_, fun _ => rfl, ?_, ?_⟩
      · exact nrr_node_iff.2 ⟨fun hcon => Color.noConfusion hcon, hn, hs'⟩
      · intro _
        exact ⟨rfl, bhn_node_black_iff.2 ⟨hbn, hsb⟩⟩
      · intro hcon; cases hcon
  · by_cases hcr : c.rootBlackB = false
    · obtain ⟨ca, cb, ck, cv, rfl⟩ := red_of_not_rootBlack hcr
      obtain ⟨hca, hcb⟩ := bhn_node_red_iff.1 hbc
      rw [nrr_node_iff] at hc
      obtain ⟨hcroots, hnca, hncb⟩ := hc
      obtain ⟨hcab, hcbb⟩ := hcroots rfl
      rw [balLb.eq_def, if_neg hcd, if_pos hcr]
      dsimp only
      have hleft : (node Color.black n ca pk pv).bhn = some (m + 1) :=
        bhn_node_black_iff.2 ⟨hbn, hca⟩
      have hright : (node Color.black cb d sk sv).bhn = some (m + 1) :=
        bhn_node_black_iff.2 ⟨hcb, hbd⟩
      have hlnrr : (node Color.black n ca pk pv).nrr = true :=
        nrr_node_iff.2 ⟨fun hcon => Color.noConfusion hcon, hn, hnca⟩
      have hrnrr : (node Color.black cb d sk sv).nrr = true :=
        nrr_node_iff.2 ⟨fun hcon => Color.noConfusion hcon, hncb, hd⟩
      refine ⟨by simp, ?_, ?_, ?_, ?_⟩
      · exact nrr_node_iff.2 ⟨fun _ => ⟨rfl, rfl⟩, hlnrr, hrnrr⟩
      · intro hpc
        subst hpc
        rfl
      · intro hcon; cases hcon
      · intro _
        cases pc
        · exact bhn_node_red_iff.2 ⟨hleft, hright⟩
        · exact bhn_node_black_iff.2 ⟨hleft, hright⟩
    · have hcb : c.rootBlackB = true := by
        cases hx : c.rootBlackB
        · exact absurd hx hcr
        · rfl
      have hdr : d.rootBlackB = false := by
        cases hx : d.rootBlackB
        · rfl
        · exact absurd (by rw [hcb, hx]; rfl) hcd
      rw [balLb.eq_def, if_neg hcd, if_neg (by rw [hcb]; intro hcon; cases hcon)]
      dsimp only
      have hleft : (node Color.black n c pk pv).bhn = some (m + 1) :=
        bhn_node_black_iff.2 ⟨hbn, hbc⟩
      have hlnrr : (node Color.black n c pk pv).nrr = true :=
        nrr_node_iff.2 ⟨fun hcon => Color.noConfusion hcon, hn, hc⟩
      have hdb : (setBlack d).bhn = some (m + 1) := bhn_setBlack_of_red hdr hbd
      refine ⟨by simp, ?_, ?_, ?_, ?_⟩
      · exact nrr_node_iff.2
          ⟨fun _ => ⟨rfl, rootBlackB_setBlack d⟩, hlnrr, nrr_setBlack hd⟩
      · intro hpc
        subst hpc
        rfl
      · intro hcon; cases hcon
      · intro _
        cases pc
        · exact bhn_node_red_iff.2 ⟨hleft, hdb⟩
        · exact bhn_node_black_iff.2 ⟨hleft, hdb⟩

theorem balL_spec {pc : Color} {n s : RbT} {pk pv : Nat} {m : Nat}
    (hn : n.nrr = true) (hs : s.nrr = true)
    (hbn : n.bhn = some m) (hbs : s.bhn = some (m + 1))
    (hps : pc = Color.red → s.rootBlackB = true) :
    (balL pc n s pk pv).1.toList = n.toList ++ (pk, pv) :: s.toList
    ∧ (balL pc n s pk pv).1.nrr = true
    ∧ (pc = Color.black → (balL pc n s pk pv).1.rootBlackB = true)
    ∧ ((balL pc n s pk pv).2 = true →
        pc = Color.black ∧ (balL pc n s pk pv).1.bhn = some (m + 1))
    ∧ ((balL pc n s pk pv).2 = false →
        (balL pc n s pk pv).1.bhn
          = some (m + 1 + (if pc = Color.black then 1 else 0))) := by
  have hm1 := bhn_pos hbn
  rcases s with _ | ⟨sc, c, d, sk, sv⟩
  · rw [bhn_nil] at hbs
    cases hbs
    omega
  · cases sc
    · have hpc : pc = Color.black := by
        cases pc
        · exact absurd (hps rfl) (by simp [rootBlackB])
        · rfl
      subst hpc
      obtain ⟨hbc, hbd⟩ := bhn_node_red_iff.1 hbs
      rw [nrr_node_iff] at hs
      obtain ⟨hroots, hnc, hnd⟩ := hs
      obtain ⟨hcb, hdb⟩ := hroots rfl
      rcases rootBlack_cases hcb with rfl | ⟨cc, cd, ck, cv, rfl⟩
      · rw [bhn_nil] at hbc
        cases hbc
        omega
      · obtain ⟨hbcc, hbcd⟩ := bhn_node_black_iff.1 hbc
        rw [nrr_node_iff] at hnc
        obtain ⟨_, hncc, hncd⟩ := hnc
        have hq := @balLb_spec Color.red _ _ _ ck cv pk pv _
          hn hncc hncd hbn hbcc hbcd
        obtain ⟨hq1, hq2, _, hq4, hq5⟩ := hq
        have hqf : (balLb Color.red n cc cd ck cv pk pv).2 = false := by
          cases hx : (balLb Color.red n cc cd ck cv pk pv).2
          · rfl
          · exact absurd (hq4 hx).1 (by intro hcon; cases hcon)
        have hqb := hq5 hqf
        have hbal : balL Color.black n
            (node Color.red (node Color.black cc cd ck cv) d sk sv) pk pv
            = (node Color.black (balLb Color.red n cc cd ck cv pk pv).1 d sk sv,
                (balLb Color.red n cc cd ck cv pk pv).2) := rfl
        rw [hbal]
        dsimp only
        rw [hqf]
        refine ⟨?_, ?_, fun _ => rfl, ?_, ?_⟩
        · simp only [toList_node_rb]
          rw [hq1]
          simp
        · exact nrr_node_iff.2 ⟨fun hcon => Color.noConfusion hcon, hq2, hnd⟩
        · intro hcon; cases hcon
        · intro _
          exact bhn_node_black_iff.2 ⟨hqb, hbd⟩
    · obtain ⟨hbc, hbd⟩ := bhn_node_black_iff.1 hbs
      rw [nrr_node_iff] at hs
      obtain ⟨_, hnc, hnd⟩ := hs
      have hq := @balLb_spec pc _ _ _ sk sv pk pv _ hn hnc hnd hbn hbc hbd
      have hbal : balL pc n (node Color.black c d sk sv) pk pv
          = balLb pc n c d sk sv pk pv := rfl
      rw [hbal]
      refine ⟨?_, hq.2.1, hq.2.2.1, hq.2.2.2.1, hq.2.2.2.2⟩
      rw [hq.1]
      simp

theorem balRb_spec {pc : Color} {d c n : RbT} {sk sv pk pv : Nat} {m : Nat}
    (hn : n.nrr = true) (hc : c.nrr = true) (hd : d.nrr = true)
    (hbn : n.bhn = some m) (hbc : c.bhn = some m) (hbd : d.bhn = some m) :
    (balRb pc d c n sk sv pk pv).1.toList
        = d.toList ++ (sk, sv) :: c.toList ++ (pk, pv) :: n.toList
    ∧ (balRb pc d c n sk sv pk pv).1.nrr = true
    ∧ (pc = Color.black → (balRb pc d c n sk sv pk pv).1.rootBlackB = true)
    ∧ ((balRb pc d c n sk sv pk pv).2 = true →
        pc = Color.black ∧ (balRb pc d c n sk sv pk pv).1.bhn = some (m + 1))
    ∧ ((balRb pc d c n sk sv pk pv).2 = false →
        (balRb pc d c n sk sv pk pv).1.bhn
          = some (m + 1 + (if pc = Color.black then 1 else 0))) := by
  by_cases hcd : (c.rootBlackB && d.rootBlackB) = true
  · have hcd2 : c.rootBlackB = true ∧ d.rootBlackB = true := by
      rw [Bool.and_eq_true] at hcd
      exact hcd
    have hs' : (node Color.red d c sk sv).nrr = true :=
      nrr_node_iff.2 ⟨fun _ => ⟨hcd2.2, hcd2.1⟩, hd, hc⟩
    have hsb : (node Color.red d c sk sv).bhn = some m :=
      bhn_node_red_iff.2 ⟨hbd, hbc⟩
    cases pc
    · rw [balRb.eq_def, if_pos hcd]
      dsimp only
      refine ⟨by simp, ?_, ?_, ?_, ?_⟩
      · exact nrr_node_iff.2 ⟨fun hcon => Color.noConfusion hcon, hs', hn⟩
      · intro hcon; cases hcon
      · intro hcon; cases hcon
      · intro _
        exact bhn_node_black_iff.2 ⟨hsb, hbn⟩
    · rw [balRb.eq_def, if_pos hcd]
      dsimp only
      refine ⟨by simp, ?_, fun _ => rfl, ?_, ?_⟩
      · exact nrr_node_iff.2 ⟨fun hcon => Color.noConfusion hcon, hs', hn⟩
      · intro _
        exact ⟨rfl, bhn_node_black_iff.2 ⟨hsb, hbn⟩⟩
      · intro hcon; cases hcon
  · by_cases hcr : c.rootBlackB = false
    · obtain ⟨ca, cb, ck, cv, rfl⟩ := red_of_not_rootBlack hcr
      obtain ⟨hca, hcb⟩ := bhn_node_red_iff.1 hbc
      rw [nrr_node_iff] at hc
      obtain ⟨hcroots, hnca, hncb⟩ := hc
      obtain ⟨hcab, hcbb⟩ := hcroots rfl
      rw [balRb.eq_def, if_neg hcd, if_pos hcr]
      dsimp only
      have hleft : (node Color.black d ca sk sv).bhn = some (m + 1) :=
        bhn_node_black_iff.2 ⟨hbd, hca⟩
      have hright : (node Color.black cb n pk pv).bhn = some (m + 1) :=
        bhn_node_black_iff.2 ⟨hcb, hbn⟩
      have hlnrr : (node Color.black d ca sk sv).nrr = true :=
        nrr_node_iff.2 ⟨fun hcon => Color.noConfusion hcon, hd, hnca⟩
      have hrnrr : (node Color.black cb n pk pv).nrr = true :=
        nrr_node_iff.2 ⟨fun hcon => Color.noConfusion hcon, hncb, hn⟩
      refine ⟨by simp, ?_, ?_, ?_, ?_⟩
      · exact nrr_node_iff.2 ⟨fun _ => ⟨rfl, rfl⟩, hlnrr, hrnrr⟩
      · intro hpc
        subst hpc
        rfl
      · intro hcon; cases hcon
      · intro _
        cases pc
        · exact bhn_node_red_iff.2 ⟨hleft, hright⟩
        · exact bhn_node_black_iff.2 ⟨hleft, hright⟩
    · have hcb : c.rootBlackB = true := by
        cases hx : c.rootBlackB
        · exact absurd hx hcr
        · rfl
      have hdr : d.rootBlackB = false := by
        cases hx : d.rootBlackB
        · rfl
        · exact absurd (by rw [hcb, hx]; rfl) hcd
      rw [balRb.eq_def, if_neg hcd, if_neg (by rw [hcb]; intro hcon; cases hcon)]
      dsimp only
      have hright : (node Color.black c n pk pv).bhn = some (m + 1) :=
        bhn_node_black_iff.2 ⟨hbc, hbn⟩
      have hrnrr : (node Color.black c n pk pv).nrr = true :=
        nrr_node_iff.2 ⟨fun hcon => Color.noConfusion hcon, hc, hn⟩
      have hdb : (setBlack d).bhn = some (m + 1) := bhn_setBlack_of_red hdr hbd
      refine ⟨by simp, ?_, ?_, ?_, ?_⟩
      · exact nrr_node_iff.2
          ⟨fun _ => ⟨rootBlackB_setBlack d, rfl⟩, nrr_setBlack hd, hrnrr⟩
      · intro hpc
        subst hpc
        rfl
      · intro hcon; cases hcon
      · intro _
        cases pc
        · exact bhn_node_red_iff.2 ⟨hdb, hright⟩
        · exact bhn_node_black_iff.2 ⟨hdb, hright⟩

theorem balR_spec {pc : Color} {s n : RbT} {pk pv : Nat} {m : Nat}
    (hn : n.nrr = true) (hs : s.nrr = true)
    (hbn : n.bhn = some m) (hbs : s.bhn = some (m + 1))
    (hps : pc = Color.red → s.rootBlackB = true) :
    (balR pc s n pk pv).1.toList = s.toList ++ (pk, pv) :: n.toList
    ∧ (balR pc s n pk pv).1.nrr = true
    ∧ (pc = Color.black → (balR pc s n pk pv).1.rootBlackB = true)
    ∧ ((balR pc s n pk pv).2 = true →
        pc = Color.black ∧ (balR pc s n pk pv).1.bhn = some (m + 1))
    ∧ ((balR pc s n pk pv).2 = false →
        (balR pc s n pk pv).1.bhn
          = some (m + 1 + (if pc = Color.black then 1 else 0))) := by
  have hm1 := bhn_pos hbn
  rcases s with _ | ⟨sc, d, c, sk, sv⟩
  · rw [bhn_nil] at hbs
    cases hbs
    omega
  · cases sc
    · have hpc : pc = Color.black := by
        cases pc
        · exact absurd (hps rfl) (by simp [rootBlackB])
        · rfl
      subst hpc
      obtain ⟨hbd, hbc⟩ := bhn_node_red_iff.1 hbs
      rw [nrr_node_iff] at hs
      obtain ⟨hroots, hnd, hnc⟩ := hs
      obtain ⟨hdb, hcb⟩ := hroots rfl
      rcases rootBlack_cases hcb with rfl | ⟨cc, cd, ck, cv, rfl⟩
      · rw [bhn_nil] at hbc
        cases hbc
        omega
      · obtain ⟨hbcc, hbcd⟩ := bhn_node_black_iff.1 hbc
        rw [nrr_node_iff] at hnc
        obtain ⟨_, hncc, hncd⟩ := hnc
        have hq := @balRb_spec Color.red _ _ _ ck cv pk pv _
          hn hncd hncc hbn hbcd hbcc
        obtain ⟨hq1, hq2, _, hq4, hq5⟩ := hq
        have hqf : (balRb Color.red cc cd n ck cv pk pv).2 = false := by
          cases hx : (balRb Color.red cc cd n ck cv pk pv).2
          · rfl
          · exact absurd (hq4 hx).1 (by intro hcon; cases hcon)
        have hqb := hq5 hqf
        have hbal : balR Color.black
            (node Color.red d (node Color.black cc cd ck cv) sk sv) n pk pv
            = (node Color.black d (balRb Color.red cc cd n ck cv pk pv).1 sk sv,
                (balRb Color.red cc cd n ck cv pk pv).2) := rfl
        rw [hbal]
        dsimp only
        rw [hqf]
        refine ⟨?_, ?_, fun _ => rfl, ?_, ?_⟩
        · simp only [toList_node_rb]
          rw [hq1]
          simp
        · exact nrr_node_iff.2 ⟨fun hcon => Color.noConfusion hcon, hnd, hq2⟩
        · intro hcon; cases hcon
        · intro _
          exact bhn_node_black_iff.2 ⟨hbd, hqb⟩
    · obtain ⟨hbd, hbc⟩ := bhn_node_black_iff.1 hbs
      rw [nrr_node_iff] at hs
      obtain ⟨_, hnd, hnc⟩ := hs
      have hq := @balRb_spec pc _ _ _ sk sv pk pv _ hn hnc hnd hbn hbc hbd
      have hbal : balR pc (node Color.black d c sk sv) n pk pv
          = balRb pc d c n sk sv pk pv := rfl
      rw [hbal]
      refine ⟨?_, hq.2.1, hq.2.2.1, hq.2.2.2.1, hq.2.2.2.2⟩
      rw [hq.1]
      simp

theorem delMin_spec {t : RbT} {m : Nat} (hne : t ≠ nil)
    (hn : t.nrr = true) (hb : t.bhn = some m) :
    t.toList = (delMin t).1 :: (delMin t).2.1.toList
    ∧ (delMin t).2.1.nrr = true
    ∧ (t.rootBlackB = true → (delMin t).2.1.rootBlackB = true)
    ∧ ((delMin t).2.2.2 = true →
        (delMin t).2.1 = nil ∧ (delMin t).2.2.1 = false ∧ m = 1)
    ∧ ((delMin t).2.2.1 = true →
        (delMin t).2.1.bhn = some (m - 1) ∧ (delMin t).2.1.rootBlackB = true
          ∧ t.rootBlackB = true)
    ∧ ((delMin t).2.2.1 = false ∧ (delMin t).2.2.2 = false →
        (delMin t).2.1.bhn = some m) := by
  induction t generalizing m with
  | nil => exact absurd rfl hne
  | node c l r k v ihl ihr =>
    rcases l with _ | ⟨lc, ll, lr, lk, lv⟩
    · rcases r with _ | ⟨rc, rl, rr, rk, rv⟩
      · cases c
        · have hstep : delMin (node Color.red nil nil k v)
              = ((k, v), nil, false, true) := rfl
          rw [hstep]
          have hm : m = 1 := by
            have hx : (node Color.red nil nil k v).bhn = some 1 := rfl
            rw [hx] at hb
            cases hb
            rfl
          refine ⟨by simp, rfl, fun h => rfl, fun _ => ⟨rfl, rfl, hm⟩, ?_, ?_⟩
          · intro hcon; cases hcon
          · intro _
            rw [bhn_nil, hm]
        · have hstep : delMin (node Color.black nil nil k v)
              = ((k, v), nil, true, false) := rfl
          rw [hstep]
          have hm : m = 2 := by
            have hx : (node Color.black nil nil k v).bhn = some 2 := rfl
            rw [hx] at hb
            cases hb
            rfl
          refine ⟨by simp, rfl, fun _ => rfl, ?_, ?_, ?_⟩
          · intro hcon; cases hcon
          · intro _
            refine ⟨?_, rfl, rfl⟩
            rw [bhn_nil, hm]
          · rintro ⟨hcon, _⟩; cases hcon
      · set R := node rc rl rr rk rv with hR
        obtain ⟨a, h1, h2, hm⟩ := bhn_node_split.1 hb
        rw [bhn_nil] at h1
        have ha : a = 1 := by cases h1; rfl
        subst ha
        have hRred : R.rootBlackB = false := by
          rcases hx : R.rootBlackB
          · rfl
          · rcases rootBlack_cases hx with hcon | ⟨x, y, k2, v2, hcon⟩
            · rw [hR] at hcon; cases hcon
            · rw [hcon] at h2
              obtain ⟨x2, hx2, _, hx4⟩ := bhn_node_split.1 h2
              simp at hx4
              exact absurd (bhn_pos hx2) (by omega)
        have hcblack : c = Color.black := by
          cases c
          · rw [nrr_node_iff] at hn
            obtain ⟨hroots, _⟩ := hn
            obtain ⟨_, hx2⟩ := hroots rfl
            rw [hx2] at hRred
            cases hRred
          · rfl
        subst hcblack
        simp only [if_pos rfl] at hm
        have hstep : delMin (node Color.black nil R k v)
            = ((k, v), setBlack R, false, false) := by
          rw [hR]
          rw [delMin.eq_def]
          dsimp only
          rw [if_pos (Or.inr hRred)]
        rw [hstep]
        rw [nrr_node_iff] at hn
        obtain ⟨_, _, hnR⟩ := hn
        refine ⟨by simp, nrr_setBlack hnR, fun _ => rootBlackB_setBlack R,
          ?_, ?_, ?_⟩
        · intro hcon; cases hcon
        · intro hcon; cases hcon
        · intro _
          have := bhn_setBlack_of_red hRred h2
          rw [this, hm]
          simp
    · set L := node lc ll lr lk lv with hL
      have hLne : L ≠ nil := by rw [hL]; intro hcon; cases hcon
      rw [nrr_node_iff] at hn
      obtain ⟨hroots, hnL, hnR⟩ := hn
      obtain ⟨a, hbL, hbr, hm⟩ := bhn_node_split.1 hb
      have ha1 := bhn_pos hbL
      obtain ⟨ih1, ih2, ih3, ih4, ih5, ih6⟩ := ihl hLne hnL hbL
      have hstep : delMin (node c L r k v)
          = (fun q => if q.2.2.2 then (q.1, node c q.2.1 (setRed r) k v, false, false)
              else if q.2.2.1 then
                (q.1, (balL c q.2.1 r k v).1, (balL c q.2.1 r k v).2, false)
              else (q.1, node c q.2.1 r k v, false, false)) (delMin L) := by
        rw [hL]
        rfl
      rcases hrl : (delMin L).2.2.2
      · rcases hdf : (delMin L).2.2.1
        · have hstep2 : delMin (node c L r k v)
              = ((delMin L).1, node c (delMin L).2.1 r k v, false, false) := by
            rw [hstep]
            simp only [hrl, hdf]
            simp
          rw [hstep2]
          have hq := ih6 ⟨hdf, hrl⟩
          refine ⟨?_, ?_, fun hc => hc, ?_, ?_, ?_⟩
          · rw [toList_node_rb, ih1]
            simp
          · refine nrr_node_iff.2 ⟨?_, ih2, hnR⟩
            intro hc
            obtain ⟨hx1, hx2⟩ := hroots hc
            exact ⟨ih3 hx1, hx2⟩
          · intro hcon; cases hcon
          · intro hcon; cases hcon
          · intro _
            rw [hm]
            exact bhn_node_split.2 ⟨a, hq, hbr, rfl⟩
        · have hstep2 : delMin (node c L r k v)
              = ((delMin L).1, (balL c (delMin L).2.1 r k v).1,
                  (balL c (delMin L).2.1 r k v).2, false) := by
            rw [hstep]
            simp only [hrl, hdf]
            simp
          rw [hstep2]
          obtain ⟨ihb, ihroot, ihLb⟩ := ih5 hdf
          have hps : c = Color.red → r.rootBlackB = true :=
            fun hc => (hroots hc).2
          have hbal := @balL_spec c _ _ k v _
            ih2 hnR ihb (by rw [hbr]; congr 1; omega) hps
          obtain ⟨hb1, hb2, hb3, hb4, hb5⟩ := hbal
          refine ⟨?_, hb2, fun hc => hb3 (of_decide_eq_true hc), ?_, ?_, ?_⟩
          · rw [toList_node_rb, ih1, hb1]
            simp
          · intro hcon; cases hcon
          · intro hflag
            obtain ⟨hpcb, hbb⟩ := hb4 hflag
            refine ⟨?_, hb3 hpcb, by rw [hpcb]; rfl⟩
            rw [hbb, hm, hpcb]
            simp
            congr 1
            omega
          · rintro ⟨hflag, _⟩
            have hbb := hb5 hflag
            rw [hbb, hm]
            congr 2
            omega
      · have hstep2 : delMin (node c L r k v)
            = ((delMin L).1, node c (delMin L).2.1 (setRed r) k v, false, false) := by
          rw [hstep]
          simp only [hrl]
          simp
        rw [hstep2]
        obtain ⟨ihq, ihdf, iha⟩ := ih4 hrl
        have hsr : setRed r = r := by
          apply setRed_eq_self_of_bhn_one
          rw [hbr, iha]
        rw [hsr, ihq]
        refine ⟨?_, ?_, fun hc => hc, ?_, ?_, ?_⟩
        · rw [toList_node_rb, ih1, ihq]
          simp
        · refine nrr_node_iff.2 ⟨?_, rfl, hnR⟩
          intro hc
          exact ⟨rfl, (hroots hc).2⟩
        · intro hcon; cases hcon
        · intro hcon; cases hcon
        · intro _
          rw [hm]
          exact bhn_node_split.2 ⟨a, by rw [bhn_nil, iha], hbr, rfl⟩
theorem del_miss {t : RbT} {key : Nat} (hk : key ∉ t.keys) :
    del t key = (none, t, false, false) := by
  induction t with
  | nil => rfl
  | node c l r k v ihl ihr =>
    have hne : ¬ key = k := by
      intro hcon
      exact hk (by simp [hcon])
    have hknl : key ∉ l.keys := fun hc => hk (by simp [hc])
    have hknr : key ∉ r.keys := fun hc => hk (by simp [hc])
    by_cases hlt : key < k
    · rw [del.eq_def]
      simp only [if_neg hne, if_pos hlt]
      rw [ihl hknl]
      simp
    · rw [del.eq_def]
      simp only [if_neg hne, if_neg hlt]
      rw [ihr hknr]
      simp

theorem remove_miss_rb {t : RbT} {key : Nat} (hk : key ∉ t.keys) :
    remove t key = (none, t) := by
  rw [remove, del_miss hk]

theorem get_found_rb {t : RbT} {key v : Nat} (ho : t.ordered = true)
    (hm : (key, v) ∈ t.toList) : get t key = some v := by
  induction t with
  | nil => simp at hm
  | node c l r k v0 ihl ihr =>
    rw [ordered_node_iff_rb] at ho
    obtain ⟨hlk, hrk, hlo, hro⟩ := ho
    rw [toList_node_rb, List.mem_append, List.mem_cons] at hm
    by_cases he : key = k
    · subst he
      rcases hm with hx | hx | hx
      · exact absurd (hlk _ (key_mem_keys_rb hx)) (by omega)
      · injection hx with h1 h2
        subst h2
        rw [get.eq_def]
        simp
      · exact absurd (hrk _ (key_mem_keys_rb hx)) (by omega)
    · by_cases hlt : key < k
      · have hml : (key, v) ∈ l.toList := by
          rcases hm with hx | hx | hx
          · exact hx
          · injection hx with h1 h2
            exact absurd h1 he
          · exact absurd (hrk _ (key_mem_keys_rb hx)) (by omega)
        rcases l with _ | ⟨lc, ll, lr, lk, lv⟩
        · simp at hml
        · rw [get.eq_def]
          simp only [if_neg he, if_pos hlt]
          exact ihl hlo hml
      · have hmr : (key, v) ∈ r.toList := by
          rcases hm with hx | hx | hx
          · exact absurd (hlk _ (key_mem_keys_rb hx)) (by omega)
          · injection hx with h1 h2
            exact absurd h1 he
          · exact hx
        rcases r with _ | ⟨rc, rl, rr, rk, rv⟩
        · simp at hmr
        · rw [get.eq_def]
          simp only [if_neg he, if_neg hlt]
          exact ihr hro hmr

theorem get_miss_rb {t : RbT} {key : Nat} (hk : key ∉ t.keys) :
    get t key = none := by
  induction t with
  | nil => rfl
  | node c l r k v ihl ihr =>
    have he : ¬ key = k := fun hcon => hk (by simp [hcon])
    have hknl : key ∉ l.keys := fun hc => hk (by simp [hc])
    have hknr : key ∉ r.keys := fun hc => hk (by simp [hc])
    by_cases hlt : key < k
    · rcases l with _ | ⟨lc, ll, lr, lk, lv⟩
      · rw [get.eq_def]
        simp [he, hlt]
      · rw [get.eq_def]
        simp only [if_neg he, if_pos hlt]
        exact ihl hknl
    · rcases r with _ | ⟨rc, rl, rr, rk, rv⟩
      · rw [get.eq_def]
        simp [he, hlt]
      · rw [get.eq_def]
        simp only [if_neg he, if_neg hlt]
        exact ihr hknr

theorem basicModify_pres_rb (key val : Nat) : ∀ t : RbT,
    (basicModify t key val).2.keys = t.keys
    ∧ (basicModify t key val).2.ordered = t.ordered
    ∧ (basicModify t key val).2.nrr = t.nrr
    ∧ (basicModify t key val).2.bhn = t.bhn
    ∧ (basicModify t key val).2.rootBlackB = t.rootBlackB := by
  intro t
  induction t with
  | nil => exact ⟨rfl, rfl, rfl, rfl, rfl⟩
  | node c l r k v ihl ihr =>
    by_cases he : key = k
    · rw [basicModify.eq_def]
      simp only [if_pos he]
      exact ⟨by simp, rfl, rfl, rfl, rfl⟩
    · by_cases hlt : key < k
      · rcases l with _ | ⟨lc, ll, lr, lk, lv⟩
        · rw [basicModify.eq_def]
          simp [he, hlt]
        · obtain ⟨ih1, ih2, ih3, ih4, ih5⟩ := ihl
          rw [basicModify.eq_def]
          simp only [if_neg he, if_pos hlt]
          refine ⟨?_, ?_, ?_, ?_, rfl⟩
          · rw [keys_node_rb, keys_node_rb, ih1]
          · simp only [ordered]
            rw [ih1, ih2]
            simp only [ordered]
          · simp only [nrr]
            rw [ih3, ih5]
            simp only [nrr]
          · simp only [bhn]
            rw [ih4]
            simp only [bhn]
      · rcases r with _ | ⟨rc, rl, rr, rk, rv⟩
        · rw [basicModify.eq_def]
          simp [he, hlt]
        · obtain ⟨ih1, ih2, ih3, ih4, ih5⟩ := ihr
          rw [basicModify.eq_def]
          simp only [if_neg he, if_neg hlt]
          refine ⟨?_, ?_, ?_, ?_, rfl⟩
          · rw [keys_node_rb, keys_node_rb, ih1]
          · simp only [ordered]
            rw [ih1, ih2]
            simp only [ordered]
          · simp only [nrr]
            rw [ih3, ih5]
            simp only [nrr]
          · simp only [bhn]
            rw [ih4]
            simp only [bhn]

theorem del_found {t : RbT} {key : Nat} {m : Nat}
    (ho : t.ordered = true) (hn : t.nrr = true) (hb : t.bhn = some m)
    (hk : key ∈ t.keys) :
    ∃ v, (del t key).1 = some v ∧ (key, v) ∈ t.toList
    ∧ (del t key).2.1.toList = t.toList.filter (fun e => decide (e.1 ≠ key))
    ∧ (del t key).2.1.nrr = true
    ∧ (t.rootBlackB = true → (del t key).2.1.rootBlackB = true)
    ∧ ((del t key).2.2.1 = true →
        (del t key).2.1.bhn = some (m - 1) ∧ (del t key).2.1.rootBlackB = true
          ∧ t.rootBlackB = true)
    ∧ ((del t key).2.2.2 = true →
        (del t key).2.1 = nil ∧ (del t key).2.2.1 = false ∧ m = 1)
    ∧ ((del t key).2.2.1 = false ∧ (del t key).2.2.2 = false →
        (del t key).2.1.bhn = some m) := by
  induction t generalizing m with
  | nil => simp at hk
  | node c l r k v ihl ihr =>
    rw [ordered_node_iff_rb] at ho
    obtain ⟨hlk, hrk, hlo, hro⟩ := ho
    rw [nrr_node_iff] at hn
    obtain ⟨hroots, hnl, hnr⟩ := hn
    obtain ⟨a, hbl, hbr, hm⟩ := bhn_node_split.1 hb
    have ha1 := bhn_pos hbl
    have hfl : l.toList.filter (fun e => decide (e.1 ≠ k)) = l.toList :=
      List.filter_eq_self.2 (fun e he => by
        simp only [decide_eq_true_eq]
        have := hlk _ (key_mem_keys_rb he)
        omega)
    have hfr : r.toList.filter (fun e => decide (e.1 ≠ k)) = r.toList :=
      List.filter_eq_self.2 (fun e he => by
        simp only [decide_eq_true_eq]
        have := hrk _ (key_mem_keys_rb he)
        omega)
    by_cases he : key = k
    · subst he
      rcases r with _ | ⟨rc, rl, rr, rk, rv⟩
      · rcases l with _ | ⟨lc, ll, lr, lk, lv⟩
        · cases c
          · have hstep : del (node Color.red nil nil key v) key
                = (some v, nil, false, true) := by
              rw [del.eq_def]
              simp
            rw [hstep]
            have hm1 : m = 1 := by
              rw [bhn_nil] at hbl
              cases hbl
              simp at hm
              exact hm
            refine ⟨v, rfl, by simp, by simp, rfl, fun _ => rfl, ?_,
              fun _ => ⟨rfl, rfl, hm1⟩, ?_⟩
            · intro hcon; cases hcon
            · rintro ⟨_, hcon⟩; cases hcon
          · have hstep : del (node Color.black nil nil key v) key
                = (some v, nil, true, false) := by
              rw [del.eq_def]
              simp
            rw [hstep]
            have hm2 : m = 2 := by
              rw [bhn_nil] at hbl
              cases hbl
              simp at hm
              omega
            refine ⟨v, rfl, by simp, by simp, rfl, fun _ => rfl, ?_, ?_, ?_⟩
            · intro _
              refine ⟨?_, rfl, rfl⟩
              rw [bhn_nil, hm2]
            · intro hcon; cases hcon
            · rintro ⟨hcon, _⟩; cases hcon
        · set L := node lc ll lr lk lv with hL
          rw [bhn_nil] at hbr
          have ha : a = 1 := by cases hbr; rfl
          subst ha
          have hLred : L.rootBlackB = false := by
            rcases hx : L.rootBlackB
            · rfl
            · rcases rootBlack_cases hx with hcon | ⟨x, y, k2, v2, hcon⟩
              · rw [hL] at hcon; cases hcon
              · rw [hcon] at hbl
                obtain ⟨x2, hx2, _, hx4⟩ := bhn_node_split.1 hbl
                simp at hx4
                exact absurd (bhn_pos hx2) (by omega)
          have hcblack : c = Color.black := by
            cases c
            · obtain ⟨hx2, _⟩ := hroots rfl
              rw [hx2] at hLred
              cases hLred
            · rfl
          subst hcblack
          simp at hm
          have hstep : del (node Color.black L nil key v) key
              = (some v, setBlack L, false, false) := by
            rw [hL]
            rw [del.eq_def]
            dsimp only
            rw [if_pos rfl]
            rw [if_pos (Or.inr hLred)]
          rw [hstep]
          refine ⟨v, rfl, by simp, ?_, nrr_setBlack hnl,
            fun _ => rootBlackB_setBlack L, ?_, ?_, ?_⟩
          · rw [toList_setBlack]
            conv_rhs => rw [toList_node_rb, toList_nil_rb]
            rw [List.filter_append, List.filter_cons]
            rw [if_neg (by simp)]
            rw [hfl]
            simp
          · intro hcon; cases hcon
          · intro hcon; cases hcon
          · intro _
            have := bhn_setBlack_of_red hLred hbl
            rw [this, hm]
      · set R := node rc rl rr rk rv with hR
        have hRne : R ≠ nil := by rw [hR]; intro hcon; cases hcon
        obtain ⟨dm1, dm2, dm3, dm4, dm5, dm6⟩ := delMin_spec hRne hnr hbr
        have hminmem : (delMin R).1 ∈ R.toList := by
          rw [dm1]
          simp
        have hminkey : key < (delMin R).1.1 := hrk _ (key_mem_keys_rb hminmem)
        have hstep : del (node c l R key v) key
            = (fun q => if q.2.2.2 then
                  (some v, node c (setRed l) q.2.1 q.1.1 q.1.2, false, false)
                else if q.2.2.1 then
                  (some v, (balR c l q.2.1 q.1.1 q.1.2).1,
                    (balR c l q.2.1 q.1.1 q.1.2).2, false)
                else (some v, node c l q.2.1 q.1.1 q.1.2, false, false))
              (delMin R) := by
          rw [hR]
          rw [del.eq_def]
          simp
        have hfilter : (l.toList ++ (key, v) :: R.toList).filter
            (fun e => decide (e.1 ≠ key)) = l.toList ++ R.toList := by
          rw [List.filter_append, List.filter_cons]
          rw [if_neg (by simp)]
          rw [hfl, hfr]
        rcases hrlf : (delMin R).2.2.2
        · rcases hdf : (delMin R).2.2.1
          · have hstep2 : del (node c l R key v) key
                = (some v, node c l (delMin R).2.1 (delMin R).1.1 (delMin R).1.2,
                    false, false) := by
              rw [hstep]
              simp only [hrlf, hdf]
              simp
            rw [hstep2]
            have hq := dm6 ⟨hdf, hrlf⟩
            refine ⟨v, rfl, by simp, ?_, ?_, fun hc => hc, ?_, ?_, ?_⟩
            · have hrhs : (node c l R key v).toList.filter
                  (fun e => decide (e.1 ≠ key)) = l.toList ++ R.toList := by
                rw [show (node c l R key v).toList
                  = l.toList ++ (key, v) :: R.toList from rfl]
                exact hfilter
              rw [hrhs, toList_node_rb, dm1]
            · refine nrr_node_iff.2 ⟨?_, hnl, dm2⟩
              intro hc
              obtain ⟨hx1, hx2⟩ := hroots hc
              exact ⟨hx1, dm3 hx2⟩
            · intro hcon; cases hcon
            · intro hcon; cases hcon
            · intro _
              rw [hm]
              exact bhn_node_split.2 ⟨a, hbl, hq, rfl⟩
          · have hstep2 : del (node c l R key v) key
                = (some v, (balR c l (delMin R).2.1 (delMin R).1.1 (delMin R).1.2).1,
                    (balR c l (delMin R).2.1 (delMin R).1.1 (delMin R).1.2).2,
                    false) := by
              rw [hstep]
              simp only [hrlf, hdf]
              simp
            rw [hstep2]
            obtain ⟨dmb, dmroot, dmRb⟩ := dm5 hdf
            have hps : c = Color.red → l.rootBlackB = true :=
              fun hc => (hroots hc).1
            have hbal := @balR_spec c _ _ (delMin R).1.1 (delMin R).1.2 _
              dm2 hnl dmb
              (by rw [hbl]; congr 1; omega) hps
            obtain ⟨hb1, hb2, hb3, hb4, hb5⟩ := hbal
            refine ⟨v, rfl, by simp, ?_, hb2,
              fun hc => hb3 (of_decide_eq_true hc), ?_, ?_, ?_⟩
            · have hrhs : (node c l R key v).toList.filter
                  (fun e => decide (e.1 ≠ key)) = l.toList ++ R.toList := by
                rw [show (node c l R key v).toList
                  = l.toList ++ (key, v) :: R.toList from rfl]
                exact hfilter
              rw [hrhs, hb1, dm1]
            · intro hflag
              obtain ⟨hpcb, hbb⟩ := hb4 hflag
              refine ⟨?_, hb3 hpcb, by rw [hpcb]; rfl⟩
              rw [hbb, hm, hpcb]
              have hx9 : a + (if Color.black = Color.black then 1 else 0)
                  = a + 1 := by simp
              rw [hx9]
              congr 1
              omega
            · intro hcon; cases hcon
            · rintro ⟨hflag, _⟩
              have hbb := hb5 hflag
              rw [hbb, hm]
              congr 2
              omega
        · have hstep2 : del (node c l R key v) key
              = (some v, node c (setRed l) (delMin R).2.1
                  (delMin R).1.1 (delMin R).1.2, false, false) := by
            rw [hstep]
            simp only [hrlf]
            simp
          rw [hstep2]
          obtain ⟨dmq, dmdf, dma⟩ := dm4 hrlf
          have hsl : setRed l = l := by
            apply setRed_eq_self_of_bhn_one
            rw [hbl, dma]
          rw [hsl, dmq]
          refine ⟨v, rfl, by simp, ?_, ?_, fun hc => hc, ?_, ?_, ?_⟩
          · have hrhs : (node c l R key v).toList.filter
                (fun e => decide (e.1 ≠ key)) = l.toList ++ R.toList := by
              rw [show (node c l R key v).toList
                = l.toList ++ (key, v) :: R.toList from rfl]
              exact hfilter
            rw [hrhs, toList_node_rb, dm1, dmq]
          · refine nrr_node_iff.2 ⟨?_, hnl, rfl⟩
            intro hc
            exact ⟨(hroots hc).1, rfl⟩
          · intro hcon; cases hcon
          · intro hcon; cases hcon
          · intro _
            rw [hm, dma]
            exact bhn_node_split.2 ⟨1, by rw [hbl, dma], bhn_nil, rfl⟩
    · have hkl : key ∈ l.keys ∨ key ∈ r.keys := by
        rw [keys_node_rb] at hk
        rcases List.mem_append.1 hk with hx | hx
        · exact Or.inl hx
        · rcases List.mem_cons.1 hx with rfl | hx
          · exact absurd rfl he
          · exact Or.inr hx
      by_cases hlt : key < k
      · have hkl' : key ∈ l.keys := by
          rcases hkl with hx | hx
          · exact hx
          · exact absurd (hrk _ hx) (by omega)
        obtain ⟨v0, ih1, ih2, ih3, ih4, ih5, ih6, ih7, ih8⟩ :=
          ihl hlo hnl hbl hkl'
        have hfr2 : r.toList.filter (fun e => decide (e.1 ≠ key)) = r.toList :=
          List.filter_eq_self.2 (fun e hemem => by
            simp only [decide_eq_true_eq]
            have := hrk _ (key_mem_keys_rb hemem)
            omega)
        have hstep : del (node c l r k v) key
            = (fun q => if q.2.2.2 then (q.1, node c q.2.1 (setRed r) k v, false, false)
                else if q.2.2.1 then
                  (q.1, (balL c q.2.1 r k v).1, (balL c q.2.1 r k v).2, false)
                else (q.1, node c q.2.1 r k v, false, false)) (del l key) := by
          rw [del.eq_def]
          simp only [if_neg he, if_pos hlt]
        have hfilter : (l.toList ++ (k, v) :: r.toList).filter
              (fun e => decide (e.1 ≠ key))
            = l.toList.filter (fun e => decide (e.1 ≠ key)) ++ (k, v) :: r.toList := by
          rw [List.filter_append, List.filter_cons]
          rw [if_pos (by simp; omega)]
          rw [hfr2]
        rcases hrlf : (del l key).2.2.2
        · rcases hdf : (del l key).2.2.1
          · have hstep2 : del (node c l r k v) key
                = ((del l key).1, node c (del l key).2.1 r k v, false, false) := by
              rw [hstep]
              simp only [hrlf, hdf]
              simp
            rw [hstep2]
            have hq := ih8 ⟨hdf, hrlf⟩
            refine ⟨v0, ih1, by simp [ih2], ?_, ?_, fun hc => hc, ?_, ?_, ?_⟩
            · dsimp only
              rw [toList_node_rb, ih3]
              rw [show (node c l r k v).toList = l.toList ++ (k, v) :: r.toList
                from rfl, hfilter]
            · refine nrr_node_iff.2 ⟨?_, ih4, hnr⟩
              intro hc
              obtain ⟨hx1, hx2⟩ := hroots hc
              exact ⟨ih5 hx1, hx2⟩
            · intro hcon; cases hcon
            · intro hcon; cases hcon
            · intro _
              rw [hm]
              exact bhn_node_split.2 ⟨a, hq, hbr, rfl⟩
          · have hstep2 : del (node c l r k v) key
                = ((del l key).1, (balL c (del l key).2.1 r k v).1,
                    (balL c (del l key).2.1 r k v).2, false) := by
              rw [hstep]
              simp only [hrlf, hdf]
              simp
            rw [hstep2]
            obtain ⟨ihb, ihroot, ihLb⟩ := ih6 hdf
            have hps : c = Color.red → r.rootBlackB = true :=
              fun hc => (hroots hc).2
            have hbal := @balL_spec c _ _ k v _
              ih4 hnr ihb (by rw [hbr]; congr 1; omega) hps
            obtain ⟨hb1, hb2, hb3, hb4, hb5⟩ := hbal
            refine ⟨v0, ih1, by simp [ih2], ?_, hb2,
              fun hc => hb3 (of_decide_eq_true hc), ?_, ?_, ?_⟩
            · dsimp only
              rw [hb1, ih3]
              rw [show (node c l r k v).toList = l.toList ++ (k, v) :: r.toList
                from rfl, hfilter]
            · intro hflag
              obtain ⟨hpcb, hbb⟩ := hb4 hflag
              refine ⟨?_, hb3 hpcb, by rw [hpcb]; rfl⟩
              rw [hbb, hm, hpcb]
              have hx9 : a + (if Color.black = Color.black then 1 else 0)
                  = a + 1 := by simp
              rw [hx9]
              congr 1
              omega
            · intro hcon; cases hcon
            · rintro ⟨hflag, _⟩
              have hbb := hb5 hflag
              rw [hbb, hm]
              congr 2
              omega
        · have hstep2 : del (node c l r k v) key
              = ((del l key).1, node c (del l key).2.1 (setRed r) k v,
                  false, false) := by
            rw [hstep]
            simp only [hrlf]
            simp
          rw [hstep2]
          obtain ⟨ihq, ihdf, iha⟩ := ih7 hrlf
          have hsr : setRed r = r := by
            apply setRed_eq_self_of_bhn_one
            rw [hbr, iha]
          rw [hsr, ihq]
          refine ⟨v0, ih1, by simp [ih2], ?_, ?_, fun hc => hc, ?_, ?_, ?_⟩
          · dsimp only
            rw [toList_node_rb]
            rw [show (node c l r k v).toList = l.toList ++ (k, v) :: r.toList
              from rfl, hfilter]
            rw [← ih3, ihq]
          · refine nrr_node_iff.2 ⟨?_, rfl, hnr⟩
            intro hc
            exact ⟨rfl, (hroots hc).2⟩
          · intro hcon; cases hcon
          · intro hcon; cases hcon
          · intro _
            rw [hm]
            exact bhn_node_split.2 ⟨a, by rw [bhn_nil, iha], hbr, rfl⟩
      · have hkr' : key ∈ r.keys := by
          rcases hkl with hx | hx
          · exact absurd (hlk _ hx) (by omega)
          · exact hx
        obtain ⟨v0, ih1, ih2, ih3, ih4, ih5, ih6, ih7, ih8⟩ :=
          ihr hro hnr hbr hkr'
        have hfl2 : l.toList.filter (fun e => decide (e.1 ≠ key)) = l.toList :=
          List.filter_eq_self.2 (fun e hemem => by
            simp only [decide_eq_true_eq]
            have := hlk _ (key_mem_keys_rb hemem)
            omega)
        have hstep : del (node c l r k v) key
            = (fun q => if q.2.2.2 then (q.1, node c (setRed l) q.2.1 k v, false, false)
                else if q.2.2.1 then
                  (q.1, (balR c l q.2.1 k v).1, (balR c l q.2.1 k v).2, false)
                else (q.1, node c l q.2.1 k v, false, false)) (del r key) := by
          rw [del.eq_def]
          simp only [if_neg he, if_neg hlt]
        have hfilter : (l.toList ++ (k, v) :: r.toList).filter
              (fun e => decide (e.1 ≠ key))
            = l.toList ++ (k, v) :: r.toList.filter (fun e => decide (e.1 ≠ key)) := by
          rw [List.filter_append, List.filter_cons]
          rw [if_pos (by simp; omega)]
          rw [hfl2]
        rcases hrlf : (del r key).2.2.2
        · rcases hdf : (del r key).2.2.1
          · have hstep2 : del (node c l r k v) key
                = ((del r key).1, node c l (del r key).2.1 k v, false, false) := by
              rw [hstep]
              simp only [hrlf, hdf]
              simp
            rw [hstep2]
            have hq := ih8 ⟨hdf, hrlf⟩
            refine ⟨v0, ih1, by simp [ih2], ?_, ?_, fun hc => hc, ?_, ?_, ?_⟩
            · dsimp only
              rw [toList_node_rb, ih3]
              rw [show (node c l r k v).toList = l.toList ++ (k, v) :: r.toList
                from rfl, hfilter]
            · refine nrr_node_iff.2 ⟨?_, hnl, ih4⟩
              intro hc
              obtain ⟨hx1, hx2⟩ := hroots hc
              exact ⟨hx1, ih5 hx2⟩
            · intro hcon; cases hcon
            · intro hcon; cases hcon
            · intro _
              rw [hm]
              exact bhn_node_split.2 ⟨a, hbl, hq, rfl⟩
          · have hstep2 : del (node c l r k v) key
                = ((del r key).1, (balR c l (del r key).2.1 k v).1,
                    (balR c l (del r key).2.1 k v).2, false) := by
              rw [hstep]
              simp only [hrlf, hdf]
              simp
            rw [hstep2]
            obtain ⟨ihb, ihroot, ihRb⟩ := ih6 hdf
            have hps : c = Color.red → l.rootBlackB = true :=
              fun hc => (hroots hc).1
            have hbal := @balR_spec c _ _ k v _
              ih4 hnl ihb (by rw [hbl]; congr 1; omega) hps
            obtain ⟨hb1, hb2, hb3, hb4, hb5⟩ := hbal
            refine ⟨v0, ih1, by simp [ih2], ?_, hb2,
              fun hc => hb3 (of_decide_eq_true hc), ?_, ?_, ?_⟩
            · dsimp only
              rw [hb1, ih3]
              rw [show (node c l r k v).toList = l.toList ++ (k, v) :: r.toList
                from rfl, hfilter]
            · intro hflag
              obtain ⟨hpcb, hbb⟩ := hb4 hflag
              refine ⟨?_, hb3 hpcb, by rw [hpcb]; rfl⟩
              rw [hbb, hm, hpcb]
              have hx9 : a + (if Color.black = Color.black then 1 else 0)
                  = a + 1 := by simp
              rw [hx9]
              congr 1
              omega
            · intro hcon; cases hcon
            · rintro ⟨hflag, _⟩
              have hbb := hb5 hflag
              rw [hbb, hm]
              congr 2
              omega
        · have hstep2 : del (node c l r k v) key
              = ((del r key).1, node c (setRed l) (del r key).2.1 k v,
                  false, false) := by
            rw [hstep]
            simp only [hrlf]
            simp
          rw [hstep2]
          obtain ⟨ihq, ihdf, iha⟩ := ih7 hrlf
          have hsl : setRed l = l := by
            apply setRed_eq_self_of_bhn_one
            rw [hbl, iha]
          rw [hsl, ihq]
          refine ⟨v0, ih1, by simp [ih2], ?_, ?_, fun hc => hc, ?_, ?_, ?_⟩
          · dsimp only
            rw [toList_node_rb]
            rw [show (node c l r k v).toList = l.toList ++ (k, v) :: r.toList
              from rfl, hfilter]
            rw [← ih3, ihq]
          · refine nrr_node_iff.2 ⟨?_, hnl, rfl⟩
            intro hc
            exact ⟨(hroots hc).1, rfl⟩
          · intro hcon; cases hcon
          · intro hcon; cases hcon
          · intro _
            rw [hm]
            exact bhn_node_split.2 ⟨a, hbl, by rw [bhn_nil, iha], rfl⟩

theorem insFixL_toList (t : RbT) : (insFixL t).toList = t.toList := by
  rw [insFixL.eq_def]
  split
  · split <;> simp
  · split <;> simp
  · rfl

theorem insFixR_toList (t : RbT) : (insFixR t).toList = t.toList := by
  rw [insFixR.eq_def]
  split
  · split <;> simp
  · split <;> simp
  · rfl

theorem insFixL_noop {p u : RbT} {gc : Color} {gk gv : Nat} (hp : p.nrr = true) :
    insFixL (node gc p u gk gv) = node gc p u gk gv := by
  rcases p with _ | ⟨pc, a, b, pk, pv⟩
  · rfl
  · cases pc
    · rw [nrr_node_iff] at hp
      obtain ⟨hroots, _, _⟩ := hp
      obtain ⟨ha, hb⟩ := hroots rfl
      rcases rootBlack_cases ha with rfl | ⟨aa, ab, ak, av, rfl⟩ <;>
        rcases rootBlack_cases hb with rfl | ⟨ba, bb, bk, bv, rfl⟩ <;> rfl
    · rfl

theorem insFixR_noop {p u : RbT} {gc : Color} {gk gv : Nat} (hp : p.nrr = true) :
    insFixR (node gc u p gk gv) = node gc u p gk gv := by
  rcases p with _ | ⟨pc, a, b, pk, pv⟩
  · rfl
  · cases pc
    · rw [nrr_node_iff] at hp
      obtain ⟨hroots, _, _⟩ := hp
      obtain ⟨ha, hb⟩ := hroots rfl
      rcases rootBlack_cases ha with rfl | ⟨aa, ab, ak, av, rfl⟩ <;>
        rcases rootBlack_cases hb with rfl | ⟨ba, bb, bk, bv, rfl⟩ <;> rfl
    · rfl

theorem insFixL_fire1 {aa ab b2 u : RbT} {gc : Color} {ak av k2 v2 gk gv : Nat}
    (hb : b2.rootBlackB = true) :
    insFixL (node gc (node Color.red (node Color.red aa ab ak av) b2 k2 v2) u gk gv)
      = if u.rootBlackB then
          node Color.black (node Color.red aa ab ak av)
            (node Color.red b2 u gk gv) k2 v2
        else
          node Color.red (node Color.black (node Color.red aa ab ak av) b2 k2 v2)
            (setBlack u) gk gv := by
  rcases rootBlack_cases hb with rfl | ⟨ba, bb, bk, bv, rfl⟩ <;> rfl

theorem insFixR_fire1 {ba bb a2 u : RbT} {gc : Color} {bk bv k2 v2 gk gv : Nat}
    (ha : a2.rootBlackB = true) :
    insFixR (node gc u (node Color.red a2 (node Color.red ba bb bk bv) k2 v2) gk gv)
      = if u.rootBlackB then
          node Color.black (node Color.red u a2 gk gv)
            (node Color.red ba bb bk bv) k2 v2
        else
          node Color.red (setBlack u)
            (node Color.black a2 (node Color.red ba bb bk bv) k2 v2) gk gv := by
  rcases rootBlack_cases ha with rfl | ⟨xa, xb, xk, xv, rfl⟩ <;> rfl

theorem insFixL_fire2 {a ba bb u : RbT} {gc : Color} {k2 v2 bk bv gk gv : Nat}
    (ha : a.rootBlackB = true) :
    insFixL (node gc (node Color.red a (node Color.red ba bb bk bv) k2 v2) u gk gv)
      = if u.rootBlackB then
          node Color.black (node Color.red a ba k2 v2)
            (node Color.red bb u gk gv) bk bv
        else
          node Color.red (node Color.black a (node Color.red ba bb bk bv) k2 v2)
            (setBlack u) gk gv := by
  rcases rootBlack_cases ha with rfl | ⟨aa, ab, ak, av, rfl⟩ <;> rfl

theorem insFixR_fire2 {a ba bb u : RbT} {gc : Color} {k2 v2 bk bv gk gv : Nat}
    (ha : a.rootBlackB = true) :
    insFixR (node gc u (node Color.red (node Color.red ba bb bk bv) a k2 v2) gk gv)
      = if u.rootBlackB then
          node Color.black (node Color.red u ba gk gv)
            (node Color.red bb a k2 v2) bk bv
        else
          node Color.red (setBlack u)
            (node Color.black (node Color.red ba bb bk bv) a k2 v2) gk gv := by
  rcases rootBlack_cases ha with rfl | ⟨aa, ab, ak, av, rfl⟩ <;> rfl

theorem ins_spec {t : RbT} {key value : Nat} {m : Nat}
    (ho : t.ordered = true) (hn : t.nrr = true) (hb : t.bhn = some m)
    (hk : key ∉ t.keys) :
    (ins t key value).1 = true
    ∧ (ins t key value).2.toList
        = t.toList.filter (fun e => decide (e.1 < key))
          ++ (key, value) :: t.toList.filter (fun e => decide (key < e.1))
    ∧ (ins t key value).2.ordered = true
    ∧ (ins t key value).2.bhn = some m
    ∧ (t.rootBlackB = true → (ins t key value).2.nrr = true)
    ∧ (t.rootBlackB = false →
        ∃ a2 b2 k2 v2, (ins t key value).2 = node Color.red a2 b2 k2 v2
          ∧ a2.nrr = true ∧ b2.nrr = true
          ∧ (a2.rootBlackB = true ∨ b2.rootBlackB = true)) := by
  induction t generalizing m with
  | nil =>
    have hm : m = 1 := by
      rw [bhn_nil] at hb
      cases hb
      rfl
    refine ⟨rfl, rfl, by simp [ins, ordered, RbT.keys], ?_, fun _ => rfl, ?_⟩
    · rw [hm]
      rfl
    · intro hcon
      cases hcon
  | node c l r k v ihl ihr =>
    rw [ordered_node_iff_rb] at ho
    obtain ⟨hlk, hrk, hlo, hro⟩ := ho
    rw [nrr_node_iff] at hn
    obtain ⟨hroots, hnl, hnr⟩ := hn
    obtain ⟨al, hbl2, hbr2, hm⟩ := bhn_node_split.1 hb
    have hne : key ≠ k := by
      intro hcon
      exact hk (by simp [hcon])
    have hknl : key ∉ l.keys := fun hc => hk (by simp [hc])
    have hknr : key ∉ r.keys := fun hc => hk (by simp [hc])
    by_cases hlt : key < k
    · obtain ⟨ih1, ih2, ih3, ih4, ih5, ih6⟩ := ihl hlo hnl hbl2 hknl
      have hstep : ins (node c l r k v) key value
          = (true, insFixL (node c (ins l key value).2 r k v)) := by
        rw [ins.eq_def]
        simp only [if_neg hne, if_pos hlt]
        rw [ih1]
        simp
      have hX : (node c (ins l key value).2 r k v).toList
          = (ins l key value).2.toList ++ (k, v) :: r.toList := rfl
      have hl'keys : ∀ x ∈ (ins l key value).2.keys, x < k := by
        intro x hx
        rw [RbT.keys, ih2] at hx
        simp only [List.map_append, List.map_cons, List.mem_append,
          List.mem_cons] at hx
        rcases hx with hx | rfl | hx
        · obtain ⟨e, hee, rfl⟩ := List.mem_map.1 hx
          exact hlk _ (key_mem_keys_rb (List.mem_of_mem_filter hee))
        · exact hlt
        · obtain ⟨e, hee, rfl⟩ := List.mem_map.1 hx
          exact hlk _ (key_mem_keys_rb (List.mem_of_mem_filter hee))
      have hordl' : (node c (ins l key value).2 r k v).ordered = true := by
        rw [ordered_node_iff_rb]
        exact ⟨hl'keys, hrk, ih3, hro⟩
      have hres_ord : (insFixL (node c (ins l key value).2 r k v)).ordered = true :=
        ordered_of_toList_eq_rb
          (insFixL_toList (node c (ins l key value).2 r k v)).symm hordl'
      have htlist : (insFixL (node c (ins l key value).2 r k v)).toList
          = (node c l r k v).toList.filter (fun e => decide (e.1 < key))
            ++ (key, value) :: (node c l r k v).toList.filter
                (fun e => decide (key < e.1)) := by
        rw [insFixL_toList, hX, ih2, toList_node_rb]
        rw [List.filter_append, List.filter_append, List.filter_cons,
          List.filter_cons]
        simp only [decide_eq_true_eq, hlt, Nat.not_lt.2 (Nat.le_of_lt hlt),
          if_true, if_false]
        have h1 : r.toList.filter (fun e => decide (e.1 < key)) = [] := by
          apply List.filter_eq_nil_iff.2
          intro e hee
          simp only [decide_eq_true_eq]
          have := hrk _ (key_mem_keys_rb hee)
          omega
        have h2 : r.toList.filter (fun e => decide (key < e.1)) = r.toList := by
          apply List.filter_eq_self.2
          intro e hee
          simp only [decide_eq_true_eq]
          have := hrk _ (key_mem_keys_rb hee)
          omega
        rw [h1, h2]
        simp
      have hmain : (insFixL (node c (ins l key value).2 r k v)).bhn = some m
          ∧ (c = Color.black →
              (insFixL (node c (ins l key value).2 r k v)).nrr = true)
          ∧ (c = Color.red →
              ∃ a2 b2 k2 v2, insFixL (node c (ins l key value).2 r k v)
                  = node Color.red a2 b2 k2 v2
                ∧ a2.nrr = true ∧ b2.nrr = true
                ∧ (a2.rootBlackB = true ∨ b2.rootBlackB = true)) := by
        by_cases hlb : l.rootBlackB = true
        · have hC := ih5 hlb
          rw [insFixL_noop hC]
          refine ⟨bhn_node_split.2 ⟨al, ih4, hbr2, hm⟩, ?_, ?_⟩
          · intro hc
            subst hc
            exact nrr_node_iff.2 ⟨fun hcon => Color.noConfusion hcon, hC, hnr⟩
          · intro hc
            subst hc
            exact ⟨(ins l key value).2, r, k, v, rfl, hC, hnr,
              Or.inr (hroots rfl).2⟩
        · have hlb' : l.rootBlackB = false := by
            cases hx : l.rootBlackB
            · rfl
            · exact absurd hx hlb
          have hcb : c = Color.black := by
            cases c
            · exact absurd (hroots rfl).1 hlb
            · rfl
          subst hcb
          obtain ⟨a2, b2, k2, v2, hsh, hna, hnb, hdisj⟩ := ih6 hlb'
          obtain ⟨hba2, hbb2⟩ := bhn_node_red_iff.1 (hsh ▸ ih4)
          rw [hsh]
          have hmal : m = al + 1 := by
            rw [hm]
            simp
          by_cases ha2 : a2.rootBlackB = true
          · by_cases hb2 : b2.rootBlackB = true
            · have hCn : (node Color.red a2 b2 k2 v2).nrr = true :=
                nrr_node_iff.2 ⟨fun _ => ⟨ha2, hb2⟩, hna, hnb⟩
              rw [insFixL_noop hCn]
              refine ⟨?_, ?_, ?_⟩
              · exact bhn_node_split.2
                  ⟨al, bhn_node_red_iff.2 ⟨hba2, hbb2⟩, hbr2, by rw [hmal]; simp⟩
              · intro _
                exact nrr_node_iff.2 ⟨fun hcon => Color.noConfusion hcon, hCn, hnr⟩
              · intro hcon
                cases hcon
            · have hb2' : b2.rootBlackB = false := by
                cases hx : b2.rootBlackB
                · rfl
                · exact absurd hx hb2
              obtain ⟨ba, bb, bk, bv, rfl⟩ := red_of_not_rootBlack hb2'
              obtain ⟨hbba, hbbb⟩ := bhn_node_red_iff.1 hbb2
              rw [nrr_node_iff] at hnb
              obtain ⟨hbroots, hnba, hnbb⟩ := hnb
              obtain ⟨hbab, hbbb2⟩ := hbroots rfl
              rw [insFixL_fire2 ha2]
              by_cases hub : r.rootBlackB = true
              · rw [if_pos hub]
                refine ⟨?_, ?_, ?_⟩
                · rw [hmal]
                  refine bhn_node_black_iff.2 ⟨?_, ?_⟩
                  · exact bhn_node_red_iff.2 ⟨hba2, hbba⟩
                  · exact bhn_node_red_iff.2 ⟨hbbb, hbr2⟩
                · intro _
                  refine nrr_node_iff.2 ⟨fun hcon => Color.noConfusion hcon, ?_, ?_⟩
                  · exact nrr_node_iff.2 ⟨fun _ => ⟨ha2, hbab⟩, hna, hnba⟩
                  · exact nrr_node_iff.2 ⟨fun _ => ⟨hbbb2, hub⟩, hnbb, hnr⟩
                · intro hcon
                  cases hcon
              · have hub' : r.rootBlackB = false := by
                  cases hx : r.rootBlackB
                  · rfl
                  · exact absurd hx hub
                rw [if_neg (by rw [hub']; intro hcon; cases hcon)]
                refine ⟨?_, ?_, ?_⟩
                · rw [hmal]
                  refine bhn_node_red_iff.2 ⟨?_, ?_⟩
                  · exact bhn_node_black_iff.2
                      ⟨hba2, bhn_node_red_iff.2 ⟨hbba, hbbb⟩⟩
                  · exact bhn_setBlack_of_red hub' hbr2
                · intro _
                  refine nrr_node_iff.2
                    ⟨fun _ => ⟨rfl, rootBlackB_setBlack r⟩, ?_, nrr_setBlack hnr⟩
                  refine nrr_node_iff.2 ⟨fun hcon => Color.noConfusion hcon, hna, ?_⟩
                  exact nrr_node_iff.2 ⟨fun _ => ⟨hbab, hbbb2⟩, hnba, hnbb⟩
                · intro hcon
                  cases hcon
          · have ha2' : a2.rootBlackB = false := by
              cases hx : a2.rootBlackB
              · rfl
              · exact absurd hx ha2
            have hb2 : b2.rootBlackB = true := by
              rcases hdisj with hx | hx
              · exact absurd hx ha2
              · exact hx
            obtain ⟨aa, ab, ak, av, rfl⟩ := red_of_not_rootBlack ha2'
            obtain ⟨hbaa, hbab⟩ := bhn_node_red_iff.1 hba2
            rw [nrr_node_iff] at hna
            obtain ⟨haroots, hnaa, hnab⟩ := hna
            obtain ⟨haab, habb⟩ := haroots rfl
            rw [insFixL_fire1 hb2]
            by_cases hub : r.rootBlackB = true
            · rw [if_pos hub]
              refine ⟨?_, ?_, ?_⟩
              · rw [hmal]
                refine bhn_node_black_iff.2 ⟨?_, ?_⟩
                · exact bhn_node_red_iff.2 ⟨hbaa, hbab⟩
                · exact bhn_node_red_iff.2 ⟨hbb2, hbr2⟩
              · intro _
                refine nrr_node_iff.2 ⟨fun hcon => Color.noConfusion hcon, ?_, ?_⟩
                · exact nrr_node_iff.2 ⟨fun _ => ⟨haab, habb⟩, hnaa, hnab⟩
                · exact nrr_node_iff.2 ⟨fun _ => ⟨hb2, hub⟩, hnb, hnr⟩
              · intro hcon
                cases hcon
            · have hub' : r.rootBlackB = false := by
                cases hx : r.rootBlackB
                · rfl
                · exact absurd hx hub
              rw [if_neg (by rw [hub']; intro hcon; cases hcon)]
              refine ⟨?_, ?_, ?_⟩
              · rw [hmal]
                refine bhn_node_red_iff.2 ⟨?_, ?_⟩
                · exact bhn_node_black_iff.2
                    ⟨bhn_node_red_iff.2 ⟨hbaa, hbab⟩, hbb2⟩
                · exact bhn_setBlack_of_red hub' hbr2
              · intro _
                refine nrr_node_iff.2
                  ⟨fun _ => ⟨rfl, rootBlackB_setBlack r⟩, ?_, nrr_setBlack hnr⟩
                refine nrr_node_iff.2 ⟨fun hcon => Color.noConfusion hcon, ?_, hnb⟩
                exact nrr_node_iff.2 ⟨fun _ => ⟨haab, habb⟩, hnaa, hnab⟩
              · intro hcon
                cases hcon
      rw [hstep]
      dsimp only
      refine ⟨rfl, htlist, hres_ord, hmain.1, ?_, ?_⟩
      · intro hx
        exact hmain.2.1 (of_decide_eq_true hx)
      · intro hx
        have hc : c = Color.red := by
          cases c
          · rfl
          · simp [rootBlackB] at hx
        exact hmain.2.2 hc
    · have hgt : k < key := by omega
      obtain ⟨ih1, ih2, ih3, ih4, ih5, ih6⟩ := ihr hro hnr hbr2 hknr
      have hstep : ins (node c l r k v) key value
          = (true, insFixR (node c l (ins r key value).2 k v)) := by
        rw [ins.eq_def]
        simp only [if_neg hne, if_neg hlt]
        rw [ih1]
        simp
      have hX : (node c l (ins r key value).2 k v).toList
          = l.toList ++ (k, v) :: (ins r key value).2.toList := rfl
      have hr'keys : ∀ x ∈ (ins r key value).2.keys, k < x := by
        intro x hx
        rw [RbT.keys, ih2] at hx
        simp only [List.map_append, List.map_cons, List.mem_append,
          List.mem_cons] at hx
        rcases hx with hx | rfl | hx
        · obtain ⟨e, hee, rfl⟩ := List.mem_map.1 hx
          exact hrk _ (key_mem_keys_rb (List.mem_of_mem_filter hee))
        · exact hgt
        · obtain ⟨e, hee, rfl⟩ := List.mem_map.1 hx
          exact hrk _ (key_mem_keys_rb (List.mem_of_mem_filter hee))
      have hordr' : (node c l (ins r key value).2 k v).ordered = true := by
        rw [ordered_node_iff_rb]
        exact ⟨hlk, hr'keys, hlo, ih3⟩
      have hres_ord : (insFixR (node c l (ins r key value).2 k v)).ordered = true :=
        ordered_of_toList_eq_rb
          (insFixR_toList (node c l (ins r key value).2 k v)).symm hordr'
      have htlist : (insFixR (node c l (ins r key value).2 k v)).toList
          = (node c l r k v).toList.filter (fun e => decide (e.1 < key))
            ++ (key, value) :: (node c l r k v).toList.filter
                (fun e => decide (key < e.1)) := by
        rw [insFixR_toList, hX, ih2, toList_node_rb]
        rw [List.filter_append, List.filter_append, List.filter_cons,
          List.filter_cons]
        simp only [decide_eq_true_eq, hgt, Nat.not_lt.2 (Nat.le_of_lt hgt),
          if_true, if_false]
        have h1 : l.toList.filter (fun e => decide (e.1 < key)) = l.toList := by
          apply List.filter_eq_self.2
          intro e hee
          simp only [decide_eq_true_eq]
          have := hlk _ (key_mem_keys_rb hee)
          omega
        have h2 : l.toList.filter (fun e => decide (key < e.1)) = [] := by
          apply List.filter_eq_nil_iff.2
          intro e hee
          simp only [decide_eq_true_eq]
          have := hlk _ (key_mem_keys_rb hee)
          omega
        rw [h1, h2]
        simp
      have hmain : (insFixR (node c l (ins r key value).2 k v)).bhn = some m
          ∧ (c = Color.black →
              (insFixR (node c l (ins r key value).2 k v)).nrr = true)
          ∧ (c = Color.red →
              ∃ a2 b2 k2 v2, insFixR (node c l (ins r key value).2 k v)
                  = node Color.red a2 b2 k2 v2
                ∧ a2.nrr = true ∧ b2.nrr = true
                ∧ (a2.rootBlackB = true ∨ b2.rootBlackB = true)) := by
        by_cases hrb : r.rootBlackB = true
        · have hC := ih5 hrb
          rw [insFixR_noop hC]
          refine ⟨bhn_node_split.2 ⟨al, hbl2, ih4, hm⟩, ?_, ?_⟩
          · intro hc
            subst hc
            exact nrr_node_iff.2 ⟨fun hcon => Color.noConfusion hcon, hnl, hC⟩
          · intro hc
            subst hc
            exact ⟨l, (ins r key value).2, k, v, rfl, hnl, hC,
              Or.inl (hroots rfl).1⟩
        · have hrb' : r.rootBlackB = false := by
            cases hx : r.rootBlackB
            · rfl
            · exact absurd hx hrb
          have hcb : c = Color.black := by
            cases c
            · exact absurd (hroots rfl).2 hrb
            · rfl
          subst hcb
          obtain ⟨a2, b2, k2, v2, hsh, hna, hnb, hdisj⟩ := ih6 hrb'
          obtain ⟨hba2, hbb2⟩ := bhn_node_red_iff.1 (hsh ▸ ih4)
          rw [hsh]
          have hmal : m = al + 1 := by
            rw [hm]
            simp
          by_cases hb2 : b2.rootBlackB = true
          · by_cases ha2 : a2.rootBlackB = true
            · have hCn : (node Color.red a2 b2 k2 v2).nrr = true :=
                nrr_node_iff.2 ⟨fun _ => ⟨ha2, hb2⟩, hna, hnb⟩
              rw [insFixR_noop hCn]
              refine ⟨?_, ?_, ?_⟩
              · exact bhn_node_split.2
                  ⟨al, hbl2, bhn_node_red_iff.2 ⟨hba2, hbb2⟩, by rw [hmal]; simp⟩
              · intro _
                exact nrr_node_iff.2 ⟨fun hcon => Color.noConfusion hcon, hnl, hCn⟩
              · intro hcon
                cases hcon
            · have ha2' : a2.rootBlackB = false := by
                cases hx : a2.rootBlackB
                · rfl
                · exact absurd hx ha2
              obtain ⟨aa, ab, ak, av, rfl⟩ := red_of_not_rootBlack ha2'
              obtain ⟨hbaa, hbab⟩ := bhn_node_red_iff.1 hba2
              rw [nrr_node_iff] at hna
              obtain ⟨haroots, hnaa, hnab⟩ := hna
              obtain ⟨haab, habb⟩ := haroots rfl
              rw [insFixR_fire2 hb2]
              by_cases hub : l.rootBlackB = true
              · rw [if_pos hub]
                refine ⟨?_, ?_, ?_⟩
                · rw [hmal]
                  refine bhn_node_black_iff.2 ⟨?_, ?_⟩
                  · exact bhn_node_red_iff.2 ⟨hbl2, hbaa⟩
                  · exact bhn_node_red_iff.2 ⟨hbab, hbb2⟩
                · intro _
                  refine nrr_node_iff.2 ⟨fun hcon => Color.noConfusion hcon, ?_, ?_⟩
                  · exact nrr_node_iff.2 ⟨fun _ => ⟨hub, haab⟩, hnl, hnaa⟩
                  · exact nrr_node_iff.2 ⟨fun _ => ⟨habb, hb2⟩, hnab, hnb⟩
                · intro hcon
                  cases hcon
              · have hub' : l.rootBlackB = false := by
                  cases hx : l.rootBlackB
                  · rfl
                  · exact absurd hx hub
                rw [if_neg (by rw [hub']; intro hcon; cases hcon)]
                refine ⟨?_, ?_, ?_⟩
                · rw [hmal]
                  refine bhn_node_red_iff.2 ⟨?_, ?_⟩
                  · exact bhn_setBlack_of_red hub' hbl2
                  · exact bhn_node_black_iff.2
                      ⟨bhn_node_red_iff.2 ⟨hbaa, hbab⟩, hbb2⟩
                · intro _
                  refine nrr_node_iff.2
                    ⟨fun _ => ⟨rootBlackB_setBlack l, rfl⟩, nrr_setBlack hnl, ?_⟩
                  refine nrr_node_iff.2 ⟨fun hcon => Color.noConfusion hcon, ?_, hnb⟩
                  exact nrr_node_iff.2 ⟨fun _ => ⟨haab, habb⟩, hnaa, hnab⟩
                · intro hcon
                  cases hcon
          · have hb2' : b2.rootBlackB = false := by
              cases hx : b2.rootBlackB
              · rfl
              · exact absurd hx hb2
            have ha2 : a2.rootBlackB = true := by
              rcases hdisj with hx | hx
              · exact hx
              · exact absurd hx hb2
            obtain ⟨ba, bb, bk, bv, rfl⟩ := red_of_not_rootBlack hb2'
            obtain ⟨hbba, hbbb⟩ := bhn_node_red_iff.1 hbb2
            rw [nrr_node_iff] at hnb
            obtain ⟨hbroots, hnba, hnbb⟩ := hnb
            obtain ⟨hbab, hbbb2⟩ := hbroots rfl
            rw [insFixR_fire1 ha2]
            by_cases hub : l.rootBlackB = true
            · rw [if_pos hub]
              refine ⟨?_, ?_, ?_⟩
              · rw [hmal]
                refine bhn_node_black_iff.2 ⟨?_, ?_⟩
                · exact bhn_node_red_iff.2 ⟨hbl2, hba2⟩
                · exact bhn_node_red_iff.2 ⟨hbba, hbbb⟩
              · intro _
                refine nrr_node_iff.2 ⟨fun hcon => Color.noConfusion hcon, ?_, ?_⟩
                · exact nrr_node_iff.2 ⟨fun _ => ⟨hub, ha2⟩, hnl, hna⟩
                · exact nrr_node_iff.2 ⟨fun _ => ⟨hbab, hbbb2⟩, hnba, hnbb⟩
              · intro hcon
                cases hcon
            · have hub' : l.rootBlackB = false := by
                cases hx : l.rootBlackB
                · rfl
                · exact absurd hx hub
              rw [if_neg (by rw [hub']; intro hcon; cases hcon)]
              refine ⟨?_, ?_, ?_⟩
              · rw [hmal]
                refine bhn_node_red_iff.2 ⟨?_, ?_⟩
                · exact bhn_setBlack_of_red hub' hbl2
                · exact bhn_node_black_iff.2
                    ⟨hba2, bhn_node_red_iff.2 ⟨hbba, hbbb⟩⟩
              · intro _
                refine nrr_node_iff.2
                  ⟨fun _ => ⟨rootBlackB_setBlack l, rfl⟩, nrr_setBlack hnl, ?_⟩
                refine nrr_node_iff.2 ⟨fun hcon => Color.noConfusion hcon, hna, ?_⟩
                exact nrr_node_iff.2 ⟨fun _ => ⟨hbab, hbbb2⟩, hnba, hnbb⟩
              · intro hcon
                cases hcon
      rw [hstep]
      dsimp only
      refine ⟨rfl, htlist, hres_ord, hmain.1, ?_, ?_⟩
      · intro hx
        exact hmain.2.1 (of_decide_eq_true hx)
      · intro hx
        have hc : c = Color.red := by
          cases c
          · rfl
          · simp [rootBlackB] at hx
        exact hmain.2.2 hc

theorem ins_dup {t : RbT} {key value : Nat} (ho : t.ordered = true)
    (hk : key ∈ t.keys) : ins t key value = (false, t) := by
  induction t with
  | nil => simp at hk
  | node c l r k v ihl ihr =>
    rw [ordered_node_iff_rb] at ho
    obtain ⟨hlk, hrk, hlo, hro⟩ := ho
    by_cases he : key = k
    · rw [ins.eq_def]
      simp [he]
    · rw [keys_node_rb, List.mem_append, List.mem_cons] at hk
      by_cases hlt : key < k
      · have hkl : key ∈ l.keys := by
          rcases hk with hx | hx | hx
          · exact hx
          · exact absurd hx he
          · exact absurd (hrk _ hx) (by omega)
        rw [ins.eq_def]
        simp [he, hlt, ihl hlo hkl]
      · have hkr : key ∈ r.keys := by
          rcases hk with hx | hx | hx
          · exact absurd (hlk _ hx) (by omega)
          · exact absurd hx he
          · exact hx
        rw [ins.eq_def]
        simp [he, hlt, ihr hro hkr]

theorem insert_dup_rb {t : RbT} {key value : Nat} (ho : t.ordered = true)
    (hk : key ∈ t.keys) : insert t key value = (false, t) := by
  rw [insert, ins_dup ho hk]
  simp

theorem insert_spec_rb {t : RbT} {key value : Nat} {m : Nat}
    (ho : t.ordered = true) (hn : t.nrr = true) (hb : t.bhn = some m)
    (hrt : t.rootBlackB = true) (hk : key ∉ t.keys) :
    (insert t key value).1 = true
    ∧ (insert t key value).2.toList
        = t.toList.filter (fun e => decide (e.1 < key))
          ++ (key, value) :: t.toList.filter (fun e => decide (key < e.1))
    ∧ (insert t key value).2.ordered = true
    ∧ (insert t key value).2.rootBlackB = true
    ∧ (insert t key value).2.nrr = true
    ∧ ((insert t key value).2.bhn).isSome = true := by
  obtain ⟨h1, h2, h3, h4, h5, _⟩ := @ins_spec _ _ value _ ho hn hb hk
  have hstep : insert t key value = (true, setBlack (ins t key value).2) := by
    rw [insert, h1]
    simp
  rw [hstep]
  dsimp only
  have hn' := h5 hrt
  refine ⟨rfl, by rw [toList_setBlack, h2], ?_, rootBlackB_setBlack _,
    nrr_setBlack hn', ?_⟩
  · exact ordered_of_toList_eq_rb (toList_setBlack _).symm h3
  · rcases hx : (ins t key value).2.rootBlackB
    · rw [bhn_setBlack_of_red hx h4]
      rfl
    · rcases rootBlack_cases hx with hsh | ⟨a, b, k2, v2, hsh⟩
      · rw [hsh]
        rfl
      · rw [hsh]
        rw [hsh] at h4
        rw [setBlack, h4]
        rfl

theorem ordered_filter_rb {t t' : RbT} {p : Nat × Nat → Bool}
    (h : t'.toList = t.toList.filter p) (ho : t.ordered = true) :
    t'.ordered = true := by
  rw [ordered_iff_pairwise_rb] at ho ⊢
  rw [RbT.keys, h]
  exact List.Pairwise.sublist
    (List.Sublist.map (fun e => e.1) (List.filter_sublist t.toList)) ho

theorem remove_spec_rb {t : RbT} {key : Nat} {m : Nat}
    (ho : t.ordered = true) (hn : t.nrr = true) (hb : t.bhn = some m)
    (hrt : t.rootBlackB = true) (hk : key ∈ t.keys) :
    ∃ v, (remove t key).1 = some v ∧ (key, v) ∈ t.toList
    ∧ (remove t key).2.toList = t.toList.filter (fun e => decide (e.1 ≠ key))
    ∧ (remove t key).2.ordered = true
    ∧ (remove t key).2.rootBlackB = true
    ∧ (remove t key).2.nrr = true
    ∧ ((remove t key).2.bhn).isSome = true := by
  obtain ⟨v, h1, h2, h3, h4, h5, h6, h7, h8⟩ := del_found ho hn hb hk
  refine ⟨v, h1, h2, h3, ordered_filter_rb h3 ho, h5 hrt, h4, ?_⟩
  rcases hdf : (del t key).2.2.1
  · rcases hrlf : (del t key).2.2.2
    · rw [remove]
      dsimp only
      rw [h8 ⟨hdf, hrlf⟩]
      rfl
    · obtain ⟨hq, _, _⟩ := h7 hrlf
      rw [remove]
      dsimp only
      rw [hq, bhn_nil]
      rfl
  · obtain ⟨hq, _, _⟩ := h6 hdf
    rw [remove]
    dsimp only
    rw [hq]
    rfl

/-- Every red-black tree reachable by the public mutating operations
satisfies BST order, a Black root, no Red-Red parent-child pair, and
equal black counts on every root-to-empty path. -/
theorem rbreach_inv {t : RbT} (h : RBReach t) :
    t.ordered = true ∧ t.rootBlackB = true ∧ t.nrr = true
      ∧ (t.bhn).isSome = true := by
  induction h with
  | empty => exact ⟨rfl, rfl, rfl, rfl⟩
  | insert t key value _ ih =>
    obtain ⟨ho, hrt, hn, hbs⟩ := ih
    obtain ⟨m, hb⟩ := Option.isSome_iff_exists.1 hbs
    by_cases hk : key ∈ t.keys
    · rw [insert_dup_rb ho hk]
      exact ⟨ho, hrt, hn, hbs⟩
    · obtain ⟨_, _, h3, h4, h5, h6⟩ := insert_spec_rb ho hn hb hrt hk
      exact ⟨h3, h4, h5, h6⟩
  | remove t key _ ih =>
    obtain ⟨ho, hrt, hn, hbs⟩ := ih
    obtain ⟨m, hb⟩ := Option.isSome_iff_exists.1 hbs
    by_cases hk : key ∈ t.keys
    · obtain ⟨v, _, _, _, h4, h5, h6, h7⟩ := remove_spec_rb ho hn hb hrt hk
      exact ⟨h4, h5, h6, h7⟩
    · rw [remove_miss_rb hk]
      exact ⟨ho, hrt, hn, hbs⟩
  | modify t key value _ ih =>
    obtain ⟨ho, hrt, hn, hbs⟩ := ih
    obtain ⟨h1, h2, h3, h4, h5⟩ := basicModify_pres_rb key value t
    refine ⟨h2.trans ho, h5.trans hrt, h3.trans hn, ?_⟩
    rw [h4]
    exact hbs

end RB

/-! ## Unbalanced search tree lemmas -/

namespace RT

@[simp] theorem toList_nil_raw : (nil).toList = [] := rfl

@[simp] theorem toList_node_raw (l r : RT) (k v : Nat) :
    (node l r k v).toList = l.toList ++ (k, v) :: r.toList := rfl

@[simp] theorem keys_nil_raw : (nil).keys = [] := rfl

@[simp] theorem keys_node_raw (l r : RT) (k v : Nat) :
    (node l r k v).keys = l.keys ++ k :: r.keys := by
  simp [keys, toList]

theorem key_mem_keys_raw {t : RT} {e : Nat × Nat} (he : e ∈ t.toList) :
    e.1 ∈ t.keys :=
  List.mem_map_of_mem _ he

theorem ordered_node_iff_raw {l r : RT} {k v : Nat} :
    (node l r k v).ordered = true ↔
      (∀ x ∈ l.keys, x < k) ∧ (∀ x ∈ r.keys, k < x)
        ∧ l.ordered = true ∧ r.ordered = true := by
  simp [ordered, and_assoc]

theorem ordered_iff_pairwise_raw {t : RT} :
    t.ordered = true ↔ t.keys.Pairwise (· < ·) := by
  induction t with
  | nil => simp [ordered]
  | node l r k v ihl ihr =>
    rw [ordered_node_iff_raw, keys_node_raw]
    constructor
    · rintro ⟨hlk, hrk, hlo, hro⟩
      rw [List.pairwise_append]
      refine ⟨ihl.1 hlo, ?_, ?_⟩
      · rw [List.pairwise_cons]
        exact ⟨hrk, ihr.1 hro⟩
      · intro a ha b hb
        rcases List.mem_cons.1 hb with rfl | hb
        · exact hlk a ha
        · exact lt_trans (hlk a ha) (hrk b hb)
    · intro hp
      rw [List.pairwise_append] at hp
      obtain ⟨h1, h2, h3⟩ := hp
      rw [List.pairwise_cons] at h2
      refine ⟨?_, h2.1, ihl.2 h1, ihr.2 h2.2⟩
      intro a ha
      exact h3 a ha k (by simp)

end RT

namespace RawST

open RT

theorem insert_dup_raw {t : RT} {key value : Nat} (ho : t.ordered = true)
    (hk : key ∈ t.keys) : insert t key value = (false, t) := by
  induction t with
  | nil => simp at hk
  | node l r k v ihl ihr =>
    rw [ordered_node_iff_raw] at ho
    obtain ⟨hlk, hrk, hlo, hro⟩ := ho
    by_cases he : key = k
    · rw [insert.eq_def]
      simp [he]
    · rw [keys_node_raw, List.mem_append, List.mem_cons] at hk
      by_cases hlt : key < k
      · have hkl : key ∈ l.keys := by
          rcases hk with hx | hx | hx
          · exact hx
          · exact absurd hx he
          · exact absurd (hrk _ hx) (by omega)
        rw [insert.eq_def]
        simp [he, hlt, ihl hlo hkl]
      · have hkr : key ∈ r.keys := by
          rcases hk with hx | hx | hx
          · exact absurd (hlk _ hx) (by omega)
          · exact absurd hx he
          · exact hx
        rw [insert.eq_def]
        simp [he, hlt, ihr hro hkr]

theorem insert_spec_raw {t : RT} {key value : Nat}
    (ho : t.ordered = true) (hk : key ∉ t.keys) :
    (insert t key value).1 = true
    ∧ (insert t key value).2.toList
        = t.toList.filter (fun e => decide (e.1 < key))
          ++ (key, value) :: t.toList.filter (fun e => decide (key < e.1))
    ∧ (insert t key value).2.ordered = true := by
  induction t with
  | nil => exact ⟨rfl, rfl, by simp [insert, ordered, RT.keys]⟩
  | node l r k v ihl ihr =>
    rw [ordered_node_iff_raw] at ho
    obtain ⟨hlk, hrk, hlo, hro⟩ := ho
    have hne : key ≠ k := by
      intro hcon
      exact hk (by simp [hcon])
    have hknl : key ∉ l.keys := fun hc => hk (by simp [hc])
    have hknr : key ∉ r.keys := fun hc => hk (by simp [hc])
    by_cases hlt : key < k
    · obtain ⟨ih1, ih2, ih3⟩ := ihl hlo hknl
      have hstep : insert (node l r k v) key value
          = (true, node (insert l key value).2 r k v) := by
        rw [insert.eq_def]
        simp only [if_neg hne, if_pos hlt]
        rw [ih1]
      rw [hstep]
      have hl'keys : ∀ x ∈ (insert l key value).2.keys, x < k := by
        intro x hx
        rw [RT.keys, ih2] at hx
        simp only [List.map_append, List.map_cons, List.mem_append,
          List.mem_cons] at hx
        rcases hx with hx | rfl | hx
        · obtain ⟨e, hee, rfl⟩ := List.mem_map.1 hx
          exact hlk _ (key_mem_keys_raw (List.mem_of_mem_filter hee))
        · exact hlt
        · obtain ⟨e, hee, rfl⟩ := List.mem_map.1 hx
          exact hlk _ (key_mem_keys_raw (List.mem_of_mem_filter hee))
      refine ⟨rfl, ?_, ?_⟩
      · dsimp only
        rw [toList_node_raw, toList_node_raw, ih2]
        rw [List.filter_append, List.filter_append, List.filter_cons,
          List.filter_cons]
        simp only [decide_eq_true_eq, hlt, Nat.not_lt.2 (Nat.le_of_lt hlt),
          if_true, if_false]
        have h1 : r.toList.filter (fun e => decide (e.1 < key)) = [] := by
          apply List.filter_eq_nil_iff.2
          intro e hee
          simp only [decide_eq_true_eq]
          have := hrk _ (key_mem_keys_raw hee)
          omega
        have h2 : r.toList.filter (fun e => decide (key < e.1)) = r.toList := by
          apply List.filter_eq_self.2
          intro e hee
          simp only [decide_eq_true_eq]
          have := hrk _ (key_mem_keys_raw hee)
          omega
        rw [h1, h2]
        simp
      · rw [ordered_node_iff_raw]
        exact ⟨hl'keys, hrk, ih3, hro⟩
    · have hgt : k < key := by omega
      obtain ⟨ih1, ih2, ih3⟩ := ihr hro hknr
      have hstep : insert (node l r k v) key value
          = (true, node l (insert r key value).2 k v) := by
        rw [insert.eq_def]
        simp only [if_neg hne, if_neg hlt]
        rw [ih1]
      rw [hstep]
      have hr'keys : ∀ x ∈ (insert r key value).2.keys, k < x := by
        intro x hx
        rw [RT.keys, ih2] at hx
        simp only [List.map_append, List.map_cons, List.mem_append,
          List.mem_cons] at hx
        rcases hx with hx | rfl | hx
        · obtain ⟨e, hee, rfl⟩ := List.mem_map.1 hx
          exact hrk _ (key_mem_keys_raw (List.mem_of_mem_filter hee))
        · exact hgt
        · obtain ⟨e, hee, rfl⟩ := List.mem_map.1 hx
          exact hrk _ (key_mem_keys_raw (List.mem_of_mem_filter hee))
      refine ⟨rfl, ?_, ?_⟩
      · dsimp only
        rw [toList_node_raw, toList_node_raw, ih2]
        rw [List.filter_append, List.filter_append, List.filter_cons,
          List.filter_cons]
        simp only [decide_eq_true_eq, hgt, Nat.not_lt.2 (Nat.le_of_lt hgt),
          if_true, if_false]
        have h1 : l.toList.filter (fun e => decide (e.1 < key)) = l.toList := by
          apply List.filter_eq_self.2
          intro e hee
          simp only [decide_eq_true_eq]
          have := hlk _ (key_mem_keys_raw hee)
          omega
        have h2 : l.toList.filter (fun e => decide (key < e.1)) = [] := by
          apply List.filter_eq_nil_iff.2
          intro e hee
          simp only [decide_eq_true_eq]
          have := hlk _ (key_mem_keys_raw hee)
          omega
        rw [h1, h2]
        simp
      · rw [ordered_node_iff_raw]
        exact ⟨hlk, hr'keys, hlo, ih3⟩

theorem get_found_raw {t : RT} {key v : Nat} (ho : t.ordered = true)
    (hm : (key, v) ∈ t.toList) : get t key = some v := by
  induction t with
  | nil => simp at hm
  | node l r k v0 ihl ihr =>
    rw [ordered_node_iff_raw] at ho
    obtain ⟨hlk, hrk, hlo, hro⟩ := ho
    rw [toList_node_raw, List.mem_append, List.mem_cons] at hm
    by_cases he : key = k
    · subst he
      rcases hm with hx | hx | hx
      · exact absurd (hlk _ (key_mem_keys_raw hx)) (by omega)
      · injection hx with h1 h2
        subst h2
        rw [get.eq_def]
        simp
      · exact absurd (hrk _ (key_mem_keys_raw hx)) (by omega)
    · by_cases hlt : key < k
      · have hml : (key, v) ∈ l.toList := by
          rcases hm with hx | hx | hx
          · exact hx
          · injection hx with h1 h2
            exact absurd h1 he
          · exact absurd (hrk _ (key_mem_keys_raw hx)) (by omega)
        rcases l with _ | ⟨ll, lr, lk, lv⟩
        · simp at hml
        · rw [get.eq_def]
          simp only [if_neg he, if_pos hlt]
          exact ihl hlo hml
      · have hmr : (key, v) ∈ r.toList := by
          rcases hm with hx | hx | hx
          · exact absurd (hlk _ (key_mem_keys_raw hx)) (by omega)
          · injection hx with h1 h2
            exact absurd h1 he
          · exact hx
        rcases r with _ | ⟨rl, rr, rk, rv⟩
        · simp at hmr
        · rw [get.eq_def]
          simp only [if_neg he, if_neg hlt]
          exact ihr hro hmr

theorem get_miss_raw {t : RT} {key : Nat} (hk : key ∉ t.keys) :
    get t key = none := by
  induction t with
  | nil => rfl
  | node l r k v ihl ihr =>
    have he : ¬ key = k := fun hcon => hk (by simp [hcon])
    have hknl : key ∉ l.keys := fun hc => hk (by simp [hc])
    have hknr : key ∉ r.keys := fun hc => hk (by simp [hc])
    by_cases hlt : key < k
    · rcases l with _ | ⟨ll, lr, lk, lv⟩
      · rw [get.eq_def]
        simp [he, hlt]
      · rw [get.eq_def]
        simp only [if_neg he, if_pos hlt]
        exact ihl hknl
    · rcases r with _ | ⟨rl, rr, rk, rv⟩
      · rw [get.eq_def]
        simp [he, hlt]
      · rw [get.eq_def]
        simp only [if_neg he, if_neg hlt]
        exact ihr hknr

theorem removeMin_spec_raw {t : RT} (ho : t.ordered = true) (hne : t ≠ RT.nil) :
    t.toList = (removeMin t).1 :: (removeMin t).2.toList
    ∧ (removeMin t).2.ordered = true := by
  induction t with
  | nil => exact absurd rfl hne
  | node l r k v ihl ihr =>
    rw [ordered_node_iff_raw] at ho
    obtain ⟨hlk, hrk, hlo, hro⟩ := ho
    rcases l with _ | ⟨ll, lr, lk, lv⟩
    · have hstep : removeMin (node RT.nil r k v) = ((k, v), r) := rfl
      rw [hstep]
      exact ⟨by simp, hro⟩
    · set L := node ll lr lk lv with hL
      have hLne : L ≠ RT.nil := by rw [hL]; intro hcon; cases hcon
      obtain ⟨ih1, ih2⟩ := ihl hlo hLne
      have hstep : removeMin (node L r k v)
          = ((removeMin L).1, node (removeMin L).2 r k v) := by
        rw [hL]
        rfl
      rw [hstep]
      refine ⟨?_, ?_⟩
      · simp only [toList_node_raw]
        rw [ih1]
        simp
      · rw [ordered_node_iff_raw]
        refine ⟨?_, hrk, ih2, hro⟩
        intro x hx
        apply hlk
        rw [RT.keys, ih1]
        rw [RT.keys] at hx
        simp only [List.map_cons, List.mem_cons]
        exact Or.inr hx

theorem remove_miss_raw {t : RT} {key : Nat} (hk : key ∉ t.keys) :
    remove t key = (none, t) := by
  induction t with
  | nil => rfl
  | node l r k v ihl ihr =>
    have hne : ¬ key = k := by
      intro hcon
      exact hk (by simp [hcon])
    have hknl : key ∉ l.keys := fun hc => hk (by simp [hc])
    have hknr : key ∉ r.keys := fun hc => hk (by simp [hc])
    by_cases hlt : key < k
    · rw [remove.eq_def]
      simp only [if_neg hne, if_pos hlt]
      rw [ihl hknl]
    · rw [remove.eq_def]
      simp only [if_neg hne, if_neg hlt]
      rw [ihr hknr]

theorem remove_found_raw {t : RT} {key : Nat}
    (ho : t.ordered = true) (hk : key ∈ t.keys) :
    ∃ v, (remove t key).1 = some v
      ∧ (key, v) ∈ t.toList
      ∧ (remove t key).2.toList = t.toList.filter (fun e => decide (e.1 ≠ key))
      ∧ (remove t key).2.ordered = true := by
  induction t with
  | nil => simp at hk
  | node l r k v ihl ihr =>
    rw [ordered_node_iff_raw] at ho
    obtain ⟨hlk, hrk, hlo, hro⟩ := ho
    have hfl : l.toList.filter (fun e => decide (e.1 ≠ k)) = l.toList :=
      List.filter_eq_self.2 (fun e he => by
        simp only [decide_eq_true_eq]
        have := hlk _ (key_mem_keys_raw he)
        omega)
    have hfr : r.toList.filter (fun e => decide (e.1 ≠ k)) = r.toList :=
      List.filter_eq_self.2 (fun e he => by
        simp only [decide_eq_true_eq]
        have := hrk _ (key_mem_keys_raw he)
        omega)
    by_cases he : key = k
    · subst he
      rcases l with _ | ⟨la, lb, lk, lv⟩
      · have hstep : remove (node RT.nil r key v) key = (some v, r) := by
          rw [remove.eq_def]
          simp
        rw [hstep]
        refine ⟨v, rfl, by simp, ?_, hro⟩
        dsimp only
        rw [toList_node_raw, toList_nil_raw, List.nil_append, List.filter_cons]
        rw [if_neg (by simp)]
        exact hfr.symm
      · rcases r with _ | ⟨ra, rb, rk, rv⟩
        · have hstep : remove (node (node la lb lk lv) RT.nil key v) key
              = (some v, node la lb lk lv) := by
            rw [remove.eq_def]
            simp
          rw [hstep]
          refine ⟨v, rfl, by simp, ?_, hlo⟩
          dsimp only
          conv_rhs => rw [toList_node_raw, toList_nil_raw]
          rw [List.filter_append, List.filter_cons]
          rw [if_neg (by simp)]
          rw [hfl]
          simp
        · set R := node ra rb rk rv with hR
          have hRne : R ≠ RT.nil := by rw [hR]; intro hcon; cases hcon
          obtain ⟨hm1, hm2⟩ := removeMin_spec_raw hro hRne
          have hstep : remove (node (node la lb lk lv) R key v) key
              = (some v, node (node la lb lk lv) (removeMin R).2
                  (removeMin R).1.1 (removeMin R).1.2) := by
            rw [hR]
            rw [remove.eq_def]
            simp
          set L := node la lb lk lv with hL
          rw [hstep]
          have hminmem : (removeMin R).1 ∈ R.toList := by
            rw [hm1]
            simp
          have hminkey : key < (removeMin R).1.1 :=
            hrk _ (key_mem_keys_raw hminmem)
          have hp2keys : ∀ x ∈ (removeMin R).2.keys, (removeMin R).1.1 < x := by
            have hpr := ordered_iff_pairwise_raw.1 hro
            rw [RT.keys, hm1] at hpr
            rw [List.map_cons, List.pairwise_cons] at hpr
            intro x hx
            exact hpr.1 x hx
          have hLkeys : ∀ x ∈ L.keys, x < (removeMin R).1.1 := by
            intro x hx
            exact lt_trans (hlk _ hx) hminkey
          refine ⟨v, rfl, by simp, ?_, ?_⟩
          · dsimp only
            conv_lhs => rw [toList_node_raw]
            conv_rhs => rw [toList_node_raw]
            rw [List.filter_append, List.filter_cons]
            rw [if_neg (by simp)]
            rw [hfl, hfr, hm1]
          · rw [ordered_node_iff_raw]
            exact ⟨hLkeys, hp2keys, hlo, hm2⟩
    · have hkl : key ∈ l.keys ∨ key ∈ r.keys := by
        rw [keys_node_raw] at hk
        rcases List.mem_append.1 hk with hx | hx
        · exact Or.inl hx
        · rcases List.mem_cons.1 hx with rfl | hx
          · exact absurd rfl he
          · exact Or.inr hx
      by_cases hlt : key < k
      · have hkl' : key ∈ l.keys := by
          rcases hkl with hx | hx
          · exact hx
          · exact absurd (hrk _ hx) (by omega)
        obtain ⟨v0, ih1, ih2, ih3, ih4⟩ := ihl hlo hkl'
        have hstep : remove (node l r k v) key
            = (some v0, node (remove l key).2 r k v) := by
          rw [remove.eq_def]
          simp only [if_neg he, if_pos hlt]
          rw [ih1]
        rw [hstep]
        have hl'keys : ∀ x ∈ (remove l key).2.keys, x < k := by
          intro x hx
          rw [RT.keys, ih3] at hx
          obtain ⟨e, hef, rfl⟩ := List.mem_map.1 hx
          exact hlk _ (key_mem_keys_raw (List.mem_of_mem_filter hef))
        refine ⟨v0, rfl, by simp [ih2], ?_, ?_⟩
        · dsimp only
          rw [toList_node_raw, toList_node_raw, ih3]
          rw [List.filter_append, List.filter_cons]
          rw [if_pos (by simp; omega)]
          have hfr2 : r.toList.filter (fun e => decide (e.1 ≠ key)) = r.toList :=
            List.filter_eq_self.2 (fun e hemem => by
              simp only [decide_eq_true_eq]
              have := hrk _ (key_mem_keys_raw hemem)
              omega)
          rw [hfr2]
        · rw [ordered_node_iff_raw]
          exact ⟨hl'keys, hrk, ih4, hro⟩
      · have hkr' : key ∈ r.keys := by
          rcases hkl with hx | hx
          · exact absurd (hlk _ hx) (by omega)
          · exact hx
        obtain ⟨v0, ih1, ih2, ih3, ih4⟩ := ihr hro hkr'
        have hstep : remove (node l r k v) key
            = (some v0, node l (remove r key).2 k v) := by
          rw [remove.eq_def]
          simp only [if_neg he, if_neg hlt]
          rw [ih1]
        rw [hstep]
        have hr'keys : ∀ x ∈ (remove r key).2.keys, k < x := by
          intro x hx
          rw [RT.keys, ih3] at hx
          obtain ⟨e, hef, rfl⟩ := List.mem_map.1 hx
          exact hrk _ (key_mem_keys_raw (List.mem_of_mem_filter hef))
        refine ⟨v0, rfl, by simp [ih2], ?_, ?_⟩
        · dsimp only
          rw [toList_node_raw, toList_node_raw, ih3]
          rw [List.filter_append, List.filter_cons]
          rw [if_pos (by simp; omega)]
          have hfl2 : l.toList.filter (fun e => decide (e.1 ≠ key)) = l.toList :=
            List.filter_eq_self.2 (fun e hemem => by
              simp only [decide_eq_true_eq]
              have := hlk _ (key_mem_keys_raw hemem)
              omega)
          rw [hfl2]
        · rw [ordered_node_iff_raw]
          exact ⟨hlk, hr'keys, hlo, ih4⟩

end RawST

/-! ## Shared list lemmas for the claim assemblies -/

theorem mem_insert_middle_eq {L : List (Nat × Nat)} {key value v2 : Nat}
    (hm : (key, v2) ∈ L.filter (fun e => decide (e.1 < key))
        ++ (key, value) :: L.filter (fun e => decide (key < e.1))) :
    v2 = value := by
  rcases List.mem_append.1 hm with hx | hx
  · have := (List.mem_filter.1 hx).2
    simp at this
  · rcases List.mem_cons.1 hx with hx2 | hx2
    · injection hx2 with h1 h2
    · have := (List.mem_filter.1 hx2).2
      simp at this

theorem key_mem_insert_middle {L : List (Nat × Nat)} {key value : Nat} :
    (key, value) ∈ L.filter (fun e => decide (e.1 < key))
      ++ (key, value) :: L.filter (fun e => decide (key < e.1)) := by
  simp

theorem key_notin_filter_ne {L : List (Nat × Nat)} {key : Nat} :
    key ∉ (L.filter (fun e => decide (e.1 ≠ key))).map (fun e => e.1) := by
  intro hx
  obtain ⟨e, hef, he1⟩ := List.mem_map.1 hx
  have := (List.mem_filter.1 hef).2
  simp at this
  exact this he1

theorem key_notin_removed {A B : List (Nat × Nat)} {key v : Nat}
    (hnd : ((A ++ (key, v) :: B).map (fun e => e.1)).Nodup) :
    key ∉ (A ++ B).map (fun e => e.1) := by
  rw [List.map_append, List.map_cons] at hnd
  rw [List.map_append]
  obtain ⟨ndA, ndB, hdisj⟩ := List.nodup_append.1 hnd
  intro hx
  rcases List.mem_append.1 hx with hx | hx
  · exact hdisj hx (by simp)
  · exact (List.nodup_cons.1 ndB).1 hx

namespace Tr

theorem remove_miss_treap {t : Tr} {key : Nat} (hf : t.find key = none) :
    t.remove_ key = (none, t) := by
  rcases t with _ | ⟨l, r, w, k, v⟩
  · rfl
  · simp [remove_, hf]

theorem removeD_found {t : Tr} {w k v : Nat} (ho : t.ordered = true)
    (hm : (w, k, v) ∈ t.toListW) : (t.removeD k).1 = some v := by
  obtain ⟨x, hf, hxv, _, _⟩ := find_mem ho hm
  rw [removeD]
  dsimp only
  rw [remove_fst hf]
  rw [Option.map_some']
  rw [hxv]

theorem keys_eq_toListW_map (t : Tr) :
    t.keys = t.toListW.map (fun e => e.2.1) := rfl

theorem removeD_second_none {t : Tr} {k : Nat} (ho : t.ordered = true)
    (hk : k ∈ t.keys) : ((t.removeD k).2.removeD k).1 = none := by
  obtain ⟨x, _, _, _, hlist⟩ := remove_spec ho hk
  have ho2 : (t.remove_ k).2.ordered = true := remove_ordered ho
  have hk2 : k ∉ (t.remove_ k).2.keys := by
    rw [keys_eq_toListW_map, hlist]
    intro hx
    rw [List.map_append, List.mem_append] at hx
    rcases hx with hx | hx
    · obtain ⟨e, hef, he1⟩ := List.mem_map.1 hx
      have := (List.mem_filter.1 hef).2
      simp at this
      omega
    · obtain ⟨e, hef, he1⟩ := List.mem_map.1 hx
      have := (List.mem_filter.1 hef).2
      simp at this
      omega
  have hstep : (t.removeD k).2 = (t.remove_ k).2 := rfl
  rw [hstep, removeD]
  dsimp only
  rw [remove_miss_treap ((find_none_iff ho2).2 hk2)]
  rfl

end Tr

/-! ## Claim theorems (treap) -/

/-- **C4**: for every valid treap `t` (BST order on keys, max-heap order on
weights) and key `k`, `split(t, k)` yields `(L, R)` with `L` exactly the
nodes with key ≤ `k` and `R` the rest, and `join (L, R)` equals `t` in
key set and associated values, and equals `t` structurally when all
weights are distinct. -/
theorem treap_split_join_roundtrip (t : Tr) (key : Nat)
    (ho : t.ordered = true) (hh : t.heapOk = true) :
    (t.split key).1.allKeys (fun x => decide (x ≤ key)) = true
    ∧ (t.split key).2.allKeys (fun x => decide (key < x)) = true
    ∧ (t.split key).1.toListW ++ (t.split key).2.toListW = t.toListW
    ∧ (Tr.join (t.split key).1 (t.split key).2).toListW = t.toListW
    ∧ (t.weights.Nodup → Tr.join (t.split key).1 (t.split key).2 = t) := by
  refine ⟨?_, ?_, Tr.toListW_split t key, ?_, fun hd => Tr.join_split_eq key hh hd⟩
  · rw [Tr.allKeys_iff]
    intro x hx
    rw [(Tr.split_keys_filter key ho).1] at hx
    exact (List.mem_filter.1 hx).2
  · rw [Tr.allKeys_iff]
    intro x hx
    rw [(Tr.split_keys_filter key ho).2] at hx
    exact (List.mem_filter.1 hx).2
  · rw [Tr.toListW_join]
    exact Tr.toListW_split t key

/-- Witness for C4 on the concrete treap of `test_treap_fixeddata_case_2`
(keys 6, 18, 40, 52 with distinct weights), split at 30. -/
theorem treap_split_join_roundtrip_witness :
    ((Tr.node (Tr.node (Tr.node Tr.nil Tr.nil 14 6 60) Tr.nil 22 18 180)
        (Tr.node Tr.nil Tr.nil 21 52 520) 82 40 400).split 30).1.allKeys
          (fun x => decide (x ≤ 30)) = true
    ∧ ((Tr.node (Tr.node (Tr.node Tr.nil Tr.nil 14 6 60) Tr.nil 22 18 180)
        (Tr.node Tr.nil Tr.nil 21 52 520) 82 40 400).split 30).2.allKeys
          (fun x => decide (30 < x)) = true
    ∧ ((Tr.node (Tr.node (Tr.node Tr.nil Tr.nil 14 6 60) Tr.nil 22 18 180)
        (Tr.node Tr.nil Tr.nil 21 52 520) 82 40 400).split 30).1.toListW
        ++ ((Tr.node (Tr.node (Tr.node Tr.nil Tr.nil 14 6 60) Tr.nil 22 18 180)
        (Tr.node Tr.nil Tr.nil 21 52 520) 82 40 400).split 30).2.toListW
        = (Tr.node (Tr.node (Tr.node Tr.nil Tr.nil 14 6 60) Tr.nil 22 18 180)
        (Tr.node Tr.nil Tr.nil 21 52 520) 82 40 400).toListW
    ∧ (Tr.join ((Tr.node (Tr.node (Tr.node Tr.nil Tr.nil 14 6 60) Tr.nil 22 18 180)
        (Tr.node Tr.nil Tr.nil 21 52 520) 82 40 400).split 30).1
        ((Tr.node (Tr.node (Tr.node Tr.nil Tr.nil 14 6 60) Tr.nil 22 18 180)
        (Tr.node Tr.nil Tr.nil 21 52 520) 82 40 400).split 30).2).toListW
        = (Tr.node (Tr.node (Tr.node Tr.nil Tr.nil 14 6 60) Tr.nil 22 18 180)
        (Tr.node Tr.nil Tr.nil 21 52 520) 82 40 400).toListW
    ∧ ((Tr.node (Tr.node (Tr.node Tr.nil Tr.nil 14 6 60) Tr.nil 22 18 180)
        (Tr.node Tr.nil Tr.nil 21 52 520) 82 40 400).weights.Nodup →
        Tr.join ((Tr.node (Tr.node (Tr.node Tr.nil Tr.nil 14 6 60) Tr.nil 22 18 180)
        (Tr.node Tr.nil Tr.nil 21 52 520) 82 40 400).split 30).1
        ((Tr.node (Tr.node (Tr.node Tr.nil Tr.nil 14 6 60) Tr.nil 22 18 180)
        (Tr.node Tr.nil Tr.nil 21 52 520) 82 40 400).split 30).2
        = Tr.node (Tr.node (Tr.node Tr.nil Tr.nil 14 6 60) Tr.nil 22 18 180)
        (Tr.node Tr.nil Tr.nil 21 52 520) 82 40 400) :=
  treap_split_join_roundtrip
    (Tr.node (Tr.node (Tr.node Tr.nil Tr.nil 14 6 60) Tr.nil 22 18 180)
      (Tr.node Tr.nil Tr.nil 21 52 520) 82 40 400) 30 (by decide) (by decide)

/-- **C5** (code bug): `Coll::len` for `Treap` is `todo!()`, which panics on
every call (embedded as `none`); it never returns the number of stored
entries.  `Coll::is_empty` calls `len`, so it panics as well instead of
reporting emptiness. -/
theorem treap_len_is_unimplemented :
    (∀ t : Tr, t.len = none) ∧ ∀ t : Tr, t.isEmptyColl = none :=
  ⟨fun _ => rfl, fun _ => rfl⟩

/-- **C8**: on every non-empty heap state reachable by `push`/`pop`, `top`
returns the maximum weight among all stored entries (and, being a pure
function of the tree, modifies nothing), and `pop` removes exactly the
entry holding that weight and returns it. -/
theorem treap_heap_top_pop_max (t : Tr) (hr : Tr.HeapReach t) (hne : t ≠ Tr.nil) :
    ∃ w0 k0 v0 A B,
      t.top = some w0
      ∧ (∀ x ∈ t.weights, x ≤ w0)
      ∧ t.toListW = A ++ (w0, k0, v0) :: B
      ∧ (t.pop).1 = some w0
      ∧ (t.pop).2.toListW = A ++ B := by
  obtain ⟨ho, hh⟩ := Tr.heapReach_inv hr
  rcases t with _ | ⟨l, r, w, k, v⟩
  · exact absurd rfl hne
  · refine ⟨w, k, v,
      (Tr.node l r w k v).toListW.filter (fun e => decide (e.2.1 < k)),
      (Tr.node l r w k v).toListW.filter (fun e => decide (k < e.2.1)),
      rfl, ?_, ?_, ?_, ?_⟩
    · intro x hx
      simpa [Tr.weightD] using Tr.heapOk_weightD_le hh x hx
    · exact Tr.toListW_decomp_at ho (by simp)
    · simp only [Tr.pop]
      rw [Tr.remove_fst (Tr.find_root l r w k v)]
      rfl
    · simp only [Tr.pop]
      obtain ⟨x, _, _, _, h4⟩ := Tr.remove_spec ho
        (show k ∈ (Tr.node l r w k v).keys by simp)
      exact h4

/-- Witness for C8 on the heap reached by `push(6, 14); push(52, 21)`. -/
theorem treap_heap_top_pop_max_witness :
    ∃ w0 k0 v0 A B,
      ((Tr.nil.push 6 14).push 52 21).top = some w0
      ∧ (∀ x ∈ ((Tr.nil.push 6 14).push 52 21).weights, x ≤ w0)
      ∧ ((Tr.nil.push 6 14).push 52 21).toListW = A ++ (w0, k0, v0) :: B
      ∧ (((Tr.nil.push 6 14).push 52 21).pop).1 = some w0
      ∧ (((Tr.nil.push 6 14).push 52 21).pop).2.toListW = A ++ B :=
  treap_heap_top_pop_max ((Tr.nil.push 6 14).push 52 21)
    (Tr.HeapReach.push (Tr.nil.push 6 14) 52 21
      (Tr.HeapReach.push Tr.nil 6 14 Tr.HeapReach.empty))
    (by simp [Tr.push, Tr.insert_, Tr.find, Tr.split, Tr.join])


/-! ## Claim theorems (splay) -/

/-- **C9**: for the splay variant, whenever `get(k)` returns a value, the
node holding key `k` (with the returned value) is the root of the tree
immediately after the call. -/
theorem splay_get_roots_accessed (t : ST) (key v : Nat) (t' : ST)
    (h : Splay.get t key = (some v, t')) :
    t'.rootKey = some key ∧ t'.rootVal = some v := by
  rcases hz : Splay.searchZ t key [] with ⟨focus, ctx'⟩
  rcases focus with _ | ⟨l, r, k0, v0⟩
  · simp [Splay.get, hz] at h
  · by_cases hne : k0 ≠ key
    · simp [Splay.get, hz, hne] at h
    · push_neg at hne
      subst hne
      obtain ⟨L, R, hsp⟩ := Splay.splay_root ctx' l r k0 v0
      have hget : Splay.get t k0 = (some v0, Splay.splay (ST.node l r k0 v0) ctx') := by
        simp [Splay.get, hz]
      rw [hget, hsp] at h
      rw [Prod.mk.injEq] at h
      obtain ⟨h1, h2⟩ := h
      rw [← h2]
      injection h1 with h1
      rw [← h1]
      exact ⟨rfl, rfl⟩

/-- Witness for C9 on scenario S4: insert 71, insert 13, remove 71, then
`get(13)`; afterwards 13 is at the root. -/
theorem splay_get_roots_accessed_witness :
    ((Splay.get ((Splay.remove ((Splay.insert ((Splay.insert ST.nil 71 0).2)
        13 0).2) 71).2) 13).2).rootKey = some 13
    ∧ ((Splay.get ((Splay.remove ((Splay.insert ((Splay.insert ST.nil 71 0).2)
        13 0).2) 71).2) 13).2).rootVal = some 0 :=
  splay_get_roots_accessed
    ((Splay.remove ((Splay.insert ((Splay.insert ST.nil 71 0).2) 13 0).2) 71).2)
    13 0
    ((Splay.get ((Splay.remove ((Splay.insert ((Splay.insert ST.nil 71 0).2)
        13 0).2) 71).2) 13).2)
    (by decide)

/-- **C1** (code bug): `Splay::modify` omits the key-equality check that
`Splay::get`/`remove`/`insert` perform: on the singleton splay dictionary
{1 ↦ 10}, `modify(2, 20)` returns `true` and overwrites the value stored
under key 1, although key 2 is absent — the claim (and the `Dictionary`
trait contract) require `false` and an unchanged store. -/
theorem splay_modify_absent_key_bug :
    Splay.modify (ST.node ST.nil ST.nil 1 10) 2 20
      = (true, ST.node ST.nil ST.nil 1 20) := rfl

/-! ## Claim theorems (AVL validator) -/

/-- **C10**: `AVL::self_validate` checks the balance factor only at the
root: the tree with root 10, left spine 3-2-1 and right spine 22-21-20
passes `self_validate` (root balance factor 0, every parent-child key
comparison fine), although its left child has computed child heights
differing by 2. -/
theorem avl_self_validate_root_only :
    (AT.node
      (AT.node (AT.node (AT.node AT.nil AT.nil 0 1 0) AT.nil 1 2 0) AT.nil 2 3 0)
      (AT.node (AT.node (AT.node AT.nil AT.nil 0 20 0) AT.nil 1 21 0) AT.nil 2 22 0)
      3 10 0).selfValidate = true
    ∧ ((AT.node (AT.node (AT.node AT.nil AT.nil 0 1 0) AT.nil 1 2 0)
        AT.nil 2 3 0).calcBf).natAbs > 1
    ∧ (AT.node
      (AT.node (AT.node (AT.node AT.nil AT.nil 0 1 0) AT.nil 1 2 0) AT.nil 2 3 0)
      (AT.node (AT.node (AT.node AT.nil AT.nil 0 20 0) AT.nil 1 21 0) AT.nil 2 22 0)
      3 10 0).balanced = false := by
  decide

/-! ## Claim theorems (AVL invariants) -/

/-- **C3**: every AVL tree reachable from the empty tree by the public
operations (insert, remove, modify; get and get_mut leave the tree
unchanged) satisfies at every node the BST order, a stored height field
equal to 1 + max of the children's heights (empty child = −1), and
|height(right) − height(left)| ≤ 1. -/
theorem avl_invariants_reachable (t : AT) (h : AReach t) :
    t.ordered = true ∧ t.heightsOk = true ∧ t.balanced = true :=
  AVL.areach_inv h

/-- A concrete reachable state for the C3 theorem: insert 5, 2, 9, then
remove 5; the invariants evaluate to `true` on the result. -/
theorem avl_invariants_reachable_witness :
    ((AVL.remove (AVL.insert (AVL.insert (AVL.insert AT.nil 5 50).2
        2 20).2 9 90).2 5).2).ordered = true
    ∧ ((AVL.remove (AVL.insert (AVL.insert (AVL.insert AT.nil 5 50).2
        2 20).2 9 90).2 5).2).heightsOk = true
    ∧ ((AVL.remove (AVL.insert (AVL.insert (AVL.insert AT.nil 5 50).2
        2 20).2 9 90).2 5).2).balanced = true :=
  avl_invariants_reachable _
    (AReach.remove _ 5 (AReach.insert _ 9 90
      (AReach.insert _ 2 20 (AReach.insert _ 5 50 AReach.empty))))

/-! ## Claim theorems (red-black invariants) -/

/-- **C2**: every red-black tree reachable from the empty tree by the
public operations (insert, remove, modify; get and get_mut leave the
tree unchanged) has a Black root, no Red node with a Red child, and the
same number of Black nodes on every root-to-empty path, the empty
children counting as Black (`bhn` is the shared count and is `none`
when two paths disagree). -/
theorem rb_invariants_reachable (t : RbT) (h : RBReach t) :
    t.rootBlackB = true ∧ t.nrr = true ∧ (t.bhn).isSome = true :=
  ⟨(RB.rbreach_inv h).2.1, (RB.rbreach_inv h).2.2.1, (RB.rbreach_inv h).2.2.2⟩

/-- A concrete reachable state for the C2 theorem: insert 5, 2, 9, 12,
then remove 5; the three invariants evaluate to `true` on the result. -/
theorem rb_invariants_reachable_witness :
    ((RB.remove (RB.insert (RB.insert (RB.insert (RB.insert RbT.nil
        5 50).2 2 20).2 9 90).2 12 120).2 5).2).rootBlackB = true
    ∧ ((RB.remove (RB.insert (RB.insert (RB.insert (RB.insert RbT.nil
        5 50).2 2 20).2 9 90).2 12 120).2 5).2).nrr = true
    ∧ (((RB.remove (RB.insert (RB.insert (RB.insert (RB.insert RbT.nil
        5 50).2 2 20).2 9 90).2 12 120).2 5).2).bhn).isSome = true :=
  rb_invariants_reachable _
    (RBReach.remove _ 5 (RBReach.insert _ 12 120 (RBReach.insert _ 9 90
      (RBReach.insert _ 2 20 (RBReach.insert _ 5 50 RBReach.empty)))))

/-! ## Claim theorems (duplicate insert) -/

/-- **C6**: in every variant, inserting a key that is already stored
with value `v` returns `false` and leaves the store unchanged — `get`
still returns `v`; and from a state where the key is absent, two
inserts return `true` then `false` with the stored value unchanged.
The treap carries an explicit weight; the others store (key, value). -/
theorem insert_duplicate_noop :
    (∀ (t : Tr) (k v v2 w w2 : Nat), t.ordered = true → (w, k, v) ∈ t.toListW →
        t.insert_ k v2 w2 = (false, t) ∧ t.get k = some v)
    ∧ (∀ (t : ST) (k v v2 : Nat), t.ordered = true → (k, v) ∈ t.toList →
        Splay.insert t k v2 = (false, t) ∧ (Splay.get t k).1 = some v)
    ∧ (∀ (t : AT) (k v v2 : Nat), t.ordered = true → (k, v) ∈ t.toList →
        AVL.insert t k v2 = (false, t) ∧ AVL.get t k = some v)
    ∧ (∀ (t : RbT) (k v v2 : Nat), t.ordered = true → (k, v) ∈ t.toList →
        RB.insert t k v2 = (false, t) ∧ RB.get t k = some v)
    ∧ (∀ (t : RT) (k v v2 : Nat), t.ordered = true → (k, v) ∈ t.toList →
        RawST.insert t k v2 = (false, t) ∧ RawST.get t k = some v)
    ∧ (∀ (t : Tr) (k v v2 w w2 : Nat), t.ordered = true → k ∉ t.keys →
        (t.insert_ k v w).1 = true
        ∧ (t.insert_ k v w).2.insert_ k v2 w2 = (false, (t.insert_ k v w).2)
        ∧ (t.insert_ k v w).2.get k = some v)
    ∧ (∀ (t : ST) (k v v2 : Nat), t.ordered = true → k ∉ t.keys →
        (Splay.insert t k v).1 = true
        ∧ Splay.insert (Splay.insert t k v).2 k v2
            = (false, (Splay.insert t k v).2)
        ∧ (Splay.get (Splay.insert t k v).2 k).1 = some v)
    ∧ (∀ (t : AT) (k v v2 : Nat), t.ordered = true → t.heightsOk = true →
        t.balanced = true → k ∉ t.keys →
        (AVL.insert t k v).1 = true
        ∧ AVL.insert (AVL.insert t k v).2 k v2 = (false, (AVL.insert t k v).2)
        ∧ AVL.get (AVL.insert t k v).2 k = some v)
    ∧ (∀ (t : RbT) (k v v2 : Nat) (m : Nat), t.ordered = true → t.nrr = true →
        t.bhn = some m → t.rootBlackB = true → k ∉ t.keys →
        (RB.insert t k v).1 = true
        ∧ RB.insert (RB.insert t k v).2 k v2 = (false, (RB.insert t k v).2)
        ∧ RB.get (RB.insert t k v).2 k = some v)
    ∧ (∀ (t : RT) (k v v2 : Nat), t.ordered = true → k ∉ t.keys →
        (RawST.insert t k v).1 = true
        ∧ RawST.insert (RawST.insert t k v).2 k v2
            = (false, (RawST.insert t k v).2)
        ∧ RawST.get (RawST.insert t k v).2 k = some v) := by
  refine ⟨?_, ?_, ?_, ?_, ?_, ?_, ?_, ?_, ?_, ?_⟩
  · intro t k v v2 w w2 ho hm
    exact ⟨Tr.insert_dup ho (Tr.key_mem_keys hm), Tr.get_mem ho hm⟩
  · intro t k v v2 ho hm
    exact ⟨Splay.insert_dup_splay ho hm, (Splay.get_found ho hm).1⟩
  · intro t k v v2 ho hm
    exact ⟨AVL.insert_dup_avl ho (AT.key_mem_keys_avl hm),
      AVL.get_found_avl ho hm⟩
  · intro t k v v2 ho hm
    exact ⟨RB.insert_dup_rb ho (RbT.key_mem_keys_rb hm),
      RB.get_found_rb ho hm⟩
  · intro t k v v2 ho hm
    exact ⟨RawST.insert_dup_raw ho (RT.key_mem_keys_raw hm),
      RawST.get_found_raw ho hm⟩
  · intro t k v v2 w w2 ho hk
    obtain ⟨h1, h2⟩ := Tr.insert_spec (v := v) (w := w) ho hk
    have ho1 : (t.insert_ k v w).2.ordered = true := Tr.insert_ordered ho hk
    have hm1 : (w, k, v) ∈ (t.insert_ k v w).2.toListW := by
      rw [h2]
      simp
    exact ⟨h1, Tr.insert_dup ho1 (Tr.key_mem_keys hm1), Tr.get_mem ho1 hm1⟩
  · intro t k v v2 ho hk
    obtain ⟨h1, A, B, hAB, h2, h3⟩ := @Splay.insert_absent _ _ v ho hk
    have hm1 : (k, v) ∈ (Splay.insert t k v).2.toList := by
      rw [h2]
      simp
    exact ⟨h1, Splay.insert_dup_splay h3 hm1, (Splay.get_found h3 hm1).1⟩
  · intro t k v v2 ho hH hB hk
    obtain ⟨h1, h2, h3, _, _, _, _⟩ := @AVL.insert_spec_avl _ _ v ho hH hB hk
    have hm1 : (k, v) ∈ (AVL.insert t k v).2.toList := by
      rw [h2]
      exact key_mem_insert_middle
    exact ⟨h1, AVL.insert_dup_avl h3 (AT.key_mem_keys_avl hm1),
      AVL.get_found_avl h3 hm1⟩
  · intro t k v v2 m ho hn hb hrt hk
    obtain ⟨h1, h2, h3, _, _, _⟩ := @RB.insert_spec_rb _ _ v _ ho hn hb hrt hk
    have hm1 : (k, v) ∈ (RB.insert t k v).2.toList := by
      rw [h2]
      exact key_mem_insert_middle
    exact ⟨h1, RB.insert_dup_rb h3 (RbT.key_mem_keys_rb hm1),
      RB.get_found_rb h3 hm1⟩
  · intro t k v v2 ho hk
    obtain ⟨h1, h2, h3⟩ := @RawST.insert_spec_raw _ _ v ho hk
    have hm1 : (k, v) ∈ (RawST.insert t k v).2.toList := by
      rw [h2]
      exact key_mem_insert_middle
    exact ⟨h1, RawST.insert_dup_raw h3 (RT.key_mem_keys_raw hm1),
      RawST.get_found_raw h3 hm1⟩

/-- Concrete instances for the C6 theorem: duplicate inserts on
one-entry stores, and double inserts from the empty store, across all
five variants. -/
theorem insert_duplicate_noop_witness :
    (Tr.insert_ (Tr.node Tr.nil Tr.nil 5 1 10) 1 99 7
        = (false, Tr.node Tr.nil Tr.nil 5 1 10)
      ∧ Tr.get (Tr.node Tr.nil Tr.nil 5 1 10) 1 = some 10)
    ∧ (Splay.insert (ST.node ST.nil ST.nil 1 10) 1 99
        = (false, ST.node ST.nil ST.nil 1 10)
      ∧ (Splay.get (ST.node ST.nil ST.nil 1 10) 1).1 = some 10)
    ∧ (AVL.insert (AT.node AT.nil AT.nil 0 1 10) 1 99
        = (false, AT.node AT.nil AT.nil 0 1 10)
      ∧ AVL.get (AT.node AT.nil AT.nil 0 1 10) 1 = some 10)
    ∧ (RB.insert (RbT.node Color.black RbT.nil RbT.nil 1 10) 1 99
        = (false, RbT.node Color.black RbT.nil RbT.nil 1 10)
      ∧ RB.get (RbT.node Color.black RbT.nil RbT.nil 1 10) 1 = some 10)
    ∧ (RawST.insert (RT.node RT.nil RT.nil 1 10) 1 99
        = (false, RT.node RT.nil RT.nil 1 10)
      ∧ RawST.get (RT.node RT.nil RT.nil 1 10) 1 = some 10)
    ∧ ((Tr.insert_ Tr.nil 1 10 5).1 = true
      ∧ (Tr.insert_ Tr.nil 1 10 5).2.insert_ 1 99 7
          = (false, (Tr.insert_ Tr.nil 1 10 5).2)
      ∧ (Tr.insert_ Tr.nil 1 10 5).2.get 1 = some 10)
    ∧ ((Splay.insert ST.nil 1 10).1 = true
      ∧ Splay.insert (Splay.insert ST.nil 1 10).2 1 99
          = (false, (Splay.insert ST.nil 1 10).2)
      ∧ (Splay.get (Splay.insert ST.nil 1 10).2 1).1 = some 10)
    ∧ ((AVL.insert AT.nil 1 10).1 = true
      ∧ AVL.insert (AVL.insert AT.nil 1 10).2 1 99
          = (false, (AVL.insert AT.nil 1 10).2)
      ∧ AVL.get (AVL.insert AT.nil 1 10).2 1 = some 10)
    ∧ ((RB.insert RbT.nil 1 10).1 = true
      ∧ RB.insert (RB.insert RbT.nil 1 10).2 1 99
          = (false, (RB.insert RbT.nil 1 10).2)
      ∧ RB.get (RB.insert RbT.nil 1 10).2 1 = some 10)
    ∧ ((RawST.insert RT.nil 1 10).1 = true
      ∧ RawST.insert (RawST.insert RT.nil 1 10).2 1 99
          = (false, (RawST.insert RT.nil 1 10).2)
      ∧ RawST.get (RawST.insert RT.nil 1 10).2 1 = some 10) :=
  ⟨insert_duplicate_noop.1 _ 1 10 99 5 7 (by decide) (by decide),
    insert_duplicate_noop.2.1 _ 1 10 99 (by decide) (by decide),
    insert_duplicate_noop.2.2.1 _ 1 10 99 (by decide) (by decide),
    insert_duplicate_noop.2.2.2.1 _ 1 10 99 (by decide) (by decide),
    insert_duplicate_noop.2.2.2.2.1 _ 1 10 99 (by decide) (by decide),
    insert_duplicate_noop.2.2.2.2.2.1 _ 1 10 99 5 7 (by decide) (by decide),
    insert_duplicate_noop.2.2.2.2.2.2.1 _ 1 10 99 (by decide) (by decide),
    insert_duplicate_noop.2.2.2.2.2.2.2.1 _ 1 10 99 (by decide) (by decide)
      (by decide) (by decide),
    insert_duplicate_noop.2.2.2.2.2.2.2.2.1 _ 1 10 99 1 (by decide) (by decide)
      (by decide) (by decide) (by decide),
    insert_duplicate_noop.2.2.2.2.2.2.2.2.2 _ 1 10 99 (by decide) (by decide)⟩

/-! ## Claim theorems (insert/get/remove roundtrip) -/

/-- **C7**: in every variant, from a state where key `k` is absent,
`insert(k, v)` returns `true`; then `get(k)` returns `v`, `remove(k)`
returns `v`, and a second `remove(k)` immediately afterwards returns
absent. The treap carries an explicit weight; its `remove` is the
`Dictionary::remove` wrapper `removeD` returning the stored value. -/
theorem insert_get_remove_roundtrip :
    (∀ (t : Tr) (k v w : Nat), t.ordered = true → k ∉ t.keys →
        (t.insert_ k v w).1 = true
        ∧ (t.insert_ k v w).2.get k = some v
        ∧ ((t.insert_ k v w).2.removeD k).1 = some v
        ∧ (((t.insert_ k v w).2.removeD k).2.removeD k).1 = none)
    ∧ (∀ (t : ST) (k v : Nat), t.ordered = true → k ∉ t.keys →
        (Splay.insert t k v).1 = true
        ∧ (Splay.get (Splay.insert t k v).2 k).1 = some v
        ∧ (Splay.remove (Splay.insert t k v).2 k).1 = some v
        ∧ (Splay.remove (Splay.remove (Splay.insert t k v).2 k).2 k).1 = none)
    ∧ (∀ (t : AT) (k v : Nat), t.ordered = true → t.heightsOk = true →
        t.balanced = true → k ∉ t.keys →
        (AVL.insert t k v).1 = true
        ∧ AVL.get (AVL.insert t k v).2 k = some v
        ∧ (AVL.remove (AVL.insert t k v).2 k).1 = some v
        ∧ (AVL.remove (AVL.remove (AVL.insert t k v).2 k).2 k).1 = none)
    ∧ (∀ (t : RbT) (k v m : Nat), t.ordered = true → t.nrr = true →
        t.bhn = some m → t.rootBlackB = true → k ∉ t.keys →
        (RB.insert t k v).1 = true
        ∧ RB.get (RB.insert t k v).2 k = some v
        ∧ (RB.remove (RB.insert t k v).2 k).1 = some v
        ∧ (RB.remove (RB.remove (RB.insert t k v).2 k).2 k).1 = none)
    ∧ (∀ (t : RT) (k v : Nat), t.ordered = true → k ∉ t.keys →
        (RawST.insert t k v).1 = true
        ∧ RawST.get (RawST.insert t k v).2 k = some v
        ∧ (RawST.remove (RawST.insert t k v).2 k).1 = some v
        ∧ (RawST.remove (RawST.remove (RawST.insert t k v).2 k).2 k).1
            = none) := by
  refine ⟨?_, ?_, ?_, ?_, ?_⟩
  · intro t k v w ho hk
    obtain ⟨h1, h2⟩ := Tr.insert_spec (v := v) (w := w) ho hk
    have ho1 : (t.insert_ k v w).2.ordered = true := Tr.insert_ordered ho hk
    have hm1 : (w, k, v) ∈ (t.insert_ k v w).2.toListW := by
      rw [h2]
      simp
    exact ⟨h1, Tr.get_mem ho1 hm1, Tr.removeD_found ho1 hm1,
      Tr.removeD_second_none ho1 (Tr.key_mem_keys hm1)⟩
  · intro t k v ho hk
    obtain ⟨h1, A, B, hAB, h2, h3⟩ := @Splay.insert_absent _ _ v ho hk
    have hm1 : (k, v) ∈ (Splay.insert t k v).2.toList := by
      rw [h2]
      simp
    obtain ⟨hr1, A2, B2, hA2, hB2, hord2⟩ := Splay.remove_found h3 hm1
    have hnd : ((A2 ++ (k, v) :: B2).map (fun e => e.1)).Nodup := by
      have := ST.ordered_keys_nodup_splay h3
      rw [ST.keys, hA2] at this
      exact this
    have hk2 : k ∉ (Splay.remove (Splay.insert t k v).2 k).2.keys := by
      rw [ST.keys, hB2]
      exact key_notin_removed hnd
    refine ⟨h1, (Splay.get_found h3 hm1).1, hr1, ?_⟩
    rw [Splay.remove_miss hk2]
  · intro t k v ho hH hB hk
    obtain ⟨h1, h2, h3, h4, h5, _, _⟩ := @AVL.insert_spec_avl _ _ v ho hH hB hk
    have hm1 : (k, v) ∈ (AVL.insert t k v).2.toList := by
      rw [h2]
      exact key_mem_insert_middle
    obtain ⟨v0, hr1, hrmem, hrlist, hro2, _, _, _, _⟩ :=
      AVL.remove_found_avl h3 h4 h5 (AT.key_mem_keys_avl hm1)
    have hv0 : v0 = v := by
      rw [h2] at hrmem
      exact mem_insert_middle_eq hrmem
    have hk2 : k ∉ (AVL.remove (AVL.insert t k v).2 k).2.keys := by
      rw [AT.keys, hrlist]
      exact key_notin_filter_ne
    refine ⟨h1, AVL.get_found_avl h3 hm1, by rw [hr1, hv0], ?_⟩
    rw [AVL.remove_miss_avl hk2]
  · intro t k v m ho hn hb hrt hk
    obtain ⟨h1, h2, h3, h4, h5, h6⟩ := @RB.insert_spec_rb _ _ v _ ho hn hb hrt hk
    obtain ⟨m1, hb1⟩ := Option.isSome_iff_exists.1 h6
    have hm1 : (k, v) ∈ (RB.insert t k v).2.toList := by
      rw [h2]
      exact key_mem_insert_middle
    obtain ⟨v0, hr1, hrmem, hrlist, hro2, _, _, _⟩ :=
      RB.remove_spec_rb h3 h5 hb1 h4 (RbT.key_mem_keys_rb hm1)
    have hv0 : v0 = v := by
      rw [h2] at hrmem
      exact mem_insert_middle_eq hrmem
    have hk2 : k ∉ (RB.remove (RB.insert t k v).2 k).2.keys := by
      rw [RbT.keys, hrlist]
      exact key_notin_filter_ne
    refine ⟨h1, RB.get_found_rb h3 hm1, by rw [hr1, hv0], ?_⟩
    rw [RB.remove_miss_rb hk2]
  · intro t k v ho hk
    obtain ⟨h1, h2, h3⟩ := @RawST.insert_spec_raw _ _ v ho hk
    have hm1 : (k, v) ∈ (RawST.insert t k v).2.toList := by
      rw [h2]
      exact key_mem_insert_middle
    obtain ⟨v0, hr1, hrmem, hrlist, hro2⟩ :=
      RawST.remove_found_raw h3 (RT.key_mem_keys_raw hm1)
    have hv0 : v0 = v := by
      rw [h2] at hrmem
      exact mem_insert_middle_eq hrmem
    have hk2 : k ∉ (RawST.remove (RawST.insert t k v).2 k).2.keys := by
      rw [RT.keys, hrlist]
      exact key_notin_filter_ne
    refine ⟨h1, RawST.get_found_raw h3 hm1, by rw [hr1, hv0], ?_⟩
    rw [RawST.remove_miss_raw hk2]

/-- Concrete instances for the C7 theorem: insert key 2 into a
one-entry store, then get and remove it twice, across all five
variants. -/
theorem insert_get_remove_roundtrip_witness :
    ((Tr.insert_ (Tr.node Tr.nil Tr.nil 5 1 10) 2 20 3).1 = true
      ∧ (Tr.insert_ (Tr.node Tr.nil Tr.nil 5 1 10) 2 20 3).2.get 2 = some 20
      ∧ ((Tr.insert_ (Tr.node Tr.nil Tr.nil 5 1 10) 2 20 3).2.removeD 2).1
          = some 20
      ∧ (((Tr.insert_ (Tr.node Tr.nil Tr.nil 5 1 10) 2 20 3).2.removeD
            2).2.removeD 2).1 = none)
    ∧ ((Splay.insert (ST.node ST.nil ST.nil 1 10) 2 20).1 = true
      ∧ (Splay.get (Splay.insert (ST.node ST.nil ST.nil 1 10) 2 20).2 2).1
          = some 20
      ∧ (Splay.remove (Splay.insert (ST.node ST.nil ST.nil 1 10) 2 20).2 2).1
          = some 20
      ∧ (Splay.remove (Splay.remove
          (Splay.insert (ST.node ST.nil ST.nil 1 10) 2 20).2 2).2 2).1 = none)
    ∧ ((AVL.insert (AT.node AT.nil AT.nil 0 1 10) 2 20).1 = true
      ∧ AVL.get (AVL.insert (AT.node AT.nil AT.nil 0 1 10) 2 20).2 2 = some 20
      ∧ (AVL.remove (AVL.insert (AT.node AT.nil AT.nil 0 1 10) 2 20).2 2).1
          = some 20
      ∧ (AVL.remove (AVL.remove
          (AVL.insert (AT.node AT.nil AT.nil 0 1 10) 2 20).2 2).2 2).1 = none)
    ∧ ((RB.insert (RbT.node Color.black RbT.nil RbT.nil 1 10) 2 20).1 = true
      ∧ RB.get (RB.insert (RbT.node Color.black RbT.nil RbT.nil 1 10) 2 20).2 2
          = some 20
      ∧ (RB.remove (RB.insert
          (RbT.node Color.black RbT.nil RbT.nil 1 10) 2 20).2 2).1 = some 20
      ∧ (RB.remove (RB.remove (RB.insert
          (RbT.node Color.black RbT.nil RbT.nil 1 10) 2 20).2 2).2 2).1 = none)
    ∧ ((RawST.insert (RT.node RT.nil RT.nil 1 10) 2 20).1 = true
      ∧ RawST.get (RawST.insert (RT.node RT.nil RT.nil 1 10) 2 20).2 2 = some 20
      ∧ (RawST.remove (RawST.insert (RT.node RT.nil RT.nil 1 10) 2 20).2 2).1
          = some 20
      ∧ (RawST.remove (RawST.remove
          (RawST.insert (RT.node RT.nil RT.nil 1 10) 2 20).2 2).2 2).1
          = none) :=
  ⟨insert_get_remove_roundtrip.1 _ 2 20 3 (by decide) (by decide),
    insert_get_remove_roundtrip.2.1 _ 2 20 (by decide) (by decide),
    insert_get_remove_roundtrip.2.2.1 _ 2 20 (by decide) (by decide)
      (by decide) (by decide),
    insert_get_remove_roundtrip.2.2.2.1 _ 2 20 2 (by decide) (by decide)
      (by decide) (by decide) (by decide),
    insert_get_remove_roundtrip.2.2.2.2 _ 2 20 (by decide) (by decide)⟩

end RsBtBst
